import Mathlib

/-!
# sv.h: search, splitting and strict integer parsing of the string-view library

A shallow embedding of the search, split and integer-parse functions of
`src/sv.h` and the properties of them that the specification states.

Modelling conventions

* A byte (`unsigned char`) is a `Fin 256`.  A `char` argument is represented
  by the byte it converts to under `(unsigned char)`.
* A pointer is a natural-number address; address `0` is `NULL`.  Memory is a
  total map from addresses to bytes.
* `size_t` is 64 bits wide.  Every `size_t` addition and subtraction of the
  source is written with an explicit reduction modulo `2^64`.
* Loops whose trip count is not syntactically bounded are run with fuel;
  such functions return `none` when the fuel is exhausted, and the theorems
  show that this never happens.
* An output pointer is an `Option`: `none` for `NULL`, `some v` for a location
  holding `v`; a function with output pointers returns the locations as they
  are after the call.
* `uint64_t` arithmetic is written with an explicit reduction modulo `2^64`;
  an `int64_t` value is an integer.
-/

namespace Sv

/-! ## Data model -/

/-- An `unsigned char`. -/
abbrev Byte := Fin 256

/-- Flat byte-addressed memory; reads are total in the model. -/
abbrev Memory := Nat → Byte

/-- `SIZE_MAX` for a 64-bit `size_t`, that is `2^64 - 1`. -/
def SIZE_MAX : Nat := 18446744073709551615

/-- `#define SV_NPOS SIZE_MAX` (sv.h:60-62). -/
def SV_NPOS : Nat := SIZE_MAX

/-- Addition of two `size_t` values (wraps modulo `2^64`). -/
def size_add (a b : Nat) : Nat := (a + b) % (SIZE_MAX + 1)

/-- Subtraction of two `size_t` values (wraps modulo `2^64`). -/
def size_sub (a b : Nat) : Nat := (a + (SIZE_MAX + 1) - b % (SIZE_MAX + 1)) % (SIZE_MAX + 1)

/-- `typedef struct { const char *begin; size_t length; } StringView;`
(sv.h:98-101). -/
structure StringView where
  begin : Nat
  length : Nat
deriving DecidableEq, Repr

/-- The data-model invariant of a view: a non-empty view has a non-null
`begin`, and the one-past-the-end pointer `begin + length` is representable.
In particular `length` is a `size_t` value below `SIZE_MAX`. -/
def StringView.valid (sv : StringView) : Prop :=
  (sv.length ≠ 0 → sv.begin ≠ 0) ∧ sv.begin + sv.length ≤ SIZE_MAX

instance (sv : StringView) : Decidable sv.valid :=
  inferInstanceAs (Decidable ((sv.length ≠ 0 → sv.begin ≠ 0) ∧ sv.begin + sv.length ≤ SIZE_MAX))

/-- `sv_empty` (sv.h:330-341): the zero-initialised view `{NULL, 0}`. -/
def sv_empty : StringView := { begin := 0, length := 0 }

/-! ## Access -/

/-- `sv_at` (sv.h:365-370): the byte `sv.begin[i]`; the caller keeps
`i < sv.length`. -/
def sv_at (mem : Memory) (sv : StringView) (i : Nat) : Byte := mem (sv.begin + i)

/-! ## Library primitives -/

/-- C library `memchr(s, c, n)`: pointer to the first of the `n` bytes at `s`
equal to `c`, or `NULL` (`none`). -/
def memchr (mem : Memory) (s : Nat) (c : Byte) : Nat → Option Nat
  | 0 => none
  | n + 1 => if mem s = c then some s else memchr mem (s + 1) c n

/-- C library `memcmp(s1, s2, n)`: zero when the `n` bytes at `s1` and at `s2`
agree, otherwise the difference of the first pair of bytes that differ. -/
def memcmp (mem : Memory) (s1 s2 : Nat) : Nat → Int
  | 0 => 0
  | n + 1 =>
    if mem s1 = mem s2 then memcmp mem (s1 + 1) (s2 + 1) n
    else ((mem s1).val : Int) - ((mem s2).val : Int)

/-- The `while (n--)` loop of `sv_memrchr_` (sv.h:322-324); `p` is the running
pointer, pre-decremented before each read. -/
def sv_memrchr_loop (mem : Memory) (c : Byte) (p : Nat) : Nat → Option Nat
  | 0 => none
  | n + 1 => if mem (p - 1) = c then some (p - 1) else sv_memrchr_loop mem c (p - 1) n

/-- `sv_memrchr_` (sv.h:318-326): pointer to the last of the `n` bytes at `s`
equal to `c`, or `NULL` (`none`). -/
def sv_memrchr_ (mem : Memory) (s : Nat) (c : Byte) (n : Nat) : Option Nat :=
  sv_memrchr_loop mem c (s + n) n

/-! ## Character search -/

/-- `sv_find_char` (sv.h:449-456). -/
def sv_find_char (mem : Memory) (sv : StringView) (c : Byte) : Nat :=
  if sv.length = 0 then SV_NPOS
  else
    match memchr mem sv.begin c sv.length with
    | some p => p - sv.begin
    | none => SV_NPOS

/-- `sv_rfind_char` (sv.h:458-465). -/
def sv_rfind_char (mem : Memory) (sv : StringView) (c : Byte) : Nat :=
  if sv.length = 0 then SV_NPOS
  else
    match sv_memrchr_ mem sv.begin c sv.length with
    | some p => p - sv.begin
    | none => SV_NPOS

/-- `sv_find_char_from` (sv.h:467-475). -/
def sv_find_char_from (mem : Memory) (sv : StringView) (pos : Nat) (c : Byte) : Nat :=
  if sv.length = 0 then SV_NPOS
  else
    let pos := if pos > sv.length then sv.length else pos
    match memchr mem (sv.begin + pos) c (size_sub sv.length pos) with
    | some p => p - sv.begin
    | none => SV_NPOS

/-- `sv_rfind_char_from` (sv.h:477-485). -/
def sv_rfind_char_from (mem : Memory) (sv : StringView) (pos : Nat) (c : Byte) : Nat :=
  if sv.length = 0 then SV_NPOS
  else
    let pos := if pos ≥ sv.length then size_sub sv.length 1 else pos
    match sv_memrchr_ mem sv.begin c (size_add pos 1) with
    | some p => p - sv.begin
    | none => SV_NPOS

/-! ## Substring search -/

/-- The `for` loop shared verbatim by `sv_find_substr` (sv.h:496-504) and
`sv_find_substr_from` (sv.h:542-551), started at index `i`.  `none` means the
fuel ran out. -/
def find_substr_loop (mem : Memory) (hay needle : StringView) (first_char : Byte)
    (last_start : Nat) : Nat → Nat → Option Nat
  | 0, _ => none
  | fuel + 1, i =>
    if i ≤ last_start then
      match memchr mem (hay.begin + i) first_char (size_add (size_sub last_start i) 1) with
      | none => some SV_NPOS
      | some p =>
        let offset := p - hay.begin
        if memcmp mem (hay.begin + offset) needle.begin needle.length = 0 then some offset
        else find_substr_loop mem hay needle first_char last_start fuel (size_add offset 1)
    else some SV_NPOS

/-- `sv_find_substr` (sv.h:487-506). -/
def sv_find_substr (mem : Memory) (hay needle : StringView) : Option Nat :=
  if needle.length = 0 then some 0
  else if needle.length > hay.length then some SV_NPOS
  else
    let first_char := mem needle.begin
    let last_start := size_sub hay.length needle.length
    find_substr_loop mem hay needle first_char last_start (hay.length + 1) 0

/-- The `for` loop shared verbatim by `sv_rfind_substr` (sv.h:518-527) and
`sv_rfind_substr_from` (sv.h:569-578), started at window size `i`.  `none`
means the fuel ran out. -/
def rfind_substr_loop (mem : Memory) (hay needle : StringView) (first_char : Byte) :
    Nat → Nat → Option Nat
  | 0, _ => none
  | fuel + 1, i =>
    if i ≠ 0 then
      match sv_memrchr_ mem hay.begin first_char i with
      | none => some SV_NPOS
      | some p =>
        let offset := p - hay.begin
        if memcmp mem (hay.begin + offset) needle.begin needle.length = 0 then some offset
        else rfind_substr_loop mem hay needle first_char fuel offset
    else some SV_NPOS

/-- `sv_rfind_substr` (sv.h:509-530). -/
def sv_rfind_substr (mem : Memory) (hay needle : StringView) : Option Nat :=
  if needle.length = 0 then some hay.length
  else if needle.length > hay.length then some SV_NPOS
  else
    let first_char := mem needle.begin
    let last_start := size_sub hay.length needle.length
    rfind_substr_loop mem hay needle first_char (hay.length + 1) (size_add last_start 1)

/-- `sv_find_substr_from` (sv.h:532-554). -/
def sv_find_substr_from (mem : Memory) (hay : StringView) (pos : Nat) (needle : StringView) :
    Option Nat :=
  let pos := if pos > hay.length then hay.length else pos
  if needle.length = 0 then some pos
  else if needle.length > size_sub hay.length pos then some SV_NPOS
  else
    let first_char := mem needle.begin
    let last_start := size_sub hay.length needle.length
    find_substr_loop mem hay needle first_char last_start (hay.length + 1) pos

/-- `sv_rfind_substr_from` (sv.h:556-581). -/
def sv_rfind_substr_from (mem : Memory) (hay : StringView) (pos : Nat) (needle : StringView) :
    Option Nat :=
  let pos := if pos > hay.length then hay.length else pos
  if needle.length = 0 then some pos
  else if needle.length > hay.length then some SV_NPOS
  else if size_add pos 1 < needle.length then some SV_NPOS
  else
    let last_start := size_sub hay.length needle.length
    let pos := if pos > last_start then last_start else pos
    let first_char := mem needle.begin
    rfind_substr_loop mem hay needle first_char (hay.length + 1) (size_add pos 1)

/-- `sv_contains` (sv.h:612-616). -/
def sv_contains (mem : Memory) (hay needle : StringView) : Option Bool :=
  (sv_find_substr mem hay needle).map (fun r => r != SV_NPOS)

/-! ## Slicing and splitting -/

/-- `sv_substr` (sv.h:386-397); the two assertions are debug-only checks of
the caller's obligations `pos <= sv.length` and `count <= sv.length - pos`. -/
def sv_substr (sv : StringView) (pos count : Nat) : StringView :=
  { begin := sv.begin + pos, length := count }

/-- `sv_split_first` (sv.h:721-737).  An output pointer is `none` when it is
`NULL` and `some v` when it points to a view currently holding `v`; the result
gives the two output locations after the call. -/
def sv_split_first (mem : Memory) (sv : StringView) (delim : Byte)
    (out_before_delim out_after_delim : Option StringView) :
    Option StringView × Option StringView :=
  match (if sv.length ≠ 0 then memchr mem sv.begin delim sv.length else none) with
  | none => (out_before_delim.map (fun _ => sv), out_after_delim.map (fun _ => sv_empty))
  | some p =>
    let idx := p - sv.begin
    (out_before_delim.map (fun _ => sv_substr sv 0 idx),
     out_after_delim.map
       (fun _ => sv_substr sv (size_add idx 1) (size_sub (size_sub sv.length idx) 1)))

/-- `sv_split_last` (sv.h:739-755); output pointers as in `sv_split_first`. -/
def sv_split_last (mem : Memory) (sv : StringView) (delim : Byte)
    (out_before_delim out_after_delim : Option StringView) :
    Option StringView × Option StringView :=
  match (if sv.length ≠ 0 then sv_memrchr_ mem sv.begin delim sv.length else none) with
  | none => (out_before_delim.map (fun _ => sv), out_after_delim.map (fun _ => sv_empty))
  | some p =>
    let idx := p - sv.begin
    (out_before_delim.map (fun _ => sv_substr sv 0 idx),
     out_after_delim.map
       (fun _ => sv_substr sv (size_add idx 1) (size_sub (size_sub sv.length idx) 1)))

/-- `sv_split_once_from` (sv.h:757-776); output pointers as in
`sv_split_first`. -/
def sv_split_once_from (mem : Memory) (sv : StringView) (delim : Byte) (pos : Nat)
    (out_before_delim out_after_delim : Option StringView) :
    Option StringView × Option StringView :=
  let pos := if pos > sv.length then sv.length else pos
  match (if sv.length ≠ 0 then memchr mem (sv.begin + pos) delim (size_sub sv.length pos)
         else none) with
  | none => (out_before_delim.map (fun _ => sv), out_after_delim.map (fun _ => sv_empty))
  | some p =>
    let idx := p - sv.begin
    (out_before_delim.map (fun _ => sv_substr sv 0 idx),
     out_after_delim.map
       (fun _ => sv_substr sv (size_add idx 1) (size_sub (size_sub sv.length idx) 1)))

/-- `sv_take` (sv.h:648-653); the assertion is a debug-only check of the
caller's obligation `n <= sv.length`. -/
def sv_take (sv : StringView) (n : Nat) : StringView :=
  sv_substr sv 0 n

/-- `sv_drop` (sv.h:655-660); the assertion is a debug-only check of the
caller's obligation `n <= sv.length`. -/
def sv_drop (sv : StringView) (n : Nat) : StringView :=
  sv_substr sv n (size_sub sv.length n)

/-! ## Strict integer parsing -/

/-- `UINT64_MAX`, that is `2^64 - 1`. -/
def UINT64_MAX : Nat := 18446744073709551615

/-- `INT64_MAX`, that is `2^63 - 1`. -/
def INT64_MAX : Nat := 9223372036854775807

/-- `INT64_MIN`, that is `-2^63`. -/
def INT64_MIN : Int := -9223372036854775808

/-- Arithmetic on `uint64_t` wraps modulo `2^64`. -/
def u64 (n : Nat) : Nat := n % (UINT64_MAX + 1)

/-- The conversion `(int64_t)acc` of a `uint64_t` value (two's complement). -/
def toInt64 (acc : Nat) : Int :=
  if acc ≤ INT64_MAX then (acc : Int) else (acc : Int) - ((UINT64_MAX : Int) + 1)

/-- The digit loop `while (n--) { ... }` of `sv_to_uint64` (sv.h:816-828) and
of `sv_to_int64` (sv.h:858-869).  The two loops differ only in the bound
tested: `UINT64_MAX` in the first, the local `limit` in the second; it is the
parameter `limit` here.  The state is the read pointer `p`, the accumulator
`acc` and the flag `got_digit`; `none` is the `return false` inside the loop,
`some (acc, got_digit)` the state when the loop ends. -/
def parse_digits_loop (mem : Memory) (limit : Nat) :
    Nat → Nat → Bool → Nat → Option (Nat × Bool)
  | _, acc, got_digit, 0 => some (acc, got_digit)
  | p, acc, _, n + 1 =>
    let c := (mem p).val
    if c < 48 ∨ c > 57 then none
    else
      let d := c - 48
      if acc > limit / 10 ∨ (acc = limit / 10 ∧ d > limit % 10) then none
      else parse_digits_loop mem limit (p + 1) (u64 (u64 (acc * 10) + d)) true n

/-- The part of `sv_to_uint64` after the optional `'+'` (sv.h:813-832), with
the read pointer `p` and the remaining length `n`. -/
def sv_to_uint64_digits (mem : Memory) (p n : Nat) (out : Option Nat) : Bool × Option Nat :=
  match parse_digits_loop mem UINT64_MAX p 0 false n with
  | none => (false, out)
  | some (acc, got_digit) =>
    if !got_digit then (false, out)
    else (true, out.map (fun _ => acc))

/-- `sv_to_uint64` (sv.h:802-833).  The output pointer is `none` when it is
`NULL` and `some v` when it points to an integer currently holding `v`; the
result is the returned flag and the output location after the call. -/
def sv_to_uint64 (mem : Memory) (sv : StringView) (out : Option Nat) : Bool × Option Nat :=
  if out = none ∨ sv.length = 0 then (false, out)
  else
    let p := sv.begin
    let n := sv.length
    if mem p = 43 then
      if size_sub n 1 = 0 then (false, out)
      else sv_to_uint64_digits mem (p + 1) (size_sub n 1) out
    else sv_to_uint64_digits mem p n out

/-- The part of `sv_to_int64` after the optional sign (sv.h:851-878), with the
read pointer `p`, the remaining length `n` and the flag `neg`. -/
def sv_to_int64_digits (mem : Memory) (p n : Nat) (neg : Bool) (out : Option Int) :
    Bool × Option Int :=
  let pos_limit := INT64_MAX
  let neg_limit := u64 (INT64_MAX + 1)
  let limit := if neg then neg_limit else pos_limit
  match parse_digits_loop mem limit p 0 false n with
  | none => (false, out)
  | some (acc, got_digit) =>
    if !got_digit then (false, out)
    else if neg then
      if acc = neg_limit then (true, out.map (fun _ => INT64_MIN))
      else (true, out.map (fun _ => -(toInt64 acc)))
    else (true, out.map (fun _ => toInt64 acc))

/-- `sv_to_int64` (sv.h:837-879); output pointer as in `sv_to_uint64`. -/
def sv_to_int64 (mem : Memory) (sv : StringView) (out : Option Int) : Bool × Option Int :=
  if out = none ∨ sv.length = 0 then (false, out)
  else
    let p := sv.begin
    let n := sv.length
    if mem p = 43 ∨ mem p = 45 then
      let neg := decide (mem p = 45)
      if size_sub n 1 = 0 then (false, out)
      else sv_to_int64_digits mem (p + 1) (size_sub n 1) neg out
    else sv_to_int64_digits mem p n false out

/-- `LONG_MIN` of a platform whose `long` has the maximum `long_max`. -/
def long_min (long_max : Nat) : Int := -(long_max : Int) - 1

/-- The conversion `(long)tmp` of an `int64_t` value on a platform whose
`long` has the maximum `long_max`: the value itself when it is in range,
reduced modulo the width of `long` otherwise. -/
def toLong (long_max : Nat) (tmp : Int) : Int :=
  (tmp + ((long_max : Int) + 1)) % (2 * ((long_max : Int) + 1)) - ((long_max : Int) + 1)

/-- `sv_to_long` (sv.h:881-897).  `long_max` is the platform's `LONG_MAX`, which
selects the branch of the `#if`; `tmp0` is the indeterminate initial content of
the local `tmp`; output pointer as in `sv_to_uint64`. -/
def sv_to_long (long_max : Nat) (mem : Memory) (sv : StringView) (tmp0 : Int)
    (out : Option Int) : Bool × Option Int :=
  if out = none then (false, out)
  else if long_max = 2147483647 then
    match sv_to_int64 mem sv (some tmp0) with
    | (false, _) => (false, out)
    | (true, t) =>
      let tmp := t.getD tmp0
      if tmp < long_min long_max ∨ tmp > (long_max : Int) then (false, out)
      else (true, out.map (fun _ => toLong long_max tmp))
  else
    match sv_to_int64 mem sv (some tmp0) with
    | (false, _) => (false, out)
    | (true, t) =>
      let tmp := t.getD tmp0
      (true, out.map (fun _ => toLong long_max tmp))

/-! ## Strict floating-point parsing -/

/-- The arithmetic of the C type `double` that `sv_to_double` uses: the
literals `0.0` and `1e k`, the conversion of an unsigned integer, the four
operations, unary minus and the comparison `==`.  The functions below take it
as a parameter; `ieee` further down is IEEE 754 binary64 with rounding to
nearest, ties to even. -/
structure FloatOps (F : Type) where
  zero : F
  pow10 : Int → F
  ofNat : Nat → F
  add : F → F → F
  sub : F → F → F
  mul : F → F → F
  div : F → F → F
  neg : F → F
  eq : F → F → Bool

/-- What `sv_to_double` has gathered when the whole input is consumed
(sv.h:985): the locals `neg`, `int_part`, `have_int`, `frac_acc`,
`frac_digits`, `have_frac`, `frac_tail`, `have_exp`, `exp_neg`, `exp_val`. -/
structure DoubleScan (F : Type) where
  neg : Bool
  int_part : Nat
  have_int : Bool
  frac_acc : Nat
  frac_digits : Nat
  have_frac : Bool
  frac_tail : F
  have_exp : Bool
  exp_neg : Bool
  exp_val : Nat

/-- The integer-part loop of `sv_to_double` (sv.h:918-926), run with `n` bytes
left at `p`; the result is the state `(p, n, int_part, have_int)` when the loop
ends. -/
def double_int_loop (mem : Memory) : Nat → Nat → Nat → Bool → Nat × Nat × Nat × Bool
  | 0, p, int_part, have_int => (p, 0, int_part, have_int)
  | n + 1, p, int_part, have_int =>
    let c := (mem p).val
    if 48 ≤ c ∧ c ≤ 57 then
      let d := c - 48
      let int_part := if int_part ≤ 1844674407370955161 then u64 (u64 (int_part * 10) + d)
        else int_part
      double_int_loop mem n (p + 1) int_part true
    else (p, n + 1, int_part, have_int)

/-- The state of the fractional-part loop of `sv_to_double`. -/
structure FracState (F : Type) where
  p : Nat
  n : Nat
  frac_acc : Nat
  frac_digits : Nat
  have_frac : Bool
  frac_tail : F
  tail_scale : F

/-- The fractional-part loop of `sv_to_double` (sv.h:940-953).  The counter
`frac_digits` is an `int` in the source; it is a natural number here, which
agrees with the source for every view of fewer than `2^31` bytes. -/
def double_frac_loop {F : Type} (fo : FloatOps F) (mem : Memory) :
    Nat → Nat → Nat → Nat → Bool → F → F → FracState F
  | 0, p, frac_acc, frac_digits, have_frac, frac_tail, tail_scale =>
    { p := p, n := 0, frac_acc := frac_acc, frac_digits := frac_digits,
      have_frac := have_frac, frac_tail := frac_tail, tail_scale := tail_scale }
  | n + 1, p, frac_acc, frac_digits, have_frac, frac_tail, tail_scale =>
    let c := (mem p).val
    if 48 ≤ c ∧ c ≤ 57 then
      let d := c - 48
      if frac_digits < 19 then
        double_frac_loop fo mem n (p + 1) (u64 (u64 (frac_acc * 10) + d)) (frac_digits + 1) true
          frac_tail tail_scale
      else
        double_frac_loop fo mem n (p + 1) frac_acc (frac_digits + 1) true
          (fo.add frac_tail (fo.mul (fo.ofNat d) tail_scale))
          (fo.mul tail_scale (fo.pow10 (-1)))
    else
      { p := p, n := n + 1, frac_acc := frac_acc, frac_digits := frac_digits,
        have_frac := have_frac, frac_tail := frac_tail, tail_scale := tail_scale }

/-- The exponent-digit loop of `sv_to_double` (sv.h:974-980); the result is the
state `(p, n, exp_val, got_exp)` when the loop ends. -/
def double_exp_loop (mem : Memory) : Nat → Nat → Nat → Bool → Nat × Nat × Nat × Bool
  | 0, p, exp_val, got_exp => (p, 0, exp_val, got_exp)
  | n + 1, p, exp_val, got_exp =>
    let c := (mem p).val
    if 48 ≤ c ∧ c ≤ 57 then
      let d := c - 48
      let exp_val := if exp_val < 10000 then exp_val * 10 + d else exp_val
      double_exp_loop mem n (p + 1) exp_val true
    else (p, n + 1, exp_val, got_exp)

/-- The exponent part of `sv_to_double` and the check that everything is
consumed (sv.h:959-985), entered with `n` bytes left at `p`; `none` is a
`return false`.  Every decrement of `n` in `sv_to_double` happens where `n` is
known to be non-zero, so `n - 1` on natural numbers is the `size_t` value. -/
def double_scan_exponent {F : Type} (mem : Memory) (p n : Nat) (neg : Bool)
    (int_part : Nat) (have_int : Bool) (frac_acc frac_digits : Nat) (have_frac : Bool)
    (frac_tail : F) : Option (DoubleScan F) :=
  let finish (n : Nat) (have_exp exp_neg : Bool) (exp_val : Nat) : Option (DoubleScan F) :=
    if n ≠ 0 then none
    else some { neg := neg, int_part := int_part, have_int := have_int, frac_acc := frac_acc,
                frac_digits := frac_digits, have_frac := have_frac, frac_tail := frac_tail,
                have_exp := have_exp, exp_neg := exp_neg, exp_val := exp_val }
  if n ≠ 0 ∧ (mem p = 101 ∨ mem p = 69) then
    let p := p + 1
    let n := n - 1
    if n = 0 then none
    else
      let digits (p n : Nat) (exp_neg : Bool) : Option (DoubleScan F) :=
        match double_exp_loop mem n p 0 false with
        | (_, n, exp_val, got_exp) =>
          if !got_exp then none else finish n true exp_neg exp_val
      if mem p = 43 ∨ mem p = 45 then
        let exp_neg := decide (mem p = 45)
        if n - 1 = 0 then none
        else digits (p + 1) (n - 1) exp_neg
      else digits p n false
  else finish n false false 0

/-- The mantissa part of `sv_to_double` (sv.h:915-957), entered after the
optional sign with `n` bytes left at `p`, followed by the exponent part. -/
def double_scan_mantissa {F : Type} (fo : FloatOps F) (mem : Memory) (p n : Nat) (neg : Bool) :
    Option (DoubleScan F) :=
  match double_int_loop mem n p 0 false with
  | (p, n, int_part, have_int) =>
    if n ≠ 0 ∧ mem p = 46 then
      let st := double_frac_loop fo mem (n - 1) (p + 1) 0 0 false fo.zero (fo.pow10 (-20))
      if !st.have_frac then none
      else if !have_int && !st.have_frac then none
      else double_scan_exponent mem st.p st.n neg int_part have_int st.frac_acc st.frac_digits
        st.have_frac st.frac_tail
    else
      if !have_int && !false then none
      else double_scan_exponent mem p n neg int_part have_int 0 0 false fo.zero

/-- The scanning part of `sv_to_double` (sv.h:904-985) for a non-empty view;
`none` is a `return false`. -/
def double_scan {F : Type} (fo : FloatOps F) (mem : Memory) (sv : StringView) :
    Option (DoubleScan F) :=
  let p := sv.begin
  let n := sv.length
  if mem p = 43 ∨ mem p = 45 then
    let neg := decide (mem p = 45)
    if n - 1 = 0 then none
    else double_scan_mantissa fo mem (p + 1) (n - 1) neg
  else double_scan_mantissa fo mem p n false

/-- The table `p10_exp` (sv.h:1017). -/
def p10_exp : List Nat := [1, 2, 4, 8, 16, 32, 64, 128, 256]

/-- The table `p10` (sv.h:1015). -/
def p10 {F : Type} (fo : FloatOps F) : List F :=
  [fo.pow10 1, fo.pow10 2, fo.pow10 4, fo.pow10 8, fo.pow10 16, fo.pow10 32, fo.pow10 64,
   fo.pow10 128, fo.pow10 256]

/-- The table `p10_inv` (sv.h:1016). -/
def p10_inv {F : Type} (fo : FloatOps F) : List F :=
  [fo.pow10 (-1), fo.pow10 (-2), fo.pow10 (-4), fo.pow10 (-8), fo.pow10 (-16), fo.pow10 (-32),
   fo.pow10 (-64), fo.pow10 (-128), fo.pow10 (-256)]

/-- The table `k_pow10` (sv.h:988-992): `1.0`, `1e1`, ..., `1e19`. -/
def k_pow10 {F : Type} (fo : FloatOps F) : List F :=
  (List.range 20).map (fun (k : Nat) => fo.pow10 (k : Int))

/-- The macro `SV_FINITE(x)`, `(((x) - (x)) == 0.0)` (sv.h:1019). -/
def SV_FINITE {F : Type} (fo : FloatOps F) (x : F) : Bool := fo.eq (fo.sub x x) fo.zero

/-- The loop `for (int i = 8; i >= 0; --i)` of the positive scaling
(sv.h:1025-1031), with `k = i + 1` entries still to visit; `none` is the
`return false` on a non-finite product. -/
def double_scale_up {F : Type} (fo : FloatOps F) : Nat → F → Int → Option F
  | 0, scaled, _ => some scaled
  | i + 1, scaled, e =>
    if e ≥ (p10_exp.getD i 0 : Int) then
      let scaled := fo.mul scaled ((p10 fo).getD i fo.zero)
      if !SV_FINITE fo scaled then none
      else double_scale_up fo i scaled (e - (p10_exp.getD i 0 : Int))
    else double_scale_up fo i scaled e

/-- The loop `for (int i = 8; i >= 0; --i)` of the negative scaling
(sv.h:1034-1039), with `k = i + 1` entries still to visit. -/
def double_scale_down {F : Type} (fo : FloatOps F) : Nat → F → Int → F
  | 0, scaled, _ => scaled
  | i + 1, scaled, e =>
    if e ≥ (p10_exp.getD i 0 : Int) then
      double_scale_down fo i (fo.mul scaled ((p10_inv fo).getD i fo.zero))
        (e - (p10_exp.getD i 0 : Int))
    else double_scale_down fo i scaled e

/-- The value `int_part + frac_acc / 10^k + frac_tail` that `sv_to_double`
builds (sv.h:994-999). -/
def double_value {F : Type} (fo : FloatOps F) (s : DoubleScan F) : F :=
  let value := fo.ofNat s.int_part
  if s.frac_digits > 0 then
    let used := if s.frac_digits ≤ 19 then s.frac_digits else 19
    let frac := fo.div (fo.ofNat s.frac_acc) ((k_pow10 fo).getD used fo.zero)
    fo.add value (fo.add frac s.frac_tail)
  else value

/-- The local `exp_total` of `sv_to_double` (sv.h:1002). -/
def double_exp_total {F : Type} (s : DoubleScan F) : Int :=
  if s.have_exp then (if s.exp_neg then -(s.exp_val : Int) else (s.exp_val : Int)) else 0

/-- The part of `sv_to_double` after the scan (sv.h:987-1043). -/
def double_finish {F : Type} (fo : FloatOps F) (s : DoubleScan F) (out : Option F) :
    Bool × Option F :=
  let value := double_value fo s
  let exp_total := double_exp_total s
  if fo.eq value fo.zero then
    (true, out.map (fun _ => if s.neg then fo.neg fo.zero else fo.zero))
  else if exp_total > 308 then (false, out)
  else if exp_total < -400 then
    (true, out.map (fun _ => if s.neg then fo.neg fo.zero else fo.zero))
  else if exp_total > 0 then
    match double_scale_up fo 9 value exp_total with
    | none => (false, out)
    | some scaled => (true, out.map (fun _ => if s.neg then fo.neg scaled else scaled))
  else if exp_total < 0 then
    let scaled := double_scale_down fo 9 value (-exp_total)
    (true, out.map (fun _ => if s.neg then fo.neg scaled else scaled))
  else (true, out.map (fun _ => if s.neg then fo.neg value else value))

/-- `sv_to_double` (sv.h:899-1046); output pointer as in `sv_to_uint64`. -/
def sv_to_double {F : Type} (fo : FloatOps F) (mem : Memory) (sv : StringView)
    (out : Option F) : Bool × Option F :=
  if out.isNone ∨ sv.length = 0 then (false, out)
  else
    match double_scan fo mem sv with
    | none => (false, out)
    | some s => double_finish fo s out

/-! ## IEEE 754 binary64 -/

/-- A binary64 value: `fin neg m e` is `(-1)^neg * m * 2^e`, kept with
`m < 2^53` and `-1074 <= e <= 971`, and with `2^52 <= m` unless `e = -1074`. -/
inductive Dbl
  | fin (neg : Bool) (m : Nat) (e : Int)
  | inf (neg : Bool)
  | nan
deriving DecidableEq, Repr

/-- The number of binary digits of `n`, computed with `fuel` halvings. -/
def bitLengthAux : Nat → Nat → Nat
  | 0, _ => 0
  | fuel + 1, n => if n = 0 then 0 else bitLengthAux fuel (n / 2) + 1

/-- The number of binary digits of `n`: `0` for `0`, and otherwise the `k` with
`2^(k-1) <= n < 2^k`. -/
def bitLength (n : Nat) : Nat := bitLengthAux n n

/-- Rounding of `(-1)^neg * m * 2^e` to binary64, to nearest, ties to even. -/
def Dbl.round (neg : Bool) (m : Nat) (e : Int) : Dbl :=
  if m = 0 then Dbl.fin neg 0 (-1074)
  else
    let e1 : Int := max (e + (bitLength m : Int) - 53) (-1074)
    if e1 ≤ e then
      if e1 > 971 then Dbl.inf neg else Dbl.fin neg (m * 2 ^ (e - e1).toNat) e1
    else
      let s := (e1 - e).toNat
      let q := m / 2 ^ s
      let r := m % 2 ^ s
      let half := 2 ^ (s - 1)
      let q1 := if r > half ∨ (r = half ∧ q % 2 = 1) then q + 1 else q
      let m2 := if q1 = 2 ^ 53 then 2 ^ 52 else q1
      let e2 := if q1 = 2 ^ 53 then e1 + 1 else e1
      if e2 > 971 then Dbl.inf neg else Dbl.fin neg m2 e2

/-- Rounding of `(-1)^neg * (num / den) * 2^e` to binary64, for `den ≠ 0`: the
quotient is taken with more than 60 spare bits and a sticky bit. -/
def Dbl.roundRat (neg : Bool) (num den : Nat) (e : Int) : Dbl :=
  let k := bitLength den + 64
  let q := (num * 2 ^ k) / den
  let sticky := if (num * 2 ^ k) % den = 0 then 0 else 1
  Dbl.round neg (2 * q + sticky) (e - (k : Int) - 1)

/-- Unary minus. -/
def Dbl.neg : Dbl → Dbl
  | Dbl.fin s m e => Dbl.fin (!s) m e
  | Dbl.inf s => Dbl.inf (!s)
  | Dbl.nan => Dbl.nan

/-- Multiplication. -/
def Dbl.mul : Dbl → Dbl → Dbl
  | Dbl.fin s1 m1 e1, Dbl.fin s2 m2 e2 => Dbl.round (s1 != s2) (m1 * m2) (e1 + e2)
  | Dbl.fin s1 m1 _, Dbl.inf s2 => if m1 = 0 then Dbl.nan else Dbl.inf (s1 != s2)
  | Dbl.inf s1, Dbl.fin s2 m2 _ => if m2 = 0 then Dbl.nan else Dbl.inf (s1 != s2)
  | Dbl.inf s1, Dbl.inf s2 => Dbl.inf (s1 != s2)
  | Dbl.nan, _ => Dbl.nan
  | _, Dbl.nan => Dbl.nan

/-- Addition. -/
def Dbl.add : Dbl → Dbl → Dbl
  | Dbl.fin s1 m1 e1, Dbl.fin s2 m2 e2 =>
    let e := min e1 e2
    let a : Int := (if s1 then -1 else 1) * ((m1 * 2 ^ (e1 - e).toNat : Nat) : Int)
    let b : Int := (if s2 then -1 else 1) * ((m2 * 2 ^ (e2 - e).toNat : Nat) : Int)
    if a + b = 0 then Dbl.fin (s1 && s2) 0 (-1074)
    else Dbl.round (decide (a + b < 0)) (a + b).natAbs e
  | Dbl.fin _ _ _, Dbl.inf s2 => Dbl.inf s2
  | Dbl.inf s1, Dbl.fin _ _ _ => Dbl.inf s1
  | Dbl.inf s1, Dbl.inf s2 => if s1 = s2 then Dbl.inf s1 else Dbl.nan
  | Dbl.nan, _ => Dbl.nan
  | _, Dbl.nan => Dbl.nan

/-- Subtraction. -/
def Dbl.sub (x y : Dbl) : Dbl := Dbl.add x (Dbl.neg y)

/-- Division. -/
def Dbl.div : Dbl → Dbl → Dbl
  | Dbl.fin s1 m1 e1, Dbl.fin s2 m2 e2 =>
    if m2 = 0 then (if m1 = 0 then Dbl.nan else Dbl.inf (s1 != s2))
    else Dbl.roundRat (s1 != s2) m1 m2 (e1 - e2)
  | Dbl.fin s1 _ _, Dbl.inf s2 => Dbl.fin (s1 != s2) 0 (-1074)
  | Dbl.inf s1, Dbl.fin s2 _ _ => Dbl.inf (s1 != s2)
  | Dbl.inf _, Dbl.inf _ => Dbl.nan
  | Dbl.nan, _ => Dbl.nan
  | _, Dbl.nan => Dbl.nan

/-- The comparison `==`: the two zeros are equal, a NaN equals nothing. -/
def Dbl.eq : Dbl → Dbl → Bool
  | Dbl.fin s1 m1 e1, Dbl.fin s2 m2 e2 =>
    (m1 = 0 ∧ m2 = 0) ∨ (s1 = s2 ∧ m1 = m2 ∧ e1 = e2)
  | Dbl.inf s1, Dbl.inf s2 => s1 = s2
  | _, _ => false

/-- The decimal literal `1e k`, correctly rounded. -/
def Dbl.pow10 (k : Int) : Dbl :=
  if k ≥ 0 then Dbl.round false (10 ^ k.toNat) 0 else Dbl.roundRat false 1 (10 ^ (-k).toNat) 0

/-- IEEE 754 binary64 arithmetic, rounding to nearest, ties to even. -/
def ieee : FloatOps Dbl :=
  { zero := Dbl.fin false 0 (-1074)
    pow10 := Dbl.pow10
    ofNat := fun n => Dbl.round false n 0
    add := Dbl.add
    sub := Dbl.sub
    mul := Dbl.mul
    div := Dbl.div
    neg := Dbl.neg
    eq := Dbl.eq }

/-! ## The position-taking searches with a record of what they touch -/

/-- One event in a run of a search function: a byte range of the haystack
(`hay.begin[off .. off+len)`) or of the needle handed to `memchr`,
`sv_memrchr_` or `memcmp` or read directly, or a `size_t` subtraction
`a - b`. -/
inductive Access
  | hay (off len : Nat)
  | needle (off len : Nat)
  | sub (a b : Nat)
deriving DecidableEq, Repr

/-- `sv_find_char_from` (sv.h:467-475) with the record of its run. -/
def sv_find_char_from_traced (mem : Memory) (sv : StringView) (pos : Nat) (c : Byte) :
    Nat × List Access :=
  if sv.length = 0 then (SV_NPOS, [])
  else
    let pos := if pos > sv.length then sv.length else pos
    let log := [Access.sub sv.length pos, Access.hay pos (size_sub sv.length pos)]
    match memchr mem (sv.begin + pos) c (size_sub sv.length pos) with
    | some p => (p - sv.begin, log)
    | none => (SV_NPOS, log)

/-- `sv_rfind_char_from` (sv.h:477-485) with the record of its run. -/
def sv_rfind_char_from_traced (mem : Memory) (sv : StringView) (pos : Nat) (c : Byte) :
    Nat × List Access :=
  if sv.length = 0 then (SV_NPOS, [])
  else
    let log1 := if pos ≥ sv.length then [Access.sub sv.length 1] else []
    let pos := if pos ≥ sv.length then size_sub sv.length 1 else pos
    let log := log1 ++ [Access.hay 0 (size_add pos 1)]
    match sv_memrchr_ mem sv.begin c (size_add pos 1) with
    | some p => (p - sv.begin, log)
    | none => (SV_NPOS, log)

/-- The loop of `sv_find_substr_from` (sv.h:542-551) with the record of its
run. -/
def find_substr_loop_traced (mem : Memory) (hay needle : StringView) (first_char : Byte)
    (last_start : Nat) : Nat → Nat → Option (Nat × List Access)
  | 0, _ => none
  | fuel + 1, i =>
    if i ≤ last_start then
      let log := [Access.sub last_start i, Access.hay i (size_add (size_sub last_start i) 1)]
      match memchr mem (hay.begin + i) first_char (size_add (size_sub last_start i) 1) with
      | none => some (SV_NPOS, log)
      | some p =>
        let offset := p - hay.begin
        let log2 := log ++ [Access.hay offset needle.length, Access.needle 0 needle.length]
        if memcmp mem (hay.begin + offset) needle.begin needle.length = 0
        then some (offset, log2)
        else
          (find_substr_loop_traced mem hay needle first_char last_start fuel
            (size_add offset 1)).map (fun r => (r.1, log2 ++ r.2))
    else some (SV_NPOS, [])

/-- `sv_find_substr_from` (sv.h:532-554) with the record of its run. -/
def sv_find_substr_from_traced (mem : Memory) (hay : StringView) (pos : Nat)
    (needle : StringView) : Option (Nat × List Access) :=
  let pos := if pos > hay.length then hay.length else pos
  if needle.length = 0 then some (pos, [])
  else if needle.length > size_sub hay.length pos then some (SV_NPOS, [Access.sub hay.length pos])
  else
    let first_char := mem needle.begin
    let last_start := size_sub hay.length needle.length
    let log := [Access.sub hay.length pos, Access.needle 0 1,
      Access.sub hay.length needle.length]
    (find_substr_loop_traced mem hay needle first_char last_start (hay.length + 1) pos).map
      (fun r => (r.1, log ++ r.2))

/-- The loop of `sv_rfind_substr_from` (sv.h:569-578) with the record of its
run. -/
def rfind_substr_loop_traced (mem : Memory) (hay needle : StringView) (first_char : Byte) :
    Nat → Nat → Option (Nat × List Access)
  | 0, _ => none
  | fuel + 1, i =>
    if i ≠ 0 then
      let log := [Access.hay 0 i]
      match sv_memrchr_ mem hay.begin first_char i with
      | none => some (SV_NPOS, log)
      | some p =>
        let offset := p - hay.begin
        let log2 := log ++ [Access.hay offset needle.length, Access.needle 0 needle.length]
        if memcmp mem (hay.begin + offset) needle.begin needle.length = 0
        then some (offset, log2)
        else
          (rfind_substr_loop_traced mem hay needle first_char fuel offset).map
            (fun r => (r.1, log2 ++ r.2))
    else some (SV_NPOS, [])

/-- `sv_rfind_substr_from` (sv.h:556-581) with the record of its run. -/
def sv_rfind_substr_from_traced (mem : Memory) (hay : StringView) (pos : Nat)
    (needle : StringView) : Option (Nat × List Access) :=
  let pos := if pos > hay.length then hay.length else pos
  if needle.length = 0 then some (pos, [])
  else if needle.length > hay.length then some (SV_NPOS, [])
  else if size_add pos 1 < needle.length then some (SV_NPOS, [])
  else
    let last_start := size_sub hay.length needle.length
    let pos := if pos > last_start then last_start else pos
    let first_char := mem needle.begin
    let log := [Access.sub hay.length needle.length, Access.needle 0 1]
    (rfind_substr_loop_traced mem hay needle first_char (hay.length + 1) (size_add pos 1)).map
      (fun r => (r.1, log ++ r.2))

/-- `sv_split_once_from` (sv.h:757-776) with the record of its run; the view
being split is recorded as the haystack. -/
def sv_split_once_from_traced (mem : Memory) (sv : StringView) (delim : Byte) (pos : Nat)
    (out_before_delim out_after_delim : Option StringView) :
    (Option StringView × Option StringView) × List Access :=
  let pos := if pos > sv.length then sv.length else pos
  let log := if sv.length ≠ 0
    then [Access.sub sv.length pos, Access.hay pos (size_sub sv.length pos)] else []
  match (if sv.length ≠ 0 then memchr mem (sv.begin + pos) delim (size_sub sv.length pos)
         else none) with
  | none => ((out_before_delim.map (fun _ => sv), out_after_delim.map (fun _ => sv_empty)), log)
  | some p =>
    let idx := p - sv.begin
    ((out_before_delim.map (fun _ => sv_substr sv 0 idx),
      out_after_delim.map
        (fun _ => sv_substr sv (size_add idx 1) (size_sub (size_sub sv.length idx) 1))),
     log ++ (if out_after_delim = none then []
       else [Access.sub sv.length idx, Access.sub (size_sub sv.length idx) 1]))

/-! ## Specification vocabulary -/

/-- The needle's bytes occur in `hay` at index `i`:
`i + needle.length <= hay.length` and `hay[i .. i+needle.length) = needle`. -/
def occursAt (mem : Memory) (hay needle : StringView) (i : Nat) : Prop :=
  i + needle.length ≤ hay.length ∧
    ∀ j, j < needle.length → mem (hay.begin + i + j) = mem (needle.begin + j)

instance (mem : Memory) (hay needle : StringView) (i : Nat) :
    Decidable (occursAt mem hay needle i) :=
  inferInstanceAs (Decidable (i + needle.length ≤ hay.length ∧
    ∀ j, j < needle.length → mem (hay.begin + i + j) = mem (needle.begin + j)))

/-- A memory image for examples: the listed bytes are placed from address `0`
upwards (so the first entry sits at `NULL` and is never part of a view);
every other address holds `0`. -/
def memOfList (bytes : List Byte) : Memory := fun a => bytes.getD a 0

/-- Example image: `"banana"` at addresses 1..6 and `"ana"` at addresses 8..10. -/
def bananaMem : Memory :=
  memOfList [0, 98, 97, 110, 97, 110, 97, 0, 97, 110, 97]

/-- Example image: `"Hello world"` at addresses 1..11 and `"Hello"` at
addresses 13..17. -/
def helloMem : Memory :=
  memOfList [0, 72, 101, 108, 108, 111, 32, 119, 111, 114, 108, 100, 0, 72, 101, 108, 108, 111]

/-- Example image: `"aaaaa"` at addresses 1..5 and `"aaa"` at addresses 7..9. -/
def aaaaaMem : Memory :=
  memOfList [0, 97, 97, 97, 97, 97, 0, 97, 97, 97]

/-- An event stays in range: every byte of a recorded range has an index below
the length of its view, and a recorded subtraction does not underflow. -/
def Access.inRange (hay_length needle_length : Nat) : Access → Prop
  | Access.hay off len => off + len ≤ hay_length
  | Access.needle off len => off + len ≤ needle_length
  | Access.sub a b => b ≤ a

instance (hay_length needle_length : Nat) (a : Access) :
    Decidable (a.inRange hay_length needle_length) :=
  match a with
  | Access.hay off len => inferInstanceAs (Decidable (off + len ≤ hay_length))
  | Access.needle off len => inferInstanceAs (Decidable (off + len ≤ needle_length))
  | Access.sub a b => inferInstanceAs (Decidable (b ≤ a))

/-- The `n` bytes stored from address `p` on. -/
def bytesAt (mem : Memory) (p : Nat) : Nat → List Byte
  | 0 => []
  | n + 1 => mem p :: bytesAt mem (p + 1) n

/-- The byte sequence a view denotes. -/
def StringView.bytes (mem : Memory) (sv : StringView) : List Byte :=
  bytesAt mem sv.begin sv.length

/-- An ASCII digit `'0'..'9'`. -/
def isDigitByte (b : Byte) : Prop := 48 ≤ b.val ∧ b.val ≤ 57

instance (b : Byte) : Decidable (isDigitByte b) :=
  inferInstanceAs (Decidable (48 ≤ b.val ∧ b.val ≤ 57))

/-- The number read by appending the decimal digits `ds` to the number `acc`. -/
def decimalFrom (acc : Nat) (ds : List Byte) : Nat :=
  ds.foldl (fun a b => a * 10 + (b.val - 48)) acc

/-- The decimal value of a digit string (leading zeros allowed). -/
def decimalValue (ds : List Byte) : Nat := decimalFrom 0 ds

/-- The byte string `bs` is at most one leading `'+'` followed by the digit
string `ds`, which has one or more ASCII digits and nothing else. -/
def isUnsignedDecimal (bs ds : List Byte) : Prop :=
  (bs = ds ∨ bs = 43 :: ds) ∧ ds ≠ [] ∧ ∀ b ∈ ds, isDigitByte b

/-- The byte string `bs` is at most one leading `'+'` or `'-'` (`neg` tells
whether it is `'-'`) followed by the digit string `ds`, which has one or more
ASCII digits and nothing else. -/
def isSignedDecimal (bs : List Byte) (neg : Bool) (ds : List Byte) : Prop :=
  ((bs = ds ∧ neg = false) ∨ (bs = 43 :: ds ∧ neg = false) ∨ (bs = 45 :: ds ∧ neg = true)) ∧
    ds ≠ [] ∧ ∀ b ∈ ds, isDigitByte b

/-- The bytes that remain after at most one leading `'+'`. -/
def stripPlus (bs : List Byte) : List Byte :=
  if bs.head? = some 43 then bs.tail else bs

/-- The bytes that remain after at most one leading `'+'` or `'-'`. -/
def stripSign (bs : List Byte) : List Byte :=
  if bs.head? = some 43 ∨ bs.head? = some 45 then bs.tail else bs

/-- Whether the byte string starts with `'-'`. -/
def hasMinus (bs : List Byte) : Bool := decide (bs.head? = some 45)

/-- The signed value of a sign flag and a digit string. -/
def signedValue (neg : Bool) (ds : List Byte) : Int :=
  if neg then -(decimalValue ds : Int) else (decimalValue ds : Int)

/-- The ASCII digit for `d < 10`. -/
def digitByte (d : Nat) : Byte := Fin.ofNat (48 + d)

/-- Decimal digits of `x`, most significant first, pushed in front of `ds`;
`fuel` bounds the number of digits produced. -/
def renderCore : Nat → Nat → List Byte → List Byte
  | 0, _, ds => ds
  | fuel + 1, x, ds =>
    if x / 10 = 0 then digitByte (x % 10) :: ds
    else renderCore fuel (x / 10) (digitByte (x % 10) :: ds)

/-- C library rendering of an unsigned integer by `printf` with `%llu`:
decimal digits, no sign, no leading zeros, `"0"` for zero. -/
def renderUnsigned (x : Nat) : List Byte := renderCore (x + 1) x []

/-- C library rendering of a signed integer by `printf` with `%lld`: a leading
`'-'` for negative values, then the digits of the magnitude without leading
zeros. -/
def renderSigned (x : Int) : List Byte :=
  if x < 0 then 45 :: renderUnsigned x.natAbs else renderUnsigned x.natAbs

/-- The bytes of a string literal. -/
def cstr (s : String) : List Byte := s.toList.map (fun c => Fin.ofNat c.toNat)

/-- Example image holding the string `s` from address 1 on. -/
def strMem (s : String) : Memory := memOfList (0 :: cstr s)

/-- The view of the whole string in `strMem s`. -/
def strView (s : String) : StringView := { begin := 1, length := s.length }

/-- Whether a byte is an ASCII digit, as a Boolean. -/
def isDigitB (b : Byte) : Bool := decide (isDigitByte b)

/-- The longest run of ASCII digits at the start of `bs`. -/
def digitRun (bs : List Byte) : List Byte := bs.takeWhile isDigitB

/-- What follows the longest run of ASCII digits at the start of `bs`. -/
def digitRest (bs : List Byte) : List Byte := bs.dropWhile isDigitB

/-- The parts of a text of the form
`[sign] (digits [. digits] | . digits) [(e|E) [sign] digits]`: the sign if
there is one (`true` for `'-'`), the digits before the point, the digits after
the point if there is a point, and, if there is an exponent, whether its
marker is `'E'`, its sign if there is one, and its digits. -/
structure DoubleLiteral where
  sign : Option Bool
  int_digits : List Byte
  frac_digits : Option (List Byte)
  exponent : Option (Bool × Option Bool × List Byte)
deriving DecidableEq

/-- The text of an optional sign. -/
def signBytes : Option Bool → List Byte
  | none => []
  | some false => [43]
  | some true => [45]

/-- The text of the fractional part: a point and the digits after it. -/
def fracBytes : Option (List Byte) → List Byte
  | none => []
  | some fs => 46 :: fs

/-- The text of the exponent: the marker, the optional sign, the digits. -/
def exponentBytes : Option (Bool × Option Bool × List Byte) → List Byte
  | none => []
  | some (upper, sg, es) => (if upper then 69 else 101) :: (signBytes sg ++ es)

/-- The text of a literal. -/
def DoubleLiteral.bytes (l : DoubleLiteral) : List Byte :=
  signBytes l.sign ++ (l.int_digits ++ (fracBytes l.frac_digits ++ exponentBytes l.exponent))

/-- The conditions of the grammar: every digit group holds ASCII digits only,
a point is followed by at least one digit, there is a digit before the point
or a point, and an exponent marker is followed (after its sign) by at least
one digit. -/
def DoubleLiteral.wf (l : DoubleLiteral) : Prop :=
  (∀ b ∈ l.int_digits, isDigitByte b) ∧
  (∀ fs, l.frac_digits = some fs → fs ≠ [] ∧ ∀ b ∈ fs, isDigitByte b) ∧
  (l.int_digits ≠ [] ∨ l.frac_digits ≠ none) ∧
  (∀ u sg es, l.exponent = some (u, sg, es) → es ≠ [] ∧ ∀ b ∈ es, isDigitByte b)

/-- The byte string `bs`, taken in its entirety, is of the form
`[sign] (digits [. digits] | . digits) [(e|E) [sign] digits]` with at least one
digit in each digits group. -/
def isDoubleLiteral (bs : List Byte) : Prop :=
  ∃ l : DoubleLiteral, l.wf ∧ bs = l.bytes

/-- Reading an optional sign off the front of a text. -/
def parseSign : List Byte → Option Bool × List Byte
  | [] => (none, [])
  | b :: rest =>
    if b = 43 then (some false, rest)
    else if b = 45 then (some true, rest)
    else (none, b :: rest)

/-- Reading the exponent part, which must be the whole text; the outer `none`
says that the text is not an exponent part and not empty. -/
def parseExponent : List Byte → Option (Option (Bool × Option Bool × List Byte))
  | [] => some none
  | b :: rest =>
    if b = 101 ∨ b = 69 then
      if digitRun (parseSign rest).2 = [] ∨ digitRest (parseSign rest).2 ≠ [] then none
      else some (some (decide (b = 69), (parseSign rest).1, (parseSign rest).2))
    else none

/-- Reading the mantissa and the exponent once the sign is read. -/
def parseMantissa (sg : Option Bool) (bs : List Byte) : Option DoubleLiteral :=
  let noPoint : Option DoubleLiteral :=
    if digitRun bs = [] then none
    else (parseExponent (digitRest bs)).map
      (fun e => { sign := sg, int_digits := digitRun bs, frac_digits := none, exponent := e })
  match digitRest bs with
  | [] => noPoint
  | b :: rest =>
    if b = 46 then
      if digitRun rest = [] then none
      else (parseExponent (digitRest rest)).map
        (fun e => { sign := sg, int_digits := digitRun bs, frac_digits := some (digitRun rest),
                    exponent := e })
    else noPoint

/-- A recogniser for the grammar: the parts of `bs` when `bs` is a literal. -/
def parseLiteral (bs : List Byte) : Option DoubleLiteral :=
  parseMantissa (parseSign bs).1 (parseSign bs).2

/-- The integer-part accumulator of `sv_to_double` after the digits `ds`. -/
def intAcc (acc : Nat) (ds : List Byte) : Nat :=
  ds.foldl
    (fun a b => if a ≤ 1844674407370955161 then u64 (u64 (a * 10) + (b.val - 48)) else a) acc

/-- The exponent accumulator of `sv_to_double` after the digits `ds`. -/
def expAcc (acc : Nat) (ds : List Byte) : Nat :=
  ds.foldl (fun a b => if a < 10000 then a * 10 + (b.val - 48) else a) acc

/-- The accumulators of the fractional part of `sv_to_double`. -/
structure FracAcc (F : Type) where
  frac_acc : Nat
  frac_digits : Nat
  frac_tail : F
  tail_scale : F

/-- One fractional digit. -/
def fracStep {F : Type} (fo : FloatOps F) (st : FracAcc F) (b : Byte) : FracAcc F :=
  if st.frac_digits < 19 then
    { frac_acc := u64 (u64 (st.frac_acc * 10) + (b.val - 48)),
      frac_digits := st.frac_digits + 1, frac_tail := st.frac_tail,
      tail_scale := st.tail_scale }
  else
    { frac_acc := st.frac_acc, frac_digits := st.frac_digits + 1,
      frac_tail := fo.add st.frac_tail (fo.mul (fo.ofNat (b.val - 48)) st.tail_scale),
      tail_scale := fo.mul st.tail_scale (fo.pow10 (-1)) }

/-- The accumulators of the fractional part after the digits `ds`. -/
def fracFold {F : Type} (fo : FloatOps F) (st : FracAcc F) (ds : List Byte) : FracAcc F :=
  ds.foldl (fracStep fo) st

/-- The accumulators of the fractional part before the first digit. -/
def fracInit {F : Type} (fo : FloatOps F) : FracAcc F :=
  { frac_acc := 0, frac_digits := 0, frac_tail := fo.zero, tail_scale := fo.pow10 (-20) }

/-- Whether the exponent of a literal has a minus sign. -/
def exponentNeg : Option (Bool × Option Bool × List Byte) → Bool
  | some (_, some true, _) => true
  | _ => false

/-- The digits of the exponent of a literal. -/
def exponentDigits : Option (Bool × Option Bool × List Byte) → List Byte
  | some (_, _, es) => es
  | none => []

/-- What `sv_to_double` has gathered when it has scanned the literal `l`. -/
def DoubleLiteral.scan {F : Type} (fo : FloatOps F) (l : DoubleLiteral) : DoubleScan F :=
  { neg := decide (l.sign = some true)
    int_part := intAcc 0 l.int_digits
    have_int := !l.int_digits.isEmpty
    frac_acc := (fracFold fo (fracInit fo) (l.frac_digits.getD [])).frac_acc
    frac_digits := (fracFold fo (fracInit fo) (l.frac_digits.getD [])).frac_digits
    have_frac := l.frac_digits.isSome
    frac_tail := (fracFold fo (fracInit fo) (l.frac_digits.getD [])).frac_tail
    have_exp := l.exponent.isSome
    exp_neg := exponentNeg l.exponent
    exp_val := expAcc 0 (exponentDigits l.exponent) }

/-- The input `0.` followed by 323 zeros, then `9e999`. -/
def tinyFractionLiteral : String :=
  "0." ++ String.mk (List.replicate 323 '0') ++ "9e999"

/-! ## Definitions for the remaining operations -/

/-- `sv_from_parts` (sv.h:354-363). -/
def sv_from_parts (begin length : Nat) : StringView := { begin := begin, length := length }

/-- `sv_take_last` (sv.h:662-667). -/
def sv_take_last (sv : StringView) (n : Nat) : StringView :=
  sv_substr sv (size_sub sv.length n) n

/-- `sv_drop_last` (sv.h:669-674). -/
def sv_drop_last (sv : StringView) (n : Nat) : StringView :=
  sv_substr sv 0 (size_sub sv.length n)

/-- `sv_take_and_consume` (sv.h:676-687).  The argument is the view that the
pointer `sv` points to; the result is the returned view and the view that
`*sv` holds after the call. -/
def sv_take_and_consume (sv : StringView) (n : Nat) : StringView × StringView :=
  let out : StringView := { begin := sv.begin, length := n }
  (out, { begin := sv.begin + n, length := size_sub sv.length n })

/-- `sv_drop_and_consume` (sv.h:689-697); result as in `sv_take_and_consume`. -/
def sv_drop_and_consume (sv : StringView) (n : Nat) : StringView × StringView :=
  let sv1 : StringView := { begin := sv.begin + n, length := size_sub sv.length n }
  (sv1, sv1)

/-- `sv_take_last_and_consume` (sv.h:699-709); result as in
`sv_take_and_consume`. -/
def sv_take_last_and_consume (sv : StringView) (n : Nat) : StringView × StringView :=
  let out : StringView := { begin := sv.begin + size_sub sv.length n, length := n }
  (out, { begin := sv.begin, length := size_sub sv.length n })

/-- `sv_drop_last_and_consume` (sv.h:711-718); result as in
`sv_take_and_consume`. -/
def sv_drop_last_and_consume (sv : StringView) (n : Nat) : StringView × StringView :=
  let sv1 : StringView := { begin := sv.begin, length := size_sub sv.length n }
  (sv1, sv1)

/-- `sv_eq` (sv.h:399-406). -/
def sv_eq (mem : Memory) (sv1 sv2 : StringView) : Bool :=
  if sv1.length ≠ sv2.length then false
  else if sv1.length = 0 then true
  else decide (memcmp mem sv1.begin sv2.begin sv1.length = 0)

/-- `sv_starts_with` (sv.h:432-438). -/
def sv_starts_with (mem : Memory) (sv pfx : StringView) : Bool :=
  if pfx.length > sv.length then false
  else decide (memcmp mem sv.begin pfx.begin pfx.length = 0)

/-- `sv_ends_with` (sv.h:440-447). -/
def sv_ends_with (mem : Memory) (sv sfx : StringView) : Bool :=
  if sfx.length > sv.length then false
  else
    let offset := size_sub sv.length sfx.length
    decide (memcmp mem (sv.begin + offset) sfx.begin sfx.length = 0)

/-- C library `memcpy(dst, src, n)` for ranges that do not overlap: the memory
after the call. -/
def memcpy (mem : Memory) (dst src n : Nat) : Memory :=
  fun a => if dst ≤ a ∧ a < dst + n then mem (src + (a - dst)) else mem a

/-- `sv_to_cstr` (sv.h:778-798): the returned count and the memory after the
call.  `buffer_size - 1` is taken where `buffer_size` is not zero. -/
def sv_to_cstr (mem : Memory) (sv : StringView) (buffer buffer_size : Nat) : Nat × Memory :=
  if buffer_size = 0 then (0, mem)
  else
    let n := if sv.length > buffer_size - 1 then buffer_size - 1 else sv.length
    let mem1 := if n > 0 then memcpy mem buffer sv.begin n else mem
    (n, fun a => if a = buffer + n then 0 else mem1 a)

/-- C library `isspace` in the "C" locale: space, `\t`, `\n`, `\v`, `\f`, `\r`. -/
def isspace (c : Byte) : Bool := decide (c.val = 32 ∨ (9 ≤ c.val ∧ c.val ≤ 13))

/-- The loop of `sv_trim_left` (sv.h:627-628) started at `i`; `none` when the
fuel runs out. -/
def sv_trim_left_loop (mem : Memory) (sv : StringView) : Nat → Nat → Option Nat
  | 0, _ => none
  | fuel + 1, i =>
    if i < sv.length ∧ isspace (mem (sv.begin + i)) = true then
      sv_trim_left_loop mem sv fuel (i + 1)
    else some i

/-- `sv_trim_left` (sv.h:624-631). -/
def sv_trim_left (mem : Memory) (sv : StringView) : Option StringView :=
  (sv_trim_left_loop mem sv (sv.length + 1) 0).map
    (fun i => sv_from_parts (sv.begin + i) (size_sub sv.length i))

/-- The loop of `sv_trim_right` (sv.h:636-637) started at `i`; `none` when the
fuel runs out.  The index `sv.length - i - 1` is computed where `i < sv.length`. -/
def sv_trim_right_loop (mem : Memory) (sv : StringView) : Nat → Nat → Option Nat
  | 0, _ => none
  | fuel + 1, i =>
    if i < sv.length ∧ isspace (mem (sv.begin + (sv.length - i - 1))) = true then
      sv_trim_right_loop mem sv fuel (i + 1)
    else some i

/-- `sv_trim_right` (sv.h:633-640). -/
def sv_trim_right (mem : Memory) (sv : StringView) : Option StringView :=
  (sv_trim_right_loop mem sv (sv.length + 1) 0).map
    (fun i => sv_from_parts sv.begin (size_sub sv.length i))

/-- `sv_trim` (sv.h:642-646). -/
def sv_trim (mem : Memory) (sv : StringView) : Option StringView :=
  (sv_trim_left mem sv).bind (sv_trim_right mem)

/-- The control flow shared by the two scaling loops of `sv_to_double`
(sv.h:1025-1039): the table indices `i` whose entry is used, in the order of
use, and the value of `e` when the loop ends. -/
def double_scale_used : Nat → Int → List Nat × Int
  | 0, e => ([], e)
  | i + 1, e =>
    if e ≥ (p10_exp.getD i 0 : Int) then
      (i :: (double_scale_used i (e - (p10_exp.getD i 0 : Int))).1,
        (double_scale_used i (e - (p10_exp.getD i 0 : Int))).2)
    else double_scale_used i e

/-- Example image: `"  hi \t"` at addresses 1..6. -/
def trimMem : Memory := memOfList [0, 32, 32, 104, 105, 32, 9, 0]

/-- The address `a` lies in the byte range of the view. -/
def StringView.has (sv : StringView) (a : Nat) : Prop :=
  sv.begin ≤ a ∧ a < sv.begin + sv.length

instance (sv : StringView) (a : Nat) : Decidable (sv.has a) :=
  inferInstanceAs (Decidable (sv.begin ≤ a ∧ a < sv.begin + sv.length))

/-- Whether a binary64 value is finite (neither an infinity nor a NaN). -/
def Dbl.isFinite : Dbl → Bool
  | Dbl.fin _ _ _ => true
  | _ => false

/-- Whether a binary64 value is a zero with the given sign bit. -/
def Dbl.isZero (x : Dbl) (neg : Bool) : Bool := decide (x = Dbl.fin neg 0 (-1074))

/-- The value is finite, kept as `Dbl` keeps finite values (`m < 2^53`,
`-1074 <= e <= 971`, `2^52 <= m` unless `e = -1074`), and of magnitude below
`2^K`. -/
def Dbl.magBelow (x : Dbl) (K : Int) : Prop :=
  ∃ s m e, x = Dbl.fin s m e ∧
    m < 2 ^ 53 ∧ -1074 ≤ e ∧ e ≤ 971 ∧ (m < 2 ^ 52 → e = -1074) ∧ e + (bitLength m : Int) ≤ K

instance (x : Dbl) (K : Int) : Decidable (x.magBelow K) :=
  match x with
  | Dbl.fin s m e =>
    if h : m < 2 ^ 53 ∧ -1074 ≤ e ∧ e ≤ 971 ∧ (m < 2 ^ 52 → e = -1074) ∧
        e + (bitLength m : Int) ≤ K
    then isTrue ⟨s, m, e, rfl, h⟩
    else isFalse (fun ⟨_, _, _, heq, hp⟩ => by cases heq; exact h hp)
  | Dbl.inf _ => isFalse (fun ⟨_, _, _, heq, _⟩ => by cases heq)
  | Dbl.nan => isFalse (fun ⟨_, _, _, heq, _⟩ => by cases heq)

/-- The values that `tail_scale` takes in `sv_to_double`, `n` of them from `t`
on, are finite and below `2^-66`, and the one after them is `+0.0`. -/
def tailScalesBelow : Nat → Dbl → Bool
  | 0, t => decide (t = Dbl.fin false 0 (-1074))
  | n + 1, t => decide (t.magBelow (-66)) && tailScalesBelow n (Dbl.mul t (Dbl.pow10 (-1)))

/-- The value is finite, not a zero, and of magnitude at least `2^(L-1)`. -/
def Dbl.magAtLeast (x : Dbl) (L : Int) : Prop :=
  ∃ s m e, x = Dbl.fin s m e ∧ m ≠ 0 ∧ L ≤ e + (bitLength m : Int)

instance (x : Dbl) (L : Int) : Decidable (x.magAtLeast L) :=
  match x with
  | Dbl.fin s m e =>
    if h : m ≠ 0 ∧ L ≤ e + (bitLength m : Int)
    then isTrue ⟨s, m, e, rfl, h⟩
    else isFalse (fun ⟨_, _, _, heq, hp⟩ => by cases heq; exact h hp)
  | Dbl.inf _ => isFalse (fun ⟨_, _, _, heq, _⟩ => by cases heq)
  | Dbl.nan => isFalse (fun ⟨_, _, _, heq, _⟩ => by cases heq)

/-- What `tail_scale` and `frac_tail` satisfy all along the fractional loop of
`sv_to_double` in binary64: `tail_scale` is `n` steps away from `+0.0`, with
`n ≤ 304`, and `frac_tail` is finite and below `2^(552 - 2n)`. -/
def TailInv (st : FracAcc Dbl) : Prop :=
  ∃ n, n ≤ 304 ∧ tailScalesBelow n st.tail_scale = true ∧
    st.frac_tail.magBelow (552 - 2 * (n : Int))

/-! ## Values checked by the test suite (`src/test/sv_test.c`) -/

theorem test_find_substr_banana : sv_find_substr bananaMem ⟨1, 6⟩ ⟨8, 3⟩ = some 1 := by decide

theorem test_rfind_substr_banana : sv_rfind_substr bananaMem ⟨1, 6⟩ ⟨8, 3⟩ = some 3 := by decide

theorem test_find_substr_from_banana : sv_find_substr_from bananaMem ⟨1, 6⟩ 2 ⟨8, 3⟩ = some 3 := by decide

theorem test_rfind_substr_from_banana : sv_rfind_substr_from bananaMem ⟨1, 6⟩ 2 ⟨8, 3⟩ = some 1 := by decide

theorem test_rfind_substr_from_hello_3 : sv_rfind_substr_from helloMem ⟨1, 11⟩ 3 ⟨13, 5⟩ = some SV_NPOS := by decide

theorem test_rfind_substr_from_hello_4 : sv_rfind_substr_from helloMem ⟨1, 11⟩ 4 ⟨13, 5⟩ = some 0 := by decide

theorem test_find_char_hello_l : sv_find_char helloMem ⟨1, 11⟩ 108 = 2 := by decide

theorem test_find_char_hello_k : sv_find_char helloMem ⟨1, 11⟩ 107 = SV_NPOS := by decide

theorem test_contains_banana : sv_contains bananaMem ⟨1, 6⟩ ⟨8, 3⟩ = some true := by decide

theorem test_rfind_char_hello_l : sv_rfind_char helloMem ⟨1, 11⟩ 108 = 9 := by decide

theorem test_rfind_char_hello_k : sv_rfind_char helloMem ⟨1, 11⟩ 107 = SV_NPOS := by decide

theorem test_find_char_from_hello : sv_find_char_from helloMem ⟨1, 11⟩ 3 108 = 3 := by decide

theorem test_find_char_from_hello_end : sv_find_char_from helloMem ⟨1, 11⟩ 11 100 = SV_NPOS := by
  decide

theorem test_rfind_char_from_hello : sv_rfind_char_from helloMem ⟨1, 11⟩ 6 111 = 4 := by decide

theorem test_rfind_char_from_hello_clamps : sv_rfind_char_from helloMem ⟨1, 11⟩ 11 100 = 10 := by
  decide

theorem test_split_first_foo_bar_baz :
    sv_split_first (strMem "foo bar baz") (strView "foo bar baz") 32 (some sv_empty)
      (some sv_empty) = (some ⟨1, 3⟩, some ⟨5, 7⟩) := by decide

theorem test_split_once_from_3 :
    sv_split_once_from (strMem "foo bar baz") (strView "foo bar baz") 32 3 (some sv_empty)
      (some sv_empty) = (some ⟨1, 3⟩, some ⟨5, 7⟩) := by decide

theorem test_split_once_from_4 :
    sv_split_once_from (strMem "foo bar baz") (strView "foo bar baz") 32 4 (some sv_empty)
      (some sv_empty) = (some ⟨1, 7⟩, some ⟨9, 3⟩) := by decide

theorem test_to_uint64_zero :
    sv_to_uint64 (strMem "0") (strView "0") (some 7) = (true, some 0) := by decide

theorem test_to_uint64_plus_42 :
    sv_to_uint64 (strMem "+42") (strView "+42") (some 7) = (true, some 42) := by decide

theorem test_to_int64_minus_98765 :
    sv_to_int64 (strMem "-98765") (strView "-98765") (some 7) = (true, some (-98765)) := by
  decide

theorem test_to_int64_sign_only :
    sv_to_int64 (strMem "-") (strView "-") (some 7) = (false, some 7) := by decide

theorem test_to_int64_blank_42 :
    sv_to_int64 (strMem " 42") (strView " 42") (some 7) = (false, some 7) := by decide

/-! ## Arithmetic on `size_t` without wrap-around -/

theorem size_add_eq {a b : Nat} (h : a + b ≤ SIZE_MAX) : size_add a b = a + b := by
  unfold size_add
  exact Nat.mod_eq_of_lt (by omega)

theorem size_sub_eq {a b : Nat} (hb : b ≤ a) (ha : a ≤ SIZE_MAX) : size_sub a b = a - b := by
  unfold size_sub
  rw [Nat.mod_eq_of_lt (show b < SIZE_MAX + 1 by omega)]
  have e : a + (SIZE_MAX + 1) - b = (a - b) + (SIZE_MAX + 1) := by omega
  rw [e, Nat.add_mod_right]
  exact Nat.mod_eq_of_lt (by omega)

theorem StringView.valid.length_lt {sv : StringView} (h : sv.valid) : sv.length < SIZE_MAX := by
  obtain ⟨h1, h2⟩ := h
  by_cases h0 : sv.length = 0
  · rw [h0]; unfold SIZE_MAX; omega
  · have := h1 h0
    omega

/-! ## The byte-scan and byte-compare primitives -/

theorem memchr_eq_none {mem : Memory} {c : Byte} {n s : Nat} :
    memchr mem s c n = none ↔ ∀ k, k < n → mem (s + k) ≠ c := by
  induction n generalizing s with
  | zero => simp [memchr]
  | succ n ih =>
    unfold memchr
    by_cases hc : mem s = c
    · simp only [hc, if_true]
      constructor
      · intro h; cases h
      · intro h; exact absurd hc (h 0 (by omega))
    · simp only [hc, if_false]
      rw [ih]
      constructor
      · intro h k hk
        rcases Nat.eq_zero_or_pos k with rfl | hpos
        · exact hc
        · have := h (k - 1) (by omega)
          rwa [show s + 1 + (k - 1) = s + k by omega] at this
      · intro h k hk
        have := h (k + 1) (by omega)
        rwa [show s + (k + 1) = s + 1 + k by omega] at this

theorem memchr_eq_some {mem : Memory} {c : Byte} {n s p : Nat}
    (h : memchr mem s c n = some p) :
    ∃ k, k < n ∧ p = s + k ∧ mem (s + k) = c ∧ ∀ j, j < k → mem (s + j) ≠ c := by
  induction n generalizing s with
  | zero => simp [memchr] at h
  | succ n ih =>
    unfold memchr at h
    by_cases hc : mem s = c
    · simp only [hc, if_true, Option.some.injEq] at h
      exact ⟨0, by omega, by omega, by simpa using hc, fun j hj => absurd hj (by omega)⟩
    · simp only [hc, if_false] at h
      obtain ⟨k, hk, hp, hm, hmin⟩ := ih h
      refine ⟨k + 1, by omega, by omega, ?_, ?_⟩
      · rwa [show s + (k + 1) = s + 1 + k by omega]
      · intro j hj
        rcases Nat.eq_zero_or_pos j with rfl | hpos
        · exact hc
        · have := hmin (j - 1) (by omega)
          rwa [show s + 1 + (j - 1) = s + j by omega] at this

theorem sv_memrchr_eq_none {mem : Memory} {c : Byte} {n s : Nat} :
    sv_memrchr_ mem s c n = none ↔ ∀ k, k < n → mem (s + k) ≠ c := by
  unfold sv_memrchr_
  induction n with
  | zero => simp [sv_memrchr_loop]
  | succ n ih =>
    unfold sv_memrchr_loop
    rw [show s + (n + 1) - 1 = s + n by omega]
    by_cases hc : mem (s + n) = c
    · simp only [hc, if_true]
      constructor
      · intro h; cases h
      · intro h; exact absurd hc (h n (by omega))
    · simp only [hc, if_false]
      rw [ih]
      constructor
      · intro h k hk
        rcases Nat.lt_or_ge k n with hlt | hge
        · exact h k hlt
        · have : k = n := by omega
          rw [this]; exact hc
      · intro h k hk
        exact h k (by omega)

theorem sv_memrchr_eq_some {mem : Memory} {c : Byte} {n s p : Nat}
    (h : sv_memrchr_ mem s c n = some p) :
    ∃ k, k < n ∧ p = s + k ∧ mem (s + k) = c ∧ ∀ j, k < j → j < n → mem (s + j) ≠ c := by
  unfold sv_memrchr_ at h
  induction n with
  | zero => simp [sv_memrchr_loop] at h
  | succ n ih =>
    unfold sv_memrchr_loop at h
    rw [show s + (n + 1) - 1 = s + n by omega] at h
    by_cases hc : mem (s + n) = c
    · simp only [hc, if_true, Option.some.injEq] at h
      exact ⟨n, by omega, by omega, hc, fun j h1 h2 => absurd h1 (by omega)⟩
    · simp only [hc, if_false] at h
      obtain ⟨k, hk, hp, hm, hmax⟩ := ih h
      refine ⟨k, by omega, hp, hm, ?_⟩
      intro j h1 h2
      rcases Nat.lt_or_ge j n with hlt | hge
      · exact hmax j h1 hlt
      · have : j = n := by omega
        rw [this]; exact hc

theorem memcmp_eq_zero {mem : Memory} {n a b : Nat} :
    memcmp mem a b n = 0 ↔ ∀ j, j < n → mem (a + j) = mem (b + j) := by
  induction n generalizing a b with
  | zero => simp [memcmp]
  | succ n ih =>
    unfold memcmp
    by_cases hc : mem a = mem b
    · simp only [hc, if_true]
      rw [ih]
      constructor
      · intro h j hj
        rcases Nat.eq_zero_or_pos j with rfl | hpos
        · simpa using hc
        · have := h (j - 1) (by omega)
          rwa [show a + 1 + (j - 1) = a + j by omega,
            show b + 1 + (j - 1) = b + j by omega] at this
      · intro h j hj
        have := h (j + 1) (by omega)
        rwa [show a + (j + 1) = a + 1 + j by omega,
          show b + (j + 1) = b + 1 + j by omega] at this
    · simp only [hc, if_false]
      constructor
      · intro h
        exfalso
        apply hc
        apply Fin.ext
        omega
      · intro h
        exact absurd (by simpa using h 0 (by omega)) hc

/-! ## The two search loops -/

theorem occursAt_first {mem : Memory} {hay needle : StringView} {k : Nat}
    (hn : needle.length ≠ 0) (h : occursAt mem hay needle k) :
    mem (hay.begin + k) = mem needle.begin := by
  have := h.2 0 (by omega)
  simpa using this

theorem occursAt_lt_npos {mem : Memory} {hay needle : StringView} {k : Nat}
    (hn : needle.length ≠ 0) (hmax : hay.length ≤ SIZE_MAX) (h : occursAt mem hay needle k) :
    k ≠ SV_NPOS := by
  have := h.1
  unfold SV_NPOS
  omega

theorem find_substr_loop_spec (mem : Memory) (hay needle : StringView)
    (hn : needle.length ≠ 0) (hle : needle.length ≤ hay.length) (hmax : hay.length ≤ SIZE_MAX)
    (lo : Nat) :
    ∀ fuel i, lo ≤ i → i ≤ hay.length - needle.length + 1 →
      hay.length - needle.length + 2 ≤ fuel + i →
      (∀ k, lo ≤ k → k < i → ¬ occursAt mem hay needle k) →
      ∃ r, find_substr_loop mem hay needle (mem needle.begin)
            (hay.length - needle.length) fuel i = some r ∧
        ((r = SV_NPOS ∧ ∀ k, lo ≤ k → ¬ occursAt mem hay needle k) ∨
         (lo ≤ r ∧ occursAt mem hay needle r ∧
            ∀ k, lo ≤ k → k < r → ¬ occursAt mem hay needle k)) := by
  intro fuel
  induction fuel with
  | zero => intro i _ hi hf _; omega
  | succ fuel ih =>
    intro i hlo hi hf hinv
    unfold find_substr_loop
    by_cases hil : i ≤ hay.length - needle.length
    · simp only [hil, if_true]
      rw [size_sub_eq hil (by omega), size_add_eq (by omega)]
      cases hm : memchr mem (hay.begin + i) (mem needle.begin)
          (hay.length - needle.length - i + 1) with
      | none =>
        refine ⟨SV_NPOS, rfl, Or.inl ⟨rfl, ?_⟩⟩
        intro k hk hocc
        rcases Nat.lt_or_ge k i with hlt | hge
        · exact hinv k hk hlt hocc
        · have h1 := hocc.1
          have := memchr_eq_none.mp hm (k - i) (by omega)
          rw [show hay.begin + i + (k - i) = hay.begin + k by omega] at this
          exact this (occursAt_first hn hocc)
      | some p =>
        obtain ⟨d, hd, hp, hfc, hmin⟩ := memchr_eq_some hm
        have hoff : p - hay.begin = i + d := by omega
        simp only [hoff]
        have hinv2 : ∀ k, lo ≤ k → k < i + d → ¬ occursAt mem hay needle k := by
          intro k hk hlt hocc
          rcases Nat.lt_or_ge k i with hlt2 | hge
          · exact hinv k hk hlt2 hocc
          · have := hmin (k - i) (by omega)
            rw [show hay.begin + i + (k - i) = hay.begin + k by omega] at this
            exact this (occursAt_first hn hocc)
        by_cases hc : memcmp mem (hay.begin + (i + d)) needle.begin needle.length = 0
        · simp only [hc, if_true]
          refine ⟨i + d, rfl, Or.inr ⟨by omega, ⟨by omega, ?_⟩, hinv2⟩⟩
          intro j hj
          have := memcmp_eq_zero.mp hc j hj
          exact this
        · simp only [hc, if_false]
          rw [size_add_eq (by omega)]
          apply ih (i + d + 1) (by omega) (by omega) (by omega)
          intro k hk hlt hocc
          rcases Nat.lt_or_ge k (i + d) with hlt2 | hge
          · exact hinv2 k hk hlt2 hocc
          · have hkeq : k = i + d := by omega
            apply hc
            rw [memcmp_eq_zero]
            intro j hj
            have := hocc.2 j hj
            rwa [hkeq] at this
    · simp only [hil, if_false]
      refine ⟨SV_NPOS, rfl, Or.inl ⟨rfl, ?_⟩⟩
      intro k hk hocc
      rcases Nat.lt_or_ge k i with hlt | hge
      · exact hinv k hk hlt hocc
      · have := hocc.1
        omega

theorem rfind_substr_loop_spec (mem : Memory) (hay needle : StringView)
    (hn : needle.length ≠ 0) (hi : Nat) (hhi : hi + needle.length ≤ hay.length) :
    ∀ fuel i, i ≤ hi + 1 → i + 1 ≤ fuel →
      (∀ k, i ≤ k → k ≤ hi → ¬ occursAt mem hay needle k) →
      ∃ r, rfind_substr_loop mem hay needle (mem needle.begin) fuel i = some r ∧
        ((r = SV_NPOS ∧ ∀ k, k ≤ hi → ¬ occursAt mem hay needle k) ∨
         (r ≤ hi ∧ occursAt mem hay needle r ∧
            ∀ k, r < k → k ≤ hi → ¬ occursAt mem hay needle k)) := by
  intro fuel
  induction fuel with
  | zero => intro i _ hf _; omega
  | succ fuel ih =>
    intro i hile hf hinv
    unfold rfind_substr_loop
    by_cases hi0 : i = 0
    · simp only [hi0, ne_eq, not_true_eq_false, if_false]
      refine ⟨SV_NPOS, rfl, Or.inl ⟨rfl, ?_⟩⟩
      intro k hk
      exact hinv k (by omega) hk
    · simp only [ne_eq, hi0, not_false_eq_true, if_true]
      cases hm : sv_memrchr_ mem hay.begin (mem needle.begin) i with
      | none =>
        refine ⟨SV_NPOS, rfl, Or.inl ⟨rfl, ?_⟩⟩
        intro k hk hocc
        rcases Nat.lt_or_ge k i with hlt | hge
        · exact sv_memrchr_eq_none.mp hm k hlt (occursAt_first hn hocc)
        · exact hinv k hge hk hocc
      | some p =>
        obtain ⟨d, hd, hp, hfc, hmaxd⟩ := sv_memrchr_eq_some hm
        have hoff : p - hay.begin = d := by omega
        simp only [hoff]
        have hinv2 : ∀ k, d < k → k ≤ hi → ¬ occursAt mem hay needle k := by
          intro k hk hle hocc
          rcases Nat.lt_or_ge k i with hlt | hge
          · exact hmaxd k hk hlt (occursAt_first hn hocc)
          · exact hinv k hge hle hocc
        by_cases hc : memcmp mem (hay.begin + d) needle.begin needle.length = 0
        · simp only [hc, if_true]
          refine ⟨d, rfl, Or.inr ⟨by omega, ⟨by omega, ?_⟩, hinv2⟩⟩
          intro j hj
          exact memcmp_eq_zero.mp hc j hj
        · simp only [hc, if_false]
          apply ih d (by omega) (by omega)
          intro k hk hle hocc
          rcases Nat.lt_or_ge d k with hlt | hge
          · exact hinv2 k hlt hle hocc
          · have hkeq : k = d := by omega
            apply hc
            rw [memcmp_eq_zero]
            intro j hj
            have := hocc.2 j hj
            rwa [hkeq] at this

/-! ## Characterisation of the substring searches -/

/-- Outcome of `sv_find_substr` on a non-empty needle: either `SV_NPOS` with no
occurrence at all, or an occurrence index with no occurrence before it. -/
theorem sv_find_substr_spec (mem : Memory) (hay needle : StringView)
    (hmax : hay.length ≤ SIZE_MAX) (hn : needle.length ≠ 0) :
    ∃ r, sv_find_substr mem hay needle = some r ∧
      ((r = SV_NPOS ∧ ∀ k, ¬ occursAt mem hay needle k) ∨
       (r ≠ SV_NPOS ∧ occursAt mem hay needle r ∧
          ∀ k, k < r → ¬ occursAt mem hay needle k)) := by
  unfold sv_find_substr
  simp only [hn, if_false]
  by_cases hgt : needle.length > hay.length
  · simp only [hgt, if_true]
    refine ⟨SV_NPOS, rfl, Or.inl ⟨rfl, fun k hocc => ?_⟩⟩
    have := hocc.1
    omega
  · simp only [hgt, if_false]
    rw [size_sub_eq (by omega) hmax]
    obtain ⟨r, hr, hspec⟩ := find_substr_loop_spec mem hay needle hn (by omega) hmax 0
      (hay.length + 1) 0 (by omega) (by omega) (by omega) (fun k _ hk => absurd hk (by omega))
    refine ⟨r, hr, ?_⟩
    rcases hspec with ⟨hnp, hnone⟩ | ⟨_, hocc, hmin⟩
    · exact Or.inl ⟨hnp, fun k => hnone k (by omega)⟩
    · exact Or.inr ⟨occursAt_lt_npos hn hmax hocc, hocc, fun k hk => hmin k (by omega) hk⟩

/-- Outcome of `sv_rfind_substr` on a non-empty needle: either `SV_NPOS` with
no occurrence at all, or an occurrence index with no occurrence after it. -/
theorem sv_rfind_substr_spec (mem : Memory) (hay needle : StringView)
    (hmax : hay.length ≤ SIZE_MAX) (hn : needle.length ≠ 0) :
    ∃ r, sv_rfind_substr mem hay needle = some r ∧
      ((r = SV_NPOS ∧ ∀ k, ¬ occursAt mem hay needle k) ∨
       (r ≠ SV_NPOS ∧ occursAt mem hay needle r ∧
          ∀ k, r < k → ¬ occursAt mem hay needle k)) := by
  unfold sv_rfind_substr
  simp only [hn, if_false]
  by_cases hgt : needle.length > hay.length
  · simp only [hgt, if_true]
    refine ⟨SV_NPOS, rfl, Or.inl ⟨rfl, fun k hocc => ?_⟩⟩
    have := hocc.1
    omega
  · simp only [hgt, if_false]
    rw [size_sub_eq (by omega) hmax, size_add_eq (by omega)]
    obtain ⟨r, hr, hspec⟩ := rfind_substr_loop_spec mem hay needle hn
      (hay.length - needle.length) (by omega)
      (hay.length + 1) (hay.length - needle.length + 1) (by omega) (by omega)
      (fun k h1 h2 => absurd h1 (by omega))
    refine ⟨r, hr, ?_⟩
    rcases hspec with ⟨hnp, hnone⟩ | ⟨_, hocc, hmaxr⟩
    · refine Or.inl ⟨hnp, fun k hocc => hnone k ?_ hocc⟩
      have := hocc.1
      omega
    · refine Or.inr ⟨occursAt_lt_npos hn hmax hocc, hocc, fun k hk hocck => ?_⟩
      have := hocck.1
      exact hmaxr k hk (by omega) hocck

/-- Outcome of `sv_find_substr_from` on a non-empty needle, with
`p = min pos hay.length`: either `SV_NPOS` with no occurrence from `p` on, or
an occurrence index `>= p` with no occurrence between `p` and it; a needle
longer than `hay.length - p` gives `SV_NPOS`. -/
theorem sv_find_substr_from_spec (mem : Memory) (hay : StringView) (pos : Nat)
    (needle : StringView) (hmax : hay.length ≤ SIZE_MAX) (hn : needle.length ≠ 0) :
    ∃ r, sv_find_substr_from mem hay pos needle = some r ∧
      ((r = SV_NPOS ∧ ∀ k, min pos hay.length ≤ k → ¬ occursAt mem hay needle k) ∨
       (r ≠ SV_NPOS ∧ min pos hay.length ≤ r ∧ occursAt mem hay needle r ∧
          ∀ k, min pos hay.length ≤ k → k < r → ¬ occursAt mem hay needle k)) ∧
      (needle.length > hay.length - min pos hay.length → r = SV_NPOS) := by
  have hclamp : (if pos > hay.length then hay.length else pos) = min pos hay.length := by
    split <;> omega
  unfold sv_find_substr_from
  simp only [hclamp, hn, if_false]
  generalize hp : min pos hay.length = p
  have hple : p ≤ hay.length := by omega
  rw [size_sub_eq hple hmax]
  by_cases hgt : needle.length > hay.length - p
  · simp only [hgt, if_true]
    refine ⟨SV_NPOS, rfl, Or.inl ⟨rfl, fun k hk hocc => ?_⟩, fun _ => rfl⟩
    have := hocc.1
    omega
  · simp only [hgt, if_false]
    rw [size_sub_eq (by omega) hmax]
    obtain ⟨r, hr, hspec⟩ := find_substr_loop_spec mem hay needle hn (by omega) hmax p
      (hay.length + 1) p (by omega) (by omega) (by omega)
      (fun k h1 h2 => absurd h2 (by omega))
    refine ⟨r, hr, ?_, fun h => h.elim⟩
    rcases hspec with ⟨hnp, hnone⟩ | ⟨hpr, hocc, hmin⟩
    · exact Or.inl ⟨hnp, hnone⟩
    · exact Or.inr ⟨occursAt_lt_npos hn hmax hocc, hpr, hocc, hmin⟩

/-- Characterisation of `sv_rfind_substr_from` on a valid haystack and a
non-empty needle, in terms of the window edge
`min (min pos hay.length) (hay.length - needle.length)`. -/
theorem sv_rfind_substr_from_spec (mem : Memory) (hay : StringView) (pos : Nat)
    (needle : StringView) (hv : hay.valid) (hn : needle.length ≠ 0) :
    ∃ r, sv_rfind_substr_from mem hay pos needle = some r ∧
      ((needle.length > hay.length ∨ min pos hay.length + 1 < needle.length) → r = SV_NPOS) ∧
      (¬ (needle.length > hay.length ∨ min pos hay.length + 1 < needle.length) →
        ((r = SV_NPOS ∧ ∀ k, k ≤ min (min pos hay.length) (hay.length - needle.length) →
            ¬ occursAt mem hay needle k) ∨
         (r ≤ min (min pos hay.length) (hay.length - needle.length) ∧
            occursAt mem hay needle r ∧
            ∀ k, r < k → k ≤ min (min pos hay.length) (hay.length - needle.length) →
              ¬ occursAt mem hay needle k))) := by
  have hlt := hv.length_lt
  have hclamp : (if pos > hay.length then hay.length else pos) = min pos hay.length := by
    split <;> omega
  unfold sv_rfind_substr_from
  simp only [hclamp, hn, if_false]
  generalize hp : min pos hay.length = p
  have hple : p ≤ hay.length := by omega
  rw [size_add_eq (show p + 1 ≤ SIZE_MAX by omega)]
  by_cases hgt : needle.length > hay.length
  · simp only [hgt, if_true]
    exact ⟨SV_NPOS, rfl, fun _ => rfl, fun h => absurd (Or.inl trivial) h⟩
  · simp only [hgt, if_false]
    by_cases hclose : p + 1 < needle.length
    · simp only [hclose, if_true]
      exact ⟨SV_NPOS, rfl, fun _ => rfl, fun h => absurd (Or.inr trivial) h⟩
    · simp only [hclose, if_false]
      rw [size_sub_eq (by omega) (by omega)]
      have hclamp2 : (if p > hay.length - needle.length then hay.length - needle.length
          else p) = min p (hay.length - needle.length) := by
        split <;> omega
      simp only [hclamp2]
      generalize hq : min p (hay.length - needle.length) = q
      rw [size_add_eq (show q + 1 ≤ SIZE_MAX by omega)]
      obtain ⟨r, hr, hspec⟩ := rfind_substr_loop_spec mem hay needle hn
        q (by omega) (hay.length + 1) (q + 1) (by omega) (by omega)
        (fun k h1 h2 => absurd h1 (by omega))
      exact ⟨r, hr, fun h => by simp at h, fun _ => hspec⟩

/-! ## Substring search: forward and backward -/

/-- C1: for a haystack whose length is a `size_t` value and a non-empty needle,
`sv_find_substr` returns a value `r`; `r` is `SV_NPOS` exactly when the needle
occurs at no index, and otherwise `r` is the smallest index at which the
needle occurs in the haystack. -/
theorem sv_find_substr_lowest (mem : Memory) (hay needle : StringView)
    (hmax : hay.length ≤ SIZE_MAX) (hn : needle.length ≠ 0) :
    ∃ r, sv_find_substr mem hay needle = some r ∧
      (r = SV_NPOS ↔ ∀ i, ¬ occursAt mem hay needle i) ∧
      (r ≠ SV_NPOS → occursAt mem hay needle r ∧
        ∀ i, occursAt mem hay needle i → r ≤ i) := by
  obtain ⟨r, hr, hspec⟩ := sv_find_substr_spec mem hay needle hmax hn
  refine ⟨r, hr, ?_, ?_⟩
  · rcases hspec with ⟨hnp, hnone⟩ | ⟨hne, hocc, _⟩
    · exact ⟨fun _ => hnone, fun _ => hnp⟩
    · exact ⟨fun h => absurd h hne, fun h => absurd hocc (h r)⟩
  · intro hne
    rcases hspec with ⟨hnp, _⟩ | ⟨_, hocc, hmin⟩
    · exact absurd hnp hne
    · refine ⟨hocc, fun i hi => ?_⟩
      by_contra hlt
      exact hmin i (by omega) hi

/-- Witness for C1 at `"ana"` in `"banana"`. -/
theorem sv_find_substr_lowest_witness :
    (6 ≤ SIZE_MAX ∧ 3 ≠ 0) ∧
    ∃ r, sv_find_substr bananaMem ⟨1, 6⟩ ⟨8, 3⟩ = some r ∧
      (r = SV_NPOS ↔ ∀ i, ¬ occursAt bananaMem ⟨1, 6⟩ ⟨8, 3⟩ i) ∧
      (r ≠ SV_NPOS → occursAt bananaMem ⟨1, 6⟩ ⟨8, 3⟩ r ∧
        ∀ i, occursAt bananaMem ⟨1, 6⟩ ⟨8, 3⟩ i → r ≤ i) :=
  ⟨by decide, sv_find_substr_lowest bananaMem ⟨1, 6⟩ ⟨8, 3⟩ (by decide) (by decide)⟩

/-- C2: for a haystack whose length is a `size_t` value and a non-empty needle,
`sv_rfind_substr` returns a value `r`; `r` is `SV_NPOS` exactly when the
needle occurs at no index, and otherwise `r` is the greatest index at which
the needle occurs in the haystack; overlapping occurrences count, and the
search for `"aaa"` in `"aaaaa"` gives 2. -/
theorem sv_rfind_substr_highest (mem : Memory) (hay needle : StringView)
    (hmax : hay.length ≤ SIZE_MAX) (hn : needle.length ≠ 0) :
    ∃ r, sv_rfind_substr mem hay needle = some r ∧
      (r = SV_NPOS ↔ ∀ i, ¬ occursAt mem hay needle i) ∧
      (r ≠ SV_NPOS → occursAt mem hay needle r ∧
        ∀ i, occursAt mem hay needle i → i ≤ r) ∧
      sv_rfind_substr aaaaaMem ⟨1, 5⟩ ⟨7, 3⟩ = some 2 := by
  obtain ⟨r, hr, hspec⟩ := sv_rfind_substr_spec mem hay needle hmax hn
  refine ⟨r, hr, ?_, ?_, by decide⟩
  · rcases hspec with ⟨hnp, hnone⟩ | ⟨hne, hocc, _⟩
    · exact ⟨fun _ => hnone, fun _ => hnp⟩
    · exact ⟨fun h => absurd h hne, fun h => absurd hocc (h r)⟩
  · intro hne
    rcases hspec with ⟨hnp, _⟩ | ⟨_, hocc, hmaxr⟩
    · exact absurd hnp hne
    · refine ⟨hocc, fun i hi => ?_⟩
      by_contra hlt
      exact hmaxr i (by omega) hi

/-- Witness for C2 at `"aaa"` in `"aaaaa"`. -/
theorem sv_rfind_substr_highest_witness :
    (5 ≤ SIZE_MAX ∧ 3 ≠ 0) ∧
    ∃ r, sv_rfind_substr aaaaaMem ⟨1, 5⟩ ⟨7, 3⟩ = some r ∧
      (r = SV_NPOS ↔ ∀ i, ¬ occursAt aaaaaMem ⟨1, 5⟩ ⟨7, 3⟩ i) ∧
      (r ≠ SV_NPOS → occursAt aaaaaMem ⟨1, 5⟩ ⟨7, 3⟩ r ∧
        ∀ i, occursAt aaaaaMem ⟨1, 5⟩ ⟨7, 3⟩ i → i ≤ r) ∧
      sv_rfind_substr aaaaaMem ⟨1, 5⟩ ⟨7, 3⟩ = some 2 :=
  ⟨by decide, sv_rfind_substr_highest aaaaaMem ⟨1, 5⟩ ⟨7, 3⟩ (by decide) (by decide)⟩

/-- C3: for a haystack whose length is a `size_t` value, any position `pos`
and a non-empty needle, with `p = min pos hay.length`: `sv_find_substr_from`
returns a value `r`; `r` is `SV_NPOS` exactly when the needle occurs at no
index `i >= p`, otherwise `r` is the smallest such index; and `r` is
`SV_NPOS` whenever `needle.length > hay.length - p`. -/
theorem sv_find_substr_from_lowest (mem : Memory) (hay : StringView) (pos : Nat)
    (needle : StringView) (hmax : hay.length ≤ SIZE_MAX) (hn : needle.length ≠ 0) :
    ∃ r, sv_find_substr_from mem hay pos needle = some r ∧
      (r = SV_NPOS ↔ ∀ i, min pos hay.length ≤ i → ¬ occursAt mem hay needle i) ∧
      (r ≠ SV_NPOS → min pos hay.length ≤ r ∧ occursAt mem hay needle r ∧
        ∀ i, min pos hay.length ≤ i → occursAt mem hay needle i → r ≤ i) ∧
      (needle.length > hay.length - min pos hay.length → r = SV_NPOS) := by
  obtain ⟨r, hr, hspec, hlong⟩ := sv_find_substr_from_spec mem hay pos needle hmax hn
  refine ⟨r, hr, ?_, ?_, hlong⟩
  · rcases hspec with ⟨hnp, hnone⟩ | ⟨hne, hpr, hocc, _⟩
    · exact ⟨fun _ => hnone, fun _ => hnp⟩
    · exact ⟨fun h => absurd h hne, fun h => absurd hocc (h r hpr)⟩
  · intro hne
    rcases hspec with ⟨hnp, _⟩ | ⟨_, hpr, hocc, hmin⟩
    · exact absurd hnp hne
    · refine ⟨hpr, hocc, fun i hpi hi => ?_⟩
      by_contra hlt
      exact hmin i hpi (by omega) hi

/-- Witness for C3 at `"ana"` in `"banana"` from position 2. -/
theorem sv_find_substr_from_lowest_witness :
    (6 ≤ SIZE_MAX ∧ 3 ≠ 0) ∧
    ∃ r, sv_find_substr_from bananaMem ⟨1, 6⟩ 2 ⟨8, 3⟩ = some r ∧
      (r = SV_NPOS ↔ ∀ i, min 2 6 ≤ i → ¬ occursAt bananaMem ⟨1, 6⟩ ⟨8, 3⟩ i) ∧
      (r ≠ SV_NPOS → min 2 6 ≤ r ∧ occursAt bananaMem ⟨1, 6⟩ ⟨8, 3⟩ r ∧
        ∀ i, min 2 6 ≤ i → occursAt bananaMem ⟨1, 6⟩ ⟨8, 3⟩ i → r ≤ i) ∧
      (3 > 6 - min 2 6 → r = SV_NPOS) :=
  ⟨by decide, sv_find_substr_from_lowest bananaMem ⟨1, 6⟩ 2 ⟨8, 3⟩ (by decide) (by decide)⟩

/-! ## Reverse search from a position -/

/-- C4, as stated, fails: in `"Hello world"` the needle `"Hello"` occurs at
index `0 <= min 3 11`, yet `sv_rfind_substr_from` at position 3 returns
`SV_NPOS`, because `3 + 1 < 5`. -/
theorem sv_rfind_substr_from_rejects_near_start :
    (StringView.mk 1 11).valid ∧ (StringView.mk 13 5).length ≠ 0 ∧
    occursAt helloMem ⟨1, 11⟩ ⟨13, 5⟩ 0 ∧ 0 ≤ min 3 (StringView.mk 1 11).length ∧
    sv_rfind_substr_from helloMem ⟨1, 11⟩ 3 ⟨13, 5⟩ = some SV_NPOS := by
  decide

/-- C4 (amended): for a valid haystack, any position `pos` and a non-empty
needle, with `p = min pos hay.length`: `sv_rfind_substr_from` returns a value
`r`.  When `p + 1 >= needle.length`, `r` is `SV_NPOS` exactly when the needle
has no occurrence starting at an index `<= p`, and otherwise `r` is the
greatest index `<= p` at which the needle occurs.  When
`p + 1 < needle.length`, `r` is `SV_NPOS`. -/
theorem sv_rfind_substr_from_not_after (mem : Memory) (hay : StringView) (pos : Nat)
    (needle : StringView) (hv : hay.valid) (hn : needle.length ≠ 0) :
    ∃ r, sv_rfind_substr_from mem hay pos needle = some r ∧
      (needle.length ≤ min pos hay.length + 1 →
        (r = SV_NPOS ↔ ∀ i, i ≤ min pos hay.length → ¬ occursAt mem hay needle i) ∧
        (r ≠ SV_NPOS → r ≤ min pos hay.length ∧ occursAt mem hay needle r ∧
          ∀ i, i ≤ min pos hay.length → occursAt mem hay needle i → i ≤ r)) ∧
      (min pos hay.length + 1 < needle.length → r = SV_NPOS) := by
  have hmax : hay.length ≤ SIZE_MAX := Nat.le_of_lt hv.length_lt
  obtain ⟨r, hr, hrej, hfind⟩ := sv_rfind_substr_from_spec mem hay pos needle hv hn
  refine ⟨r, hr, ?_, fun h => hrej (Or.inr h)⟩
  intro hfit
  by_cases hgt : needle.length > hay.length
  · have hnp := hrej (Or.inl hgt)
    refine ⟨⟨fun _ i _ hocc => ?_, fun _ => hnp⟩, fun h => absurd hnp h⟩
    have := hocc.1
    omega
  · have hcase := hfind (by omega)
    constructor
    · rcases hcase with ⟨hnp, hnone⟩ | ⟨_, hocc, _⟩
      · refine ⟨fun _ i hi hocc => hnone i ?_ hocc, fun _ => hnp⟩
        have := hocc.1
        omega
      · exact ⟨fun h => absurd h (occursAt_lt_npos hn hmax hocc),
          fun h => absurd hocc (h r (by omega))⟩
    · intro hne
      rcases hcase with ⟨hnp, _⟩ | ⟨hle, hocc, hmaxr⟩
      · exact absurd hnp hne
      · refine ⟨by omega, hocc, fun i hi hocci => ?_⟩
        by_contra hlt
        have := hocci.1
        exact hmaxr i (by omega) (by omega) hocci

/-- Witness for the amended C4 at `"ana"` in `"banana"` from position 2. -/
theorem sv_rfind_substr_from_not_after_witness :
    ((StringView.mk 1 6).valid ∧ 3 ≠ 0) ∧
    ∃ r, sv_rfind_substr_from bananaMem ⟨1, 6⟩ 2 ⟨8, 3⟩ = some r ∧
      (3 ≤ min 2 6 + 1 →
        (r = SV_NPOS ↔ ∀ i, i ≤ min 2 6 → ¬ occursAt bananaMem ⟨1, 6⟩ ⟨8, 3⟩ i) ∧
        (r ≠ SV_NPOS → r ≤ min 2 6 ∧ occursAt bananaMem ⟨1, 6⟩ ⟨8, 3⟩ r ∧
          ∀ i, i ≤ min 2 6 → occursAt bananaMem ⟨1, 6⟩ ⟨8, 3⟩ i → i ≤ r)) ∧
      (min 2 6 + 1 < 3 → r = SV_NPOS) :=
  ⟨by decide, sv_rfind_substr_from_not_after bananaMem ⟨1, 6⟩ 2 ⟨8, 3⟩ (by decide) (by decide)⟩

/-- C5: for a valid haystack, any position `pos` and a non-empty needle, with
`p = min pos hay.length`: `sv_rfind_substr_from` returns a value `r`; `r` is
`SV_NPOS` when `needle.length > hay.length` or `p + 1 < needle.length`;
otherwise `r` is `SV_NPOS` exactly when the needle occurs at no index
`<= min p (hay.length - needle.length)`, and else `r` is the greatest such
index.  So the search for `"ana"` in `"banana"` from 2 gives 1, and the search
for `"Hello"` in `"Hello world"` from 3 gives `SV_NPOS`. -/
theorem sv_rfind_substr_from_window (mem : Memory) (hay : StringView) (pos : Nat)
    (needle : StringView) (hv : hay.valid) (hn : needle.length ≠ 0) :
    ∃ r, sv_rfind_substr_from mem hay pos needle = some r ∧
      ((needle.length > hay.length ∨ min pos hay.length + 1 < needle.length) → r = SV_NPOS) ∧
      (¬ (needle.length > hay.length ∨ min pos hay.length + 1 < needle.length) →
        (r = SV_NPOS ↔ ∀ i, i ≤ min (min pos hay.length) (hay.length - needle.length) →
          ¬ occursAt mem hay needle i) ∧
        (r ≠ SV_NPOS → r ≤ min (min pos hay.length) (hay.length - needle.length) ∧
          occursAt mem hay needle r ∧
          ∀ i, i ≤ min (min pos hay.length) (hay.length - needle.length) →
            occursAt mem hay needle i → i ≤ r)) ∧
      sv_rfind_substr_from bananaMem ⟨1, 6⟩ 2 ⟨8, 3⟩ = some 1 ∧
      sv_rfind_substr_from helloMem ⟨1, 11⟩ 3 ⟨13, 5⟩ = some SV_NPOS := by
  have hmax : hay.length ≤ SIZE_MAX := Nat.le_of_lt hv.length_lt
  obtain ⟨r, hr, hrej, hfind⟩ := sv_rfind_substr_from_spec mem hay pos needle hv hn
  refine ⟨r, hr, hrej, fun hfit => ?_, by decide, by decide⟩
  have hcase := hfind hfit
  constructor
  · rcases hcase with ⟨hnp, hnone⟩ | ⟨hle, hocc, _⟩
    · exact ⟨fun _ => hnone, fun _ => hnp⟩
    · exact ⟨fun h => absurd h (occursAt_lt_npos hn hmax hocc),
        fun h => absurd hocc (h r hle)⟩
  · intro hne
    rcases hcase with ⟨hnp, _⟩ | ⟨hle, hocc, hmaxr⟩
    · exact absurd hnp hne
    · refine ⟨hle, hocc, fun i hi hocci => ?_⟩
      by_contra hlt
      exact hmaxr i (by omega) hi hocci

/-- Witness for C5 at `"Hello"` in `"Hello world"` from position 3, where the
position is too close to the start. -/
theorem sv_rfind_substr_from_window_witness :
    ((StringView.mk 1 11).valid ∧ 5 ≠ 0) ∧
    ∃ r, sv_rfind_substr_from helloMem ⟨1, 11⟩ 3 ⟨13, 5⟩ = some r ∧
      ((5 > 11 ∨ min 3 11 + 1 < 5) → r = SV_NPOS) ∧
      (¬ (5 > 11 ∨ min 3 11 + 1 < 5) →
        (r = SV_NPOS ↔ ∀ i, i ≤ min (min 3 11) (11 - 5) →
          ¬ occursAt helloMem ⟨1, 11⟩ ⟨13, 5⟩ i) ∧
        (r ≠ SV_NPOS → r ≤ min (min 3 11) (11 - 5) ∧
          occursAt helloMem ⟨1, 11⟩ ⟨13, 5⟩ r ∧
          ∀ i, i ≤ min (min 3 11) (11 - 5) →
            occursAt helloMem ⟨1, 11⟩ ⟨13, 5⟩ i → i ≤ r)) ∧
      sv_rfind_substr_from bananaMem ⟨1, 6⟩ 2 ⟨8, 3⟩ = some 1 ∧
      sv_rfind_substr_from helloMem ⟨1, 11⟩ 3 ⟨13, 5⟩ = some SV_NPOS :=
  ⟨by decide, sv_rfind_substr_from_window helloMem ⟨1, 11⟩ 3 ⟨13, 5⟩ (by decide) (by decide)⟩

/-! ## Empty needles -/

/-- C6: for every haystack (the empty view with a null pointer included) and
every needle of length 0, `sv_find_substr` returns 0 and `sv_rfind_substr`
returns `hay.length`. -/
theorem sv_find_rfind_substr_empty_needle (mem : Memory) (hay : StringView) (b : Nat) :
    sv_find_substr mem hay ⟨b, 0⟩ = some 0 ∧
    sv_rfind_substr mem hay ⟨b, 0⟩ = some hay.length ∧
    sv_find_substr mem sv_empty ⟨b, 0⟩ = some 0 ∧
    sv_rfind_substr mem sv_empty ⟨b, 0⟩ = some 0 := by
  simp [sv_find_substr, sv_rfind_substr, sv_empty]

/-- C7: for every haystack, every position `pos` and every needle of length 0,
`sv_find_substr_from` and `sv_rfind_substr_from` both return
`min pos hay.length`. -/
theorem sv_substr_from_empty_needle (mem : Memory) (hay : StringView) (pos b : Nat) :
    sv_find_substr_from mem hay pos ⟨b, 0⟩ = some (min pos hay.length) ∧
    sv_rfind_substr_from mem hay pos ⟨b, 0⟩ = some (min pos hay.length) := by
  have hclamp : (if pos > hay.length then hay.length else pos) = min pos hay.length := by
    split <;> omega
  simp [sv_find_substr_from, sv_rfind_substr_from, hclamp]

/-! ## Forward and backward search agree on a single occurrence -/

/-- C8: when the needle occurs in the haystack at exactly one index `i`,
`sv_find_substr` and `sv_rfind_substr` both return `i`. -/
theorem sv_find_rfind_substr_unique (mem : Memory) (hay needle : StringView) (i : Nat)
    (hmax : hay.length ≤ SIZE_MAX) (hocc : occursAt mem hay needle i)
    (huniq : ∀ k, occursAt mem hay needle k → k = i) :
    sv_find_substr mem hay needle = some i ∧ sv_rfind_substr mem hay needle = some i := by
  by_cases hn : needle.length = 0
  · have h0 : occursAt mem hay needle 0 := ⟨by omega, fun j hj => absurd hj (by omega)⟩
    have hl : occursAt mem hay needle hay.length :=
      ⟨by omega, fun j hj => absurd hj (by omega)⟩
    have e0 := huniq 0 h0
    have el := huniq _ hl
    simp only [sv_find_substr, sv_rfind_substr, hn, if_true]
    exact ⟨by rw [e0], by rw [el]⟩
  · obtain ⟨r, hr, hfwd⟩ := sv_find_substr_spec mem hay needle hmax hn
    obtain ⟨q, hq, hbwd⟩ := sv_rfind_substr_spec mem hay needle hmax hn
    have er : r = i := by
      rcases hfwd with ⟨_, hnone⟩ | ⟨_, hoccr, _⟩
      · exact absurd hocc (hnone i)
      · exact huniq r hoccr
    have eq : q = i := by
      rcases hbwd with ⟨_, hnone⟩ | ⟨_, hoccq, _⟩
      · exact absurd hocc (hnone i)
      · exact huniq q hoccq
    exact ⟨by rw [hr, er], by rw [hq, eq]⟩

/-- Witness for C8: `"Hello"` occurs in `"Hello world"` at index 0 only. -/
theorem sv_find_rfind_substr_unique_witness :
    (11 ≤ SIZE_MAX ∧ occursAt helloMem ⟨1, 11⟩ ⟨13, 5⟩ 0 ∧
      ∀ k, occursAt helloMem ⟨1, 11⟩ ⟨13, 5⟩ k → k = 0) ∧
    sv_find_substr helloMem ⟨1, 11⟩ ⟨13, 5⟩ = some 0 ∧
    sv_rfind_substr helloMem ⟨1, 11⟩ ⟨13, 5⟩ = some 0 :=
  have huniq : ∀ k, occursAt helloMem ⟨1, 11⟩ ⟨13, 5⟩ k → k = 0 := by
    intro k hk
    have hb : k + 5 ≤ 11 := hk.1
    have hk7 : k < 7 := by omega
    interval_cases k
    · rfl
    all_goals exact absurd hk (by decide)
  ⟨⟨by decide, by decide, huniq⟩,
    sv_find_rfind_substr_unique helloMem ⟨1, 11⟩ ⟨13, 5⟩ 0 (by decide) (by decide) huniq⟩

/-! ## Containment -/

/-- C9: `sv_find_substr` returns a value `r` and `sv_contains` a Boolean `b`
with `b = true` exactly when `r` is not `SV_NPOS`, which holds exactly when
the needle occurs at some index of the haystack; for a needle of length 0,
`b = true`. -/
theorem sv_contains_iff_occurs (mem : Memory) (hay needle : StringView)
    (hmax : hay.length ≤ SIZE_MAX) :
    ∃ r b, sv_find_substr mem hay needle = some r ∧
      sv_contains mem hay needle = some b ∧
      (b = true ↔ r ≠ SV_NPOS) ∧
      (r ≠ SV_NPOS ↔ ∃ i, occursAt mem hay needle i) ∧
      (needle.length = 0 → b = true) := by
  have key : ∃ r, sv_find_substr mem hay needle = some r ∧
      (r ≠ SV_NPOS ↔ ∃ i, occursAt mem hay needle i) ∧
      (needle.length = 0 → r ≠ SV_NPOS) := by
    by_cases hn : needle.length = 0
    · refine ⟨0, by simp [sv_find_substr, hn], ?_, fun _ => by decide⟩
      exact ⟨fun _ => ⟨0, by omega, fun j hj => absurd hj (by omega)⟩, fun _ => by decide⟩
    · obtain ⟨r, hr, hspec⟩ := sv_find_substr_spec mem hay needle hmax hn
      refine ⟨r, hr, ?_, fun h => absurd h hn⟩
      rcases hspec with ⟨hnp, hnone⟩ | ⟨hne, hoccr, _⟩
      · exact ⟨fun h => absurd hnp h, fun ⟨i, hi⟩ => absurd hi (hnone i)⟩
      · exact ⟨fun _ => ⟨r, hoccr⟩, fun _ => hne⟩
  obtain ⟨r, hr, hocc, hemp⟩ := key
  refine ⟨r, r != SV_NPOS, hr, by simp [sv_contains, hr], by simp, hocc, fun h => ?_⟩
  simpa using hemp h

/-- Witness for C9 at `"ana"` in `"banana"`. -/
theorem sv_contains_iff_occurs_witness :
    6 ≤ SIZE_MAX ∧
    ∃ r b, sv_find_substr bananaMem ⟨1, 6⟩ ⟨8, 3⟩ = some r ∧
      sv_contains bananaMem ⟨1, 6⟩ ⟨8, 3⟩ = some b ∧
      (b = true ↔ r ≠ SV_NPOS) ∧
      (r ≠ SV_NPOS ↔ ∃ i, occursAt bananaMem ⟨1, 6⟩ ⟨8, 3⟩ i) ∧
      ((StringView.mk 8 3).length = 0 → b = true) :=
  ⟨by decide, sv_contains_iff_occurs bananaMem ⟨1, 6⟩ ⟨8, 3⟩ (by decide)⟩

/-! ## Character search -/

/-- C10: for a view whose length is a `size_t` value and a byte `c`, the value
`r` of `sv_find_char` is `SV_NPOS` exactly when the view is empty or `c` does
not occur in it, and otherwise `r` is the smallest index `i < sv.length` with
`sv[i] = c`. -/
theorem sv_find_char_first (mem : Memory) (sv : StringView) (c : Byte)
    (hmax : sv.length ≤ SIZE_MAX) :
    (sv_find_char mem sv c = SV_NPOS ↔
      sv.length = 0 ∨ ∀ i, i < sv.length → sv_at mem sv i ≠ c) ∧
    (sv_find_char mem sv c ≠ SV_NPOS →
      sv_find_char mem sv c < sv.length ∧ sv_at mem sv (sv_find_char mem sv c) = c ∧
      ∀ i, i < sv_find_char mem sv c → sv_at mem sv i ≠ c) := by
  unfold sv_find_char sv_at
  by_cases h0 : sv.length = 0
  · simp [h0]
  · simp only [h0, if_false, false_or]
    cases hm : memchr mem sv.begin c sv.length with
    | none =>
      simp only [ne_eq, not_true_eq_false, false_implies, and_true, true_iff]
      exact memchr_eq_none.mp hm
    | some p =>
      obtain ⟨k, hk, hp, hc, hmin⟩ := memchr_eq_some hm
      have hoff : p - sv.begin = k := by omega
      simp only [hoff]
      have hne : k ≠ SV_NPOS := by unfold SV_NPOS; omega
      refine ⟨⟨fun h => absurd h hne, fun h => absurd hc (h k hk)⟩, fun _ => ⟨hk, hc, hmin⟩⟩

/-- Witness for C10 at `'l'` in `"Hello world"`. -/
theorem sv_find_char_first_witness :
    11 ≤ SIZE_MAX ∧
    ((sv_find_char helloMem ⟨1, 11⟩ 108 = SV_NPOS ↔
      (StringView.mk 1 11).length = 0 ∨
        ∀ i, i < (StringView.mk 1 11).length → sv_at helloMem ⟨1, 11⟩ i ≠ 108) ∧
    (sv_find_char helloMem ⟨1, 11⟩ 108 ≠ SV_NPOS →
      sv_find_char helloMem ⟨1, 11⟩ 108 < (StringView.mk 1 11).length ∧
      sv_at helloMem ⟨1, 11⟩ (sv_find_char helloMem ⟨1, 11⟩ 108) = 108 ∧
      ∀ i, i < sv_find_char helloMem ⟨1, 11⟩ 108 → sv_at helloMem ⟨1, 11⟩ i ≠ 108)) :=
  ⟨by decide, sv_find_char_first helloMem ⟨1, 11⟩ 108 (by decide)⟩

/-- C11: for a view whose length is a `size_t` value and a byte `c`, the value
`r` of `sv_rfind_char` is `SV_NPOS` exactly when the view is empty or `c` does
not occur in it, and otherwise `r` is the greatest index `i < sv.length` with
`sv[i] = c`. -/
theorem sv_rfind_char_last (mem : Memory) (sv : StringView) (c : Byte)
    (hmax : sv.length ≤ SIZE_MAX) :
    (sv_rfind_char mem sv c = SV_NPOS ↔
      sv.length = 0 ∨ ∀ i, i < sv.length → sv_at mem sv i ≠ c) ∧
    (sv_rfind_char mem sv c ≠ SV_NPOS →
      sv_rfind_char mem sv c < sv.length ∧ sv_at mem sv (sv_rfind_char mem sv c) = c ∧
      ∀ i, sv_rfind_char mem sv c < i → i < sv.length → sv_at mem sv i ≠ c) := by
  unfold sv_rfind_char sv_at
  by_cases h0 : sv.length = 0
  · simp [h0]
  · simp only [h0, if_false, false_or]
    cases hm : sv_memrchr_ mem sv.begin c sv.length with
    | none =>
      simp only [ne_eq, not_true_eq_false, false_implies, and_true, true_iff]
      exact sv_memrchr_eq_none.mp hm
    | some p =>
      obtain ⟨k, hk, hp, hc, hlast⟩ := sv_memrchr_eq_some hm
      have hoff : p - sv.begin = k := by omega
      simp only [hoff]
      have hne : k ≠ SV_NPOS := by unfold SV_NPOS; omega
      refine ⟨⟨fun h => absurd h hne, fun h => absurd hc (h k hk)⟩, fun _ => ⟨hk, hc, hlast⟩⟩

/-- Witness for C11 at `'l'` in `"Hello world"`. -/
theorem sv_rfind_char_last_witness :
    11 ≤ SIZE_MAX ∧
    ((sv_rfind_char helloMem ⟨1, 11⟩ 108 = SV_NPOS ↔
      (StringView.mk 1 11).length = 0 ∨
        ∀ i, i < (StringView.mk 1 11).length → sv_at helloMem ⟨1, 11⟩ i ≠ 108) ∧
    (sv_rfind_char helloMem ⟨1, 11⟩ 108 ≠ SV_NPOS →
      sv_rfind_char helloMem ⟨1, 11⟩ 108 < (StringView.mk 1 11).length ∧
      sv_at helloMem ⟨1, 11⟩ (sv_rfind_char helloMem ⟨1, 11⟩ 108) = 108 ∧
      ∀ i, sv_rfind_char helloMem ⟨1, 11⟩ 108 < i → i < (StringView.mk 1 11).length →
        sv_at helloMem ⟨1, 11⟩ i ≠ 108)) :=
  ⟨by decide, sv_rfind_char_last helloMem ⟨1, 11⟩ 108 (by decide)⟩

/-- C12: for a view whose length is a `size_t` value, any position `pos` and a
byte `c`, the value `r` of `sv_find_char_from` is `SV_NPOS` exactly when no
index `i` with `min pos sv.length <= i < sv.length` has `sv[i] = c`, and
otherwise `r` is the smallest such index; hence `r` is `SV_NPOS` whenever
`pos >= sv.length`. -/
theorem sv_find_char_from_first (mem : Memory) (sv : StringView) (pos : Nat) (c : Byte)
    (hmax : sv.length ≤ SIZE_MAX) :
    (sv_find_char_from mem sv pos c = SV_NPOS ↔
      ∀ i, min pos sv.length ≤ i → i < sv.length → sv_at mem sv i ≠ c) ∧
    (sv_find_char_from mem sv pos c ≠ SV_NPOS →
      min pos sv.length ≤ sv_find_char_from mem sv pos c ∧
      sv_find_char_from mem sv pos c < sv.length ∧
      sv_at mem sv (sv_find_char_from mem sv pos c) = c ∧
      ∀ i, min pos sv.length ≤ i → i < sv_find_char_from mem sv pos c →
        sv_at mem sv i ≠ c) ∧
    (pos ≥ sv.length → sv_find_char_from mem sv pos c = SV_NPOS) := by
  have hclamp : (if pos > sv.length then sv.length else pos) = min pos sv.length := by
    split <;> omega
  unfold sv_find_char_from sv_at
  by_cases h0 : sv.length = 0
  · simp only [h0, if_true, ne_eq, not_true_eq_false, false_implies, true_and, true_iff,
      implies_true, and_true]
    intro i _ hi
    omega
  · simp only [h0, if_false, hclamp]
    generalize hq : min pos sv.length = q
    have hqle : q ≤ sv.length := by omega
    rw [size_sub_eq hqle hmax]
    cases hm : memchr mem (sv.begin + q) c (sv.length - q) with
    | none =>
      have hnone := memchr_eq_none.mp hm
      simp only [ne_eq, not_true_eq_false, false_implies, true_and, true_iff, implies_true,
        and_true]
      intro i hqi hi
      have := hnone (i - q) (by omega)
      rwa [show sv.begin + q + (i - q) = sv.begin + i by omega] at this
    | some p =>
      obtain ⟨k, hk, hp, hc, hmin⟩ := memchr_eq_some hm
      have hoff : p - sv.begin = q + k := by omega
      simp only [hoff]
      have hne : q + k ≠ SV_NPOS := by unfold SV_NPOS; omega
      have hc2 : mem (sv.begin + (q + k)) = c := by
        rwa [show sv.begin + (q + k) = sv.begin + q + k by omega]
      refine ⟨⟨fun h => absurd h hne, fun h => absurd hc2 (h (q + k) (by omega) (by omega))⟩,
        fun _ => ⟨by omega, by omega, hc2, fun i hqi hi => ?_⟩, fun hge => ?_⟩
      · have := hmin (i - q) (by omega)
        rwa [show sv.begin + q + (i - q) = sv.begin + i by omega] at this
      · omega

/-- Witness for C12 at `'l'` in `"Hello world"` from position 3. -/
theorem sv_find_char_from_first_witness :
    11 ≤ SIZE_MAX ∧
    ((sv_find_char_from helloMem ⟨1, 11⟩ 3 108 = SV_NPOS ↔
      ∀ i, min 3 (StringView.mk 1 11).length ≤ i → i < (StringView.mk 1 11).length →
        sv_at helloMem ⟨1, 11⟩ i ≠ 108) ∧
    (sv_find_char_from helloMem ⟨1, 11⟩ 3 108 ≠ SV_NPOS →
      min 3 (StringView.mk 1 11).length ≤ sv_find_char_from helloMem ⟨1, 11⟩ 3 108 ∧
      sv_find_char_from helloMem ⟨1, 11⟩ 3 108 < (StringView.mk 1 11).length ∧
      sv_at helloMem ⟨1, 11⟩ (sv_find_char_from helloMem ⟨1, 11⟩ 3 108) = 108 ∧
      ∀ i, min 3 (StringView.mk 1 11).length ≤ i →
        i < sv_find_char_from helloMem ⟨1, 11⟩ 3 108 → sv_at helloMem ⟨1, 11⟩ i ≠ 108) ∧
    (3 ≥ (StringView.mk 1 11).length → sv_find_char_from helloMem ⟨1, 11⟩ 3 108 = SV_NPOS)) :=
  ⟨by decide, sv_find_char_from_first helloMem ⟨1, 11⟩ 3 108 (by decide)⟩

/-- C13: for a view whose length is a `size_t` value, any position `pos` and a
byte `c`, the value `r` of `sv_rfind_char_from` is `SV_NPOS` when the view is
empty; otherwise `r` is `SV_NPOS` exactly when no index
`i <= min pos (sv.length - 1)` has `sv[i] = c`, and else `r` is the greatest
such index; hence for `pos >= sv.length - 1` it equals `sv_rfind_char`. -/
theorem sv_rfind_char_from_last (mem : Memory) (sv : StringView) (pos : Nat) (c : Byte)
    (hmax : sv.length ≤ SIZE_MAX) :
    (sv.length = 0 → sv_rfind_char_from mem sv pos c = SV_NPOS) ∧
    (sv.length ≠ 0 →
      (sv_rfind_char_from mem sv pos c = SV_NPOS ↔
        ∀ i, i ≤ min pos (sv.length - 1) → sv_at mem sv i ≠ c) ∧
      (sv_rfind_char_from mem sv pos c ≠ SV_NPOS →
        sv_rfind_char_from mem sv pos c ≤ min pos (sv.length - 1) ∧
        sv_at mem sv (sv_rfind_char_from mem sv pos c) = c ∧
        ∀ i, sv_rfind_char_from mem sv pos c < i → i ≤ min pos (sv.length - 1) →
          sv_at mem sv i ≠ c)) ∧
    (pos ≥ sv.length - 1 → sv_rfind_char_from mem sv pos c = sv_rfind_char mem sv c) := by
  unfold sv_rfind_char_from sv_rfind_char sv_at
  by_cases h0 : sv.length = 0
  · simp [h0]
  · have hclamp : (if pos ≥ sv.length then size_sub sv.length 1 else pos)
        = min pos (sv.length - 1) := by
      rw [size_sub_eq (by omega) hmax]
      split <;> omega
    simp only [h0, if_false, hclamp, false_implies, ne_eq, not_false_eq_true, true_implies,
      true_and]
    generalize hq : min pos (sv.length - 1) = q
    have hqlt : q < sv.length := by omega
    rw [size_add_eq (by omega)]
    constructor
    · cases hm : sv_memrchr_ mem sv.begin c (q + 1) with
      | none =>
        have hnone := sv_memrchr_eq_none.mp hm
        simp only [not_true_eq_false, false_implies, and_true, true_iff]
        intro i hi
        exact hnone i (by omega)
      | some p =>
        obtain ⟨k, hk, hp, hc, hlast⟩ := sv_memrchr_eq_some hm
        have hoff : p - sv.begin = k := by omega
        simp only [hoff]
        have hne : k ≠ SV_NPOS := by unfold SV_NPOS; omega
        exact ⟨⟨fun h => absurd h hne, fun h => absurd hc (h k (by omega))⟩,
          fun _ => ⟨by omega, hc, fun i h1 h2 => hlast i h1 (by omega)⟩⟩
    · intro hge
      have hqe : q + 1 = sv.length := by omega
      rw [hqe]

/-- Witness for C13 at `'o'` in `"Hello world"` from position 6. -/
theorem sv_rfind_char_from_last_witness :
    11 ≤ SIZE_MAX ∧
    (((StringView.mk 1 11).length = 0 → sv_rfind_char_from helloMem ⟨1, 11⟩ 6 111 = SV_NPOS) ∧
    ((StringView.mk 1 11).length ≠ 0 →
      (sv_rfind_char_from helloMem ⟨1, 11⟩ 6 111 = SV_NPOS ↔
        ∀ i, i ≤ min 6 ((StringView.mk 1 11).length - 1) → sv_at helloMem ⟨1, 11⟩ i ≠ 111) ∧
      (sv_rfind_char_from helloMem ⟨1, 11⟩ 6 111 ≠ SV_NPOS →
        sv_rfind_char_from helloMem ⟨1, 11⟩ 6 111 ≤ min 6 ((StringView.mk 1 11).length - 1) ∧
        sv_at helloMem ⟨1, 11⟩ (sv_rfind_char_from helloMem ⟨1, 11⟩ 6 111) = 111 ∧
        ∀ i, sv_rfind_char_from helloMem ⟨1, 11⟩ 6 111 < i →
          i ≤ min 6 ((StringView.mk 1 11).length - 1) → sv_at helloMem ⟨1, 11⟩ i ≠ 111)) ∧
    (6 ≥ (StringView.mk 1 11).length - 1 →
      sv_rfind_char_from helloMem ⟨1, 11⟩ 6 111 = sv_rfind_char helloMem ⟨1, 11⟩ 111)) :=
  ⟨by decide, sv_rfind_char_from_last helloMem ⟨1, 11⟩ 6 111 (by decide)⟩

/-! ## Splitting at a delimiter -/

theorem bytesAt_append (mem : Memory) (a b p : Nat) :
    bytesAt mem p (a + b) = bytesAt mem p a ++ bytesAt mem (p + a) b := by
  induction a generalizing p with
  | zero => simp [bytesAt]
  | succ a ih =>
    rw [show a + 1 + b = (a + b) + 1 by omega]
    simp only [bytesAt, List.cons_append, List.cons.injEq, true_and]
    rw [ih (p + 1), show p + 1 + a = p + (a + 1) by omega]

theorem mem_bytesAt {mem : Memory} {b : Byte} {n p : Nat} :
    b ∈ bytesAt mem p n ↔ ∃ k, k < n ∧ mem (p + k) = b := by
  induction n generalizing p with
  | zero => simp [bytesAt]
  | succ n ih =>
    simp only [bytesAt, List.mem_cons, ih]
    constructor
    · rintro (h | ⟨k, hk, h⟩)
      · exact ⟨0, by omega, by simpa using h.symm⟩
      · exact ⟨k + 1, by omega, by rwa [show p + (k + 1) = p + 1 + k by omega]⟩
    · rintro ⟨k, hk, h⟩
      rcases Nat.eq_zero_or_pos k with rfl | hpos
      · exact Or.inl (by simpa using h.symm)
      · exact Or.inr ⟨k - 1, by omega, by rwa [show p + 1 + (k - 1) = p + k by omega]⟩

/-- Cutting a view at index `i` and dropping the byte there: the two parts and
the byte between them give back the view. -/
theorem bytes_split_at (mem : Memory) (sv : StringView) (i : Nat) (hi : i < sv.length) :
    (sv_substr sv 0 i).bytes mem ++ [sv_at mem sv i] ++
      (sv_substr sv (i + 1) (sv.length - i - 1)).bytes mem = sv.bytes mem := by
  unfold StringView.bytes sv_substr sv_at
  simp only [Nat.add_zero]
  have e : sv.length = i + (1 + (sv.length - i - 1)) := by omega
  conv => rhs; rw [e]
  rw [bytesAt_append, bytesAt_append]
  simp [bytesAt, Nat.add_assoc]

/-- What the three split functions store once the delimiter is found at
index `i`. -/
theorem split_found_arith (sv : StringView) (i : Nat) (hi : i < sv.length)
    (hmax : sv.length ≤ SIZE_MAX) :
    sv_substr sv (size_add i 1) (size_sub (size_sub sv.length i) 1)
      = sv_substr sv (i + 1) (sv.length - i - 1) := by
  rw [size_add_eq (by omega), size_sub_eq (by omega) hmax, size_sub_eq (by omega) (by omega)]

/-- C14: for a view whose length is a `size_t` value, a delimiter `d` and
non-null output pointers: when `d` does not occur in the view (the empty view
included), `sv_split_first` stores the view itself and the empty view;
otherwise, with `i` the index of the first `d`, it stores `sv[0 .. i)` and
`sv[i+1 .. sv.length)`, these two parts with `d` between them are the bytes of
the view, and the first part holds no `d`.  So `""` splits into `""` and `""`
and `"foo,bar"` into `"foo"` and `"bar"`. -/
theorem sv_split_first_parts (mem : Memory) (sv : StringView) (d : Byte)
    (b0 a0 : StringView) (hmax : sv.length ≤ SIZE_MAX) :
    ((∀ i, i < sv.length → sv_at mem sv i ≠ d) →
      sv_split_first mem sv d (some b0) (some a0) = (some sv, some sv_empty)) ∧
    (∀ i, i < sv.length → sv_at mem sv i = d → (∀ j, j < i → sv_at mem sv j ≠ d) →
      sv_split_first mem sv d (some b0) (some a0)
        = (some (sv_substr sv 0 i), some (sv_substr sv (i + 1) (sv.length - i - 1))) ∧
      (sv_substr sv 0 i).bytes mem ++ [d] ++
        (sv_substr sv (i + 1) (sv.length - i - 1)).bytes mem = sv.bytes mem ∧
      d ∉ (sv_substr sv 0 i).bytes mem) ∧
    sv_split_first (strMem "") (strView "") 44 (some sv_empty) (some sv_empty)
      = (some (strView ""), some sv_empty) ∧
    sv_split_first (strMem "foo,bar") (strView "foo,bar") 44 (some sv_empty) (some sv_empty)
      = (some ⟨1, 3⟩, some ⟨5, 3⟩) ∧
    (StringView.mk 1 3).bytes (strMem "foo,bar") = cstr "foo" ∧
    (StringView.mk 5 3).bytes (strMem "foo,bar") = cstr "bar" := by
  refine ⟨?_, ?_, by decide, by decide, by decide, by decide⟩
  · intro hnone
    unfold sv_split_first
    by_cases h0 : sv.length = 0
    · simp [h0]
    · have hm : memchr mem sv.begin d sv.length = none := memchr_eq_none.mpr hnone
      simp [h0, hm]
  · intro i hi hd hfirst
    have h0 : sv.length ≠ 0 := by omega
    refine ⟨?_, ?_, ?_⟩
    · unfold sv_split_first
      simp only [h0, ne_eq, not_false_eq_true, if_true]
      cases hm : memchr mem sv.begin d sv.length with
      | none => exact absurd hd (memchr_eq_none.mp hm i hi)
      | some p =>
        obtain ⟨k, hk, hp, hc, hmin⟩ := memchr_eq_some hm
        have hki : k = i := by
          rcases Nat.lt_trichotomy k i with h | h | h
          · exact absurd hc (hfirst k h)
          · exact h
          · exact absurd hd (hmin i h)
        have hoff : p - sv.begin = i := by omega
        simp only [hoff, Option.map_some', split_found_arith sv i hi hmax]
    · have := bytes_split_at mem sv i hi
      rwa [hd] at this
    · unfold StringView.bytes sv_substr
      rw [mem_bytesAt]
      rintro ⟨k, hk, hkd⟩
      exact hfirst k hk (by simpa [sv_at] using hkd)

/-- Witness for C14 at `"foo,bar"` split at `','`. -/
theorem sv_split_first_parts_witness :
    (strView "foo,bar").length ≤ SIZE_MAX ∧
    (((∀ i, i < (strView "foo,bar").length →
        sv_at (strMem "foo,bar") (strView "foo,bar") i ≠ 44) →
      sv_split_first (strMem "foo,bar") (strView "foo,bar") 44 (some sv_empty) (some sv_empty)
        = (some (strView "foo,bar"), some sv_empty)) ∧
    (∀ i, i < (strView "foo,bar").length →
      sv_at (strMem "foo,bar") (strView "foo,bar") i = 44 →
      (∀ j, j < i → sv_at (strMem "foo,bar") (strView "foo,bar") j ≠ 44) →
      sv_split_first (strMem "foo,bar") (strView "foo,bar") 44 (some sv_empty) (some sv_empty)
        = (some (sv_substr (strView "foo,bar") 0 i),
           some (sv_substr (strView "foo,bar") (i + 1) ((strView "foo,bar").length - i - 1))) ∧
      (sv_substr (strView "foo,bar") 0 i).bytes (strMem "foo,bar") ++ [44] ++
        (sv_substr (strView "foo,bar") (i + 1)
          ((strView "foo,bar").length - i - 1)).bytes (strMem "foo,bar")
        = (strView "foo,bar").bytes (strMem "foo,bar") ∧
      44 ∉ (sv_substr (strView "foo,bar") 0 i).bytes (strMem "foo,bar")) ∧
    sv_split_first (strMem "") (strView "") 44 (some sv_empty) (some sv_empty)
      = (some (strView ""), some sv_empty) ∧
    sv_split_first (strMem "foo,bar") (strView "foo,bar") 44 (some sv_empty) (some sv_empty)
      = (some ⟨1, 3⟩, some ⟨5, 3⟩) ∧
    (StringView.mk 1 3).bytes (strMem "foo,bar") = cstr "foo" ∧
    (StringView.mk 5 3).bytes (strMem "foo,bar") = cstr "bar") :=
  ⟨by decide,
    sv_split_first_parts (strMem "foo,bar") (strView "foo,bar") 44 sv_empty sv_empty (by decide)⟩

/-- C15: for a view whose length is a `size_t` value, a delimiter `d` and
non-null output pointers: when `d` does not occur in the view, `sv_split_last`
stores the view itself and the empty view; otherwise, with `i` the index of
the last `d`, it stores `sv[0 .. i)` and `sv[i+1 .. sv.length)`, these two
parts with `d` between them are the bytes of the view, and the second part
holds no `d`.  So `"foo bar baz"` splits at the last `' '` into `"foo bar"`
and `"baz"`. -/
theorem sv_split_last_parts (mem : Memory) (sv : StringView) (d : Byte)
    (b0 a0 : StringView) (hmax : sv.length ≤ SIZE_MAX) :
    ((∀ i, i < sv.length → sv_at mem sv i ≠ d) →
      sv_split_last mem sv d (some b0) (some a0) = (some sv, some sv_empty)) ∧
    (∀ i, i < sv.length → sv_at mem sv i = d →
      (∀ j, i < j → j < sv.length → sv_at mem sv j ≠ d) →
      sv_split_last mem sv d (some b0) (some a0)
        = (some (sv_substr sv 0 i), some (sv_substr sv (i + 1) (sv.length - i - 1))) ∧
      (sv_substr sv 0 i).bytes mem ++ [d] ++
        (sv_substr sv (i + 1) (sv.length - i - 1)).bytes mem = sv.bytes mem ∧
      d ∉ (sv_substr sv (i + 1) (sv.length - i - 1)).bytes mem) ∧
    sv_split_last (strMem "foo bar baz") (strView "foo bar baz") 32
        (some sv_empty) (some sv_empty)
      = (some ⟨1, 7⟩, some ⟨9, 3⟩) ∧
    (StringView.mk 1 7).bytes (strMem "foo bar baz") = cstr "foo bar" ∧
    (StringView.mk 9 3).bytes (strMem "foo bar baz") = cstr "baz" := by
  refine ⟨?_, ?_, by decide, by decide, by decide⟩
  · intro hnone
    unfold sv_split_last
    by_cases h0 : sv.length = 0
    · simp [h0]
    · have hm : sv_memrchr_ mem sv.begin d sv.length = none := sv_memrchr_eq_none.mpr hnone
      simp [h0, hm]
  · intro i hi hd hlast
    have h0 : sv.length ≠ 0 := by omega
    refine ⟨?_, ?_, ?_⟩
    · unfold sv_split_last
      simp only [h0, ne_eq, not_false_eq_true, if_true]
      cases hm : sv_memrchr_ mem sv.begin d sv.length with
      | none => exact absurd hd (sv_memrchr_eq_none.mp hm i hi)
      | some p =>
        obtain ⟨k, hk, hp, hc, hmaxk⟩ := sv_memrchr_eq_some hm
        have hki : k = i := by
          rcases Nat.lt_trichotomy k i with h | h | h
          · exact absurd hd (hmaxk i h hi)
          · exact h
          · exact absurd hc (hlast k h hk)
        have hoff : p - sv.begin = i := by omega
        simp only [hoff, Option.map_some', split_found_arith sv i hi hmax]
    · have := bytes_split_at mem sv i hi
      rwa [hd] at this
    · unfold StringView.bytes sv_substr
      dsimp only
      rw [mem_bytesAt]
      rintro ⟨k, hk, hkd⟩
      refine hlast (i + 1 + k) (by omega) (by omega) ?_
      unfold sv_at
      rw [← hkd]
      congr 1
      omega

/-- Witness for C15 at `"foo bar baz"` split at `' '`. -/
theorem sv_split_last_parts_witness :
    (strView "foo bar baz").length ≤ SIZE_MAX ∧
    (((∀ i, i < (strView "foo bar baz").length →
        sv_at (strMem "foo bar baz") (strView "foo bar baz") i ≠ 32) →
      sv_split_last (strMem "foo bar baz") (strView "foo bar baz") 32
          (some sv_empty) (some sv_empty)
        = (some (strView "foo bar baz"), some sv_empty)) ∧
    (∀ i, i < (strView "foo bar baz").length →
      sv_at (strMem "foo bar baz") (strView "foo bar baz") i = 32 →
      (∀ j, i < j → j < (strView "foo bar baz").length →
        sv_at (strMem "foo bar baz") (strView "foo bar baz") j ≠ 32) →
      sv_split_last (strMem "foo bar baz") (strView "foo bar baz") 32
          (some sv_empty) (some sv_empty)
        = (some (sv_substr (strView "foo bar baz") 0 i),
           some (sv_substr (strView "foo bar baz") (i + 1)
             ((strView "foo bar baz").length - i - 1))) ∧
      (sv_substr (strView "foo bar baz") 0 i).bytes (strMem "foo bar baz") ++ [32] ++
        (sv_substr (strView "foo bar baz") (i + 1)
          ((strView "foo bar baz").length - i - 1)).bytes (strMem "foo bar baz")
        = (strView "foo bar baz").bytes (strMem "foo bar baz") ∧
      32 ∉ (sv_substr (strView "foo bar baz") (i + 1)
          ((strView "foo bar baz").length - i - 1)).bytes (strMem "foo bar baz")) ∧
    sv_split_last (strMem "foo bar baz") (strView "foo bar baz") 32
        (some sv_empty) (some sv_empty)
      = (some ⟨1, 7⟩, some ⟨9, 3⟩) ∧
    (StringView.mk 1 7).bytes (strMem "foo bar baz") = cstr "foo bar" ∧
    (StringView.mk 9 3).bytes (strMem "foo bar baz") = cstr "baz") :=
  ⟨by decide,
    sv_split_last_parts (strMem "foo bar baz") (strView "foo bar baz") 32 sv_empty sv_empty
      (by decide)⟩

/-- C16: for a view whose length is a `size_t` value, a delimiter `d`, any
position `pos` and non-null output pointers, with `p = min pos sv.length`:
when no index `>= p` of the view holds `d`, `sv_split_once_from` stores the
view itself and the empty view; otherwise, with `i` the smallest index `>= p`
holding `d`, it stores `sv[0 .. i)`, which keeps every byte before `p`, and
`sv[i+1 .. sv.length)`.  With `pos = 0` it does what `sv_split_first` does,
whatever the output pointers. -/
theorem sv_split_once_from_parts (mem : Memory) (sv : StringView) (d : Byte) (pos : Nat)
    (b0 a0 : StringView) (hmax : sv.length ≤ SIZE_MAX) :
    ((∀ i, min pos sv.length ≤ i → i < sv.length → sv_at mem sv i ≠ d) →
      sv_split_once_from mem sv d pos (some b0) (some a0) = (some sv, some sv_empty)) ∧
    (∀ i, min pos sv.length ≤ i → i < sv.length → sv_at mem sv i = d →
      (∀ j, min pos sv.length ≤ j → j < i → sv_at mem sv j ≠ d) →
      sv_split_once_from mem sv d pos (some b0) (some a0)
        = (some (sv_substr sv 0 i), some (sv_substr sv (i + 1) (sv.length - i - 1))) ∧
      (sv_substr sv 0 i).bytes mem ++ [d] ++
        (sv_substr sv (i + 1) (sv.length - i - 1)).bytes mem = sv.bytes mem) ∧
    (∀ ob oa, sv_split_once_from mem sv d 0 ob oa = sv_split_first mem sv d ob oa) := by
  have hclamp : (if pos > sv.length then sv.length else pos) = min pos sv.length := by
    split <;> omega
  refine ⟨?_, ?_, ?_⟩
  · intro hnone
    unfold sv_split_once_from
    by_cases h0 : sv.length = 0
    · simp [h0]
    · simp only [hclamp, h0, ne_eq, not_false_eq_true, if_true]
      rw [size_sub_eq (by omega) hmax]
      have hm : memchr mem (sv.begin + min pos sv.length) d
          (sv.length - min pos sv.length) = none := by
        rw [memchr_eq_none]
        intro k hk
        have := hnone (min pos sv.length + k) (by omega) (by omega)
        rwa [sv_at, ← Nat.add_assoc] at this
      simp [hm]
  · intro i hpi hi hd hfirst
    have h0 : sv.length ≠ 0 := by omega
    refine ⟨?_, ?_⟩
    · unfold sv_split_once_from
      simp only [hclamp, h0, ne_eq, not_false_eq_true, if_true]
      generalize hq : min pos sv.length = q at hpi hfirst
      have hqle : q ≤ sv.length := by omega
      rw [size_sub_eq hqle hmax]
      cases hm : memchr mem (sv.begin + q) d (sv.length - q) with
      | none =>
        have := memchr_eq_none.mp hm (i - q) (by omega)
        rw [show sv.begin + q + (i - q) = sv.begin + i by omega] at this
        exact absurd hd this
      | some p =>
        obtain ⟨k, hk, hp, hc, hmin⟩ := memchr_eq_some hm
        have hki : q + k = i := by
          rcases Nat.lt_trichotomy (q + k) i with h | h | h
          · refine absurd ?_ (hfirst (q + k) (by omega) h)
            rwa [sv_at, ← Nat.add_assoc]
          · exact h
          · have := hmin (i - q) (by omega)
            rw [show sv.begin + q + (i - q) = sv.begin + i by omega] at this
            exact absurd hd this
        have hoff : p - sv.begin = i := by omega
        simp only [hoff, Option.map_some', split_found_arith sv i hi hmax]
    · have := bytes_split_at mem sv i hi
      rwa [hd] at this
  · intro ob oa
    unfold sv_split_once_from sv_split_first
    simp only [show ¬ (0 > sv.length) by omega, if_false, Nat.add_zero]
    rw [size_sub_eq (by omega) hmax, Nat.sub_zero]

/-- Witness for C16 at `"foo bar baz"` split at `' '` from position 4. -/
theorem sv_split_once_from_parts_witness :
    (strView "foo bar baz").length ≤ SIZE_MAX ∧
    (((∀ i, min 4 (strView "foo bar baz").length ≤ i → i < (strView "foo bar baz").length →
        sv_at (strMem "foo bar baz") (strView "foo bar baz") i ≠ 32) →
      sv_split_once_from (strMem "foo bar baz") (strView "foo bar baz") 32 4
          (some sv_empty) (some sv_empty)
        = (some (strView "foo bar baz"), some sv_empty)) ∧
    (∀ i, min 4 (strView "foo bar baz").length ≤ i → i < (strView "foo bar baz").length →
      sv_at (strMem "foo bar baz") (strView "foo bar baz") i = 32 →
      (∀ j, min 4 (strView "foo bar baz").length ≤ j → j < i →
        sv_at (strMem "foo bar baz") (strView "foo bar baz") j ≠ 32) →
      sv_split_once_from (strMem "foo bar baz") (strView "foo bar baz") 32 4
          (some sv_empty) (some sv_empty)
        = (some (sv_substr (strView "foo bar baz") 0 i),
           some (sv_substr (strView "foo bar baz") (i + 1)
             ((strView "foo bar baz").length - i - 1))) ∧
      (sv_substr (strView "foo bar baz") 0 i).bytes (strMem "foo bar baz") ++ [32] ++
        (sv_substr (strView "foo bar baz") (i + 1)
          ((strView "foo bar baz").length - i - 1)).bytes (strMem "foo bar baz")
        = (strView "foo bar baz").bytes (strMem "foo bar baz")) ∧
    (∀ ob oa,
      sv_split_once_from (strMem "foo bar baz") (strView "foo bar baz") 32 0 ob oa
        = sv_split_first (strMem "foo bar baz") (strView "foo bar baz") 32 ob oa)) :=
  ⟨by decide,
    sv_split_once_from_parts (strMem "foo bar baz") (strView "foo bar baz") 32 4
      sv_empty sv_empty (by decide)⟩

/-! ## Strict integer parsing: the digit loop -/

theorem decimalFrom_cons (acc : Nat) (b : Byte) (ds : List Byte) :
    decimalFrom acc (b :: ds) = decimalFrom (acc * 10 + (b.val - 48)) ds := rfl

theorem decimalFrom_ge (acc : Nat) (ds : List Byte) : acc ≤ decimalFrom acc ds := by
  induction ds generalizing acc with
  | nil => exact Nat.le_refl _
  | cons b ds ih =>
    rw [decimalFrom_cons]
    have := ih (acc * 10 + (b.val - 48))
    omega

theorem u64_eq {n : Nat} (h : n ≤ UINT64_MAX) : u64 n = n := by
  unfold u64
  exact Nat.mod_eq_of_lt (by omega)

/-- The digit loop succeeds exactly on a run of digits whose value, appended
to `acc`, stays within `limit`; it then ends with that value. -/
theorem parse_digits_loop_eq_some (mem : Memory) (limit : Nat) (hlim : limit ≤ UINT64_MAX) :
    ∀ (n p acc : Nat) (got : Bool) (r : Nat × Bool), acc ≤ limit →
      (parse_digits_loop mem limit p acc got n = some r ↔
        (∀ b ∈ bytesAt mem p n, isDigitByte b) ∧
        decimalFrom acc (bytesAt mem p n) ≤ limit ∧
        r = (decimalFrom acc (bytesAt mem p n), got || decide (n ≠ 0))) := by
  intro n
  induction n with
  | zero =>
    intro p acc got r hacc
    simp only [parse_digits_loop, bytesAt, decimalFrom, List.foldl_nil, List.not_mem_nil,
      false_implies, implies_true, true_and, ne_eq, not_true_eq_false, decide_False,
      Bool.or_false, Option.some.injEq, hacc]
    exact eq_comm
  | succ n ih =>
    intro p acc got r hacc
    unfold parse_digits_loop
    simp only [bytesAt, decimalFrom_cons, List.mem_cons, forall_eq_or_imp]
    by_cases hdig : (mem p).val < 48 ∨ (mem p).val > 57
    · simp only [hdig, if_true]
      constructor
      · intro h; cases h
      · rintro ⟨⟨hd, _⟩, _⟩
        unfold isDigitByte at hd
        omega
    · simp only [hdig, if_false]
      have hd : isDigitByte (mem p) := by unfold isDigitByte; omega
      have hd9 : (mem p).val - 48 ≤ 9 := by unfold isDigitByte at hd; omega
      by_cases hov : acc > limit / 10 ∨ (acc = limit / 10 ∧ (mem p).val - 48 > limit % 10)
      · simp only [hov, if_true]
        constructor
        · intro h; cases h
        · rintro ⟨_, hle, _⟩
          have := decimalFrom_ge (acc * 10 + ((mem p).val - 48)) (bytesAt mem (p + 1) n)
          omega
      · simp only [hov, if_false]
        have hfit : acc * 10 + ((mem p).val - 48) ≤ limit := by omega
        rw [u64_eq (show acc * 10 ≤ UINT64_MAX by omega), u64_eq (by omega)]
        rw [ih (p + 1) _ true r hfit]
        simp [hd]

/-! ## Strict integer parsing: `sv_to_uint64` -/

/-- The digit part of `sv_to_uint64` accepts exactly the non-empty digit runs
whose value fits in 64 bits, and stores that value. -/
theorem sv_to_uint64_digits_spec (mem : Memory) (p n v0 : Nat) :
    sv_to_uint64_digits mem p n (some v0) =
      if bytesAt mem p n ≠ [] ∧ (∀ b ∈ bytesAt mem p n, isDigitByte b) ∧
          decimalValue (bytesAt mem p n) ≤ UINT64_MAX
      then (true, some (decimalValue (bytesAt mem p n))) else (false, some v0) := by
  have hspec := parse_digits_loop_eq_some mem UINT64_MAX (Nat.le_refl _) n p 0 false
  unfold sv_to_uint64_digits
  cases hl : parse_digits_loop mem UINT64_MAX p 0 false n with
  | none =>
    have hno : ¬ ((∀ b ∈ bytesAt mem p n, isDigitByte b) ∧
        decimalValue (bytesAt mem p n) ≤ UINT64_MAX) := by
      rintro ⟨h1, h2⟩
      have := (hspec _ (Nat.zero_le _)).mpr ⟨h1, h2, rfl⟩
      rw [hl] at this
      cases this
    have hcond : ¬ (bytesAt mem p n ≠ [] ∧ (∀ b ∈ bytesAt mem p n, isDigitByte b) ∧
        decimalValue (bytesAt mem p n) ≤ UINT64_MAX) := fun h => hno h.2
    simp only [hcond, if_false]
  | some r =>
    obtain ⟨h1, h2, h3⟩ := (hspec r (Nat.zero_le _)).mp hl
    subst h3
    cases n with
    | zero => simp [bytesAt]
    | succ n =>
      have hne : bytesAt mem p (n + 1) ≠ [] := by simp [bytesAt]
      have hcond : bytesAt mem p (n + 1) ≠ [] ∧ (∀ b ∈ bytesAt mem p (n + 1), isDigitByte b) ∧
          decimalValue (bytesAt mem p (n + 1)) ≤ UINT64_MAX := ⟨hne, h1, h2⟩
      rw [if_pos hcond]
      simp [decimalValue]

/-- Outcome of `sv_to_uint64` with a non-null output pointer, in terms of the
bytes of the view. -/
theorem sv_to_uint64_spec (mem : Memory) (sv : StringView) (v0 : Nat)
    (hmax : sv.length ≤ SIZE_MAX) :
    sv_to_uint64 mem sv (some v0) =
      if stripPlus (sv.bytes mem) ≠ [] ∧ (∀ b ∈ stripPlus (sv.bytes mem), isDigitByte b) ∧
          decimalValue (stripPlus (sv.bytes mem)) ≤ UINT64_MAX
      then (true, some (decimalValue (stripPlus (sv.bytes mem)))) else (false, some v0) := by
  unfold sv_to_uint64 StringView.bytes
  cases hn : sv.length with
  | zero => simp [bytesAt, stripPlus]
  | succ n =>
    rw [hn] at hmax
    simp only [reduceCtorEq, Nat.add_one_ne_zero, or_self, if_false]
    rw [size_sub_eq (by omega) hmax, Nat.add_sub_cancel]
    by_cases hplus : mem sv.begin = 43
    · have hstrip : stripPlus (bytesAt mem sv.begin (n + 1)) = bytesAt mem (sv.begin + 1) n := by
        simp [stripPlus, bytesAt, hplus]
      simp only [hplus, if_true, hstrip]
      by_cases hn0 : n = 0
      · simp [hn0, bytesAt]
      · simp only [hn0, if_false]
        exact sv_to_uint64_digits_spec mem (sv.begin + 1) n v0
    · have hstrip : stripPlus (bytesAt mem sv.begin (n + 1)) = bytesAt mem sv.begin (n + 1) := by
        simp [stripPlus, bytesAt, hplus]
      simp only [hplus, if_false, hstrip]
      exact sv_to_uint64_digits_spec mem sv.begin (n + 1) v0

theorem isDigitByte_ne_sign {b : Byte} (h : isDigitByte b) : b ≠ 43 ∧ b ≠ 45 := by
  unfold isDigitByte at h
  constructor <;> intro e <;> rw [e] at h <;> exact absurd h (by decide)

theorem stripPlus_of_isUnsignedDecimal {bs ds : List Byte} (h : isUnsignedDecimal bs ds) :
    stripPlus bs = ds := by
  obtain ⟨hshape, hne, hdig⟩ := h
  rcases hshape with rfl | rfl
  · cases bs with
    | nil => exact absurd rfl hne
    | cons b t =>
      have := (isDigitByte_ne_sign (hdig b (List.mem_cons_self b t))).1
      simp [stripPlus, this]
  · simp [stripPlus]

theorem isUnsignedDecimal_stripPlus {bs : List Byte} (hne : stripPlus bs ≠ [])
    (hdig : ∀ b ∈ stripPlus bs, isDigitByte b) : isUnsignedDecimal bs (stripPlus bs) := by
  refine ⟨?_, hne, hdig⟩
  unfold stripPlus
  by_cases h : bs.head? = some 43
  · simp only [h, if_true]
    cases bs with
    | nil => simp at h
    | cons b t =>
      simp only [List.head?_cons, Option.some.injEq] at h
      simp [h]
  · simp [h]

/-- C17: for a view whose length is a `size_t` value and a non-null output
pointer, `sv_to_uint64` returns true exactly when the bytes of the view are at
most one leading `'+'` followed by one or more ASCII digits and nothing else,
with a decimal value of at most `2^64 - 1`; it then stores exactly that value.
The empty view, `"+"`, `"-1"`, `" 42"`, `"12x3"` and `"18446744073709551616"`
are rejected. -/
theorem sv_to_uint64_strict (mem : Memory) (sv : StringView) (v0 : Nat)
    (hmax : sv.length ≤ SIZE_MAX) :
    ((sv_to_uint64 mem sv (some v0)).1 = true ↔
      ∃ ds, isUnsignedDecimal (sv.bytes mem) ds ∧ decimalValue ds ≤ UINT64_MAX) ∧
    (∀ ds, isUnsignedDecimal (sv.bytes mem) ds → decimalValue ds ≤ UINT64_MAX →
      sv_to_uint64 mem sv (some v0) = (true, some (decimalValue ds))) ∧
    (sv_to_uint64 (strMem "") (strView "") (some 7)).1 = false ∧
    (sv_to_uint64 (strMem "") sv_empty (some 7)).1 = false ∧
    (sv_to_uint64 (strMem "+") (strView "+") (some 7)).1 = false ∧
    (sv_to_uint64 (strMem "-1") (strView "-1") (some 7)).1 = false ∧
    (sv_to_uint64 (strMem " 42") (strView " 42") (some 7)).1 = false ∧
    (sv_to_uint64 (strMem "12x3") (strView "12x3") (some 7)).1 = false ∧
    (sv_to_uint64 (strMem "18446744073709551616") (strView "18446744073709551616")
      (some 7)).1 = false := by
  have hspec := sv_to_uint64_spec mem sv v0 hmax
  refine ⟨?_, ?_, by decide, by decide, by decide, by decide, by decide, by decide, by decide⟩
  · rw [hspec]
    constructor
    · intro h
      by_cases hc : stripPlus (sv.bytes mem) ≠ [] ∧
          (∀ b ∈ stripPlus (sv.bytes mem), isDigitByte b) ∧
          decimalValue (stripPlus (sv.bytes mem)) ≤ UINT64_MAX
      · exact ⟨_, isUnsignedDecimal_stripPlus hc.1 hc.2.1, hc.2.2⟩
      · rw [if_neg hc] at h
        cases h
    · rintro ⟨ds, hds, hval⟩
      have e := stripPlus_of_isUnsignedDecimal hds
      rw [if_pos (by rw [e]; exact ⟨hds.2.1, hds.2.2, hval⟩)]
  · intro ds hds hval
    have e := stripPlus_of_isUnsignedDecimal hds
    rw [hspec, if_pos (by rw [e]; exact ⟨hds.2.1, hds.2.2, hval⟩), e]

/-- Witness for C17 at `"+42"`. -/
theorem sv_to_uint64_strict_witness :
    (strView "+42").length ≤ SIZE_MAX ∧
    (((sv_to_uint64 (strMem "+42") (strView "+42") (some 7)).1 = true ↔
      ∃ ds, isUnsignedDecimal ((strView "+42").bytes (strMem "+42")) ds ∧
        decimalValue ds ≤ UINT64_MAX) ∧
    (∀ ds, isUnsignedDecimal ((strView "+42").bytes (strMem "+42")) ds →
      decimalValue ds ≤ UINT64_MAX →
      sv_to_uint64 (strMem "+42") (strView "+42") (some 7) = (true, some (decimalValue ds))) ∧
    (sv_to_uint64 (strMem "") (strView "") (some 7)).1 = false ∧
    (sv_to_uint64 (strMem "") sv_empty (some 7)).1 = false ∧
    (sv_to_uint64 (strMem "+") (strView "+") (some 7)).1 = false ∧
    (sv_to_uint64 (strMem "-1") (strView "-1") (some 7)).1 = false ∧
    (sv_to_uint64 (strMem " 42") (strView " 42") (some 7)).1 = false ∧
    (sv_to_uint64 (strMem "12x3") (strView "12x3") (some 7)).1 = false ∧
    (sv_to_uint64 (strMem "18446744073709551616") (strView "18446744073709551616")
      (some 7)).1 = false) :=
  ⟨by decide, sv_to_uint64_strict (strMem "+42") (strView "+42") 7 (by decide)⟩

/-! ## Strict integer parsing: `sv_to_int64` -/

theorem toInt64_of_le {acc : Nat} (h : acc ≤ INT64_MAX) : toInt64 acc = (acc : Int) := by
  unfold toInt64
  rw [if_pos h]

/-- The digit part of `sv_to_int64` accepts exactly the non-empty digit runs
whose value is at most `INT64_MAX`, or `INT64_MAX + 1` under a minus sign, and
stores the signed value. -/
theorem sv_to_int64_digits_spec (mem : Memory) (p n : Nat) (neg : Bool) (v0 : Int) :
    sv_to_int64_digits mem p n neg (some v0) =
      if bytesAt mem p n ≠ [] ∧ (∀ b ∈ bytesAt mem p n, isDigitByte b) ∧
          decimalValue (bytesAt mem p n) ≤ (if neg then INT64_MAX + 1 else INT64_MAX)
      then (true, some (signedValue neg (bytesAt mem p n))) else (false, some v0) := by
  have hneglim : u64 (INT64_MAX + 1) = INT64_MAX + 1 := u64_eq (by decide)
  have hlim : (if neg then INT64_MAX + 1 else INT64_MAX) ≤ UINT64_MAX := by
    cases neg <;> decide
  have hspec := parse_digits_loop_eq_some mem (if neg then INT64_MAX + 1 else INT64_MAX)
    hlim n p 0 false
  unfold sv_to_int64_digits
  simp only [hneglim]
  cases hl : parse_digits_loop mem (if neg then INT64_MAX + 1 else INT64_MAX) p 0 false n with
  | none =>
    have hcond : ¬ (bytesAt mem p n ≠ [] ∧ (∀ b ∈ bytesAt mem p n, isDigitByte b) ∧
        decimalValue (bytesAt mem p n) ≤ (if neg then INT64_MAX + 1 else INT64_MAX)) := by
      rintro ⟨_, h1, h2⟩
      have := (hspec _ (Nat.zero_le _)).mpr ⟨h1, h2, rfl⟩
      rw [hl] at this
      cases this
    rw [if_neg hcond]
  | some r =>
    obtain ⟨h1, h2, h3⟩ := (hspec r (Nat.zero_le _)).mp hl
    subst h3
    cases n with
    | zero => simp [bytesAt]
    | succ n =>
      have hne : bytesAt mem p (n + 1) ≠ [] := by simp [bytesAt]
      rw [if_pos ⟨hne, h1, h2⟩]
      simp only [Bool.false_or, ne_eq, Nat.add_one_ne_zero, not_false_eq_true, decide_True,
        Bool.not_true, Bool.false_eq_true, if_false]
      cases neg with
      | false =>
        simp only [Bool.false_eq_true, if_false] at h2 ⊢
        simp only [Option.map_some', signedValue, decimalValue, toInt64_of_le h2,
          Bool.false_eq_true, if_false]
      | true =>
        simp only [if_true] at h2 ⊢
        by_cases hv : decimalFrom 0 (bytesAt mem p (n + 1)) = INT64_MAX + 1
        · rw [if_pos hv]
          simp only [Option.map_some', signedValue, decimalValue, hv, if_true]
          decide
        · rw [if_neg hv]
          have hle : decimalFrom 0 (bytesAt mem p (n + 1)) ≤ INT64_MAX := by
            change decimalFrom 0 (bytesAt mem p (n + 1)) ≤ INT64_MAX + 1 at h2
            omega
          simp only [Option.map_some', signedValue, decimalValue, toInt64_of_le hle, if_true]

/-- Outcome of `sv_to_int64` with a non-null output pointer, in terms of the
bytes of the view. -/
theorem sv_to_int64_spec (mem : Memory) (sv : StringView) (v0 : Int)
    (hmax : sv.length ≤ SIZE_MAX) :
    sv_to_int64 mem sv (some v0) =
      if stripSign (sv.bytes mem) ≠ [] ∧ (∀ b ∈ stripSign (sv.bytes mem), isDigitByte b) ∧
          decimalValue (stripSign (sv.bytes mem)) ≤
            (if hasMinus (sv.bytes mem) then INT64_MAX + 1 else INT64_MAX)
      then (true, some (signedValue (hasMinus (sv.bytes mem)) (stripSign (sv.bytes mem))))
      else (false, some v0) := by
  unfold sv_to_int64 StringView.bytes
  cases hn : sv.length with
  | zero => simp [bytesAt, stripSign]
  | succ n =>
    rw [hn] at hmax
    simp only [reduceCtorEq, Nat.add_one_ne_zero, or_self, if_false]
    rw [size_sub_eq (by omega) hmax, Nat.add_sub_cancel]
    by_cases hsign : mem sv.begin = 43 ∨ mem sv.begin = 45
    · have hstrip : stripSign (bytesAt mem sv.begin (n + 1)) = bytesAt mem (sv.begin + 1) n := by
        simp [stripSign, bytesAt, hsign]
      have hminus : hasMinus (bytesAt mem sv.begin (n + 1)) = decide (mem sv.begin = 45) := by
        simp [hasMinus, bytesAt]
      simp only [hsign, if_true, hstrip, hminus]
      by_cases hn0 : n = 0
      · simp [hn0, bytesAt]
      · simp only [hn0, if_false]
        exact sv_to_int64_digits_spec mem (sv.begin + 1) n _ v0
    · have hstrip : stripSign (bytesAt mem sv.begin (n + 1)) = bytesAt mem sv.begin (n + 1) := by
        simp [stripSign, bytesAt, hsign]
      have hminus : hasMinus (bytesAt mem sv.begin (n + 1)) = false := by
        have : mem sv.begin ≠ 45 := fun h => hsign (Or.inr h)
        simp [hasMinus, bytesAt, this]
      simp only [hsign, if_false, hstrip, hminus]
      exact sv_to_int64_digits_spec mem sv.begin (n + 1) false v0

theorem strip_of_isSignedDecimal {bs ds : List Byte} {neg : Bool}
    (h : isSignedDecimal bs neg ds) : stripSign bs = ds ∧ hasMinus bs = neg := by
  obtain ⟨hshape, hne, hdig⟩ := h
  rcases hshape with ⟨rfl, rfl⟩ | ⟨rfl, rfl⟩ | ⟨rfl, rfl⟩
  · cases bs with
    | nil => exact absurd rfl hne
    | cons b t =>
      have := isDigitByte_ne_sign (hdig b (List.mem_cons_self b t))
      simp [stripSign, hasMinus, this.1, this.2]
  · simp [stripSign, hasMinus]
  · simp [stripSign, hasMinus]

theorem isSignedDecimal_strip {bs : List Byte} (hne : stripSign bs ≠ [])
    (hdig : ∀ b ∈ stripSign bs, isDigitByte b) :
    isSignedDecimal bs (hasMinus bs) (stripSign bs) := by
  refine ⟨?_, hne, hdig⟩
  cases bs with
  | nil => simp [stripSign, hasMinus]
  | cons b t =>
    by_cases hp : b = 43
    · subst hp
      simp [stripSign, hasMinus]
    · by_cases hm : b = 45
      · subst hm
        simp [stripSign, hasMinus]
      · simp [stripSign, hasMinus, hp, hm]

/-- A signed value lies in the `int64_t` range exactly when its magnitude is
within the limit that `sv_to_int64` uses for its sign. -/
theorem signedValue_in_range (neg : Bool) (ds : List Byte) :
    (INT64_MIN ≤ signedValue neg ds ∧ signedValue neg ds ≤ (INT64_MAX : Int)) ↔
      decimalValue ds ≤ (if neg then INT64_MAX + 1 else INT64_MAX) := by
  unfold signedValue INT64_MIN INT64_MAX
  cases neg
  · simp only [Bool.false_eq_true, if_false]
    omega
  · simp only [if_true]
    omega

/-- C18: for a view whose length is a `size_t` value and a non-null output
pointer, `sv_to_int64` returns true exactly when the bytes of the view are at
most one leading `'+'` or `'-'` followed by one or more ASCII digits and
nothing else, with a signed value in `[-2^63, 2^63 - 1]`; it then stores
exactly that value.  The magnitude 9223372036854775808 is accepted only after
`'-'` and gives `INT64_MIN`, `"-0"` gives 0, and `"-9223372036854775809"` is
rejected. -/
theorem sv_to_int64_strict (mem : Memory) (sv : StringView) (v0 : Int)
    (hmax : sv.length ≤ SIZE_MAX) :
    ((sv_to_int64 mem sv (some v0)).1 = true ↔
      ∃ neg ds, isSignedDecimal (sv.bytes mem) neg ds ∧
        INT64_MIN ≤ signedValue neg ds ∧ signedValue neg ds ≤ (INT64_MAX : Int)) ∧
    (∀ neg ds, isSignedDecimal (sv.bytes mem) neg ds →
      INT64_MIN ≤ signedValue neg ds → signedValue neg ds ≤ (INT64_MAX : Int) →
      sv_to_int64 mem sv (some v0) = (true, some (signedValue neg ds))) ∧
    sv_to_int64 (strMem "-9223372036854775808") (strView "-9223372036854775808") (some 7)
      = (true, some INT64_MIN) ∧
    (sv_to_int64 (strMem "9223372036854775808") (strView "9223372036854775808")
      (some 7)).1 = false ∧
    (sv_to_int64 (strMem "+9223372036854775808") (strView "+9223372036854775808")
      (some 7)).1 = false ∧
    sv_to_int64 (strMem "-0") (strView "-0") (some 7) = (true, some 0) ∧
    (sv_to_int64 (strMem "-9223372036854775809") (strView "-9223372036854775809")
      (some 7)).1 = false := by
  have hspec := sv_to_int64_spec mem sv v0 hmax
  refine ⟨?_, ?_, by decide, by decide, by decide, by decide, by decide⟩
  · rw [hspec]
    constructor
    · intro h
      by_cases hc : stripSign (sv.bytes mem) ≠ [] ∧
          (∀ b ∈ stripSign (sv.bytes mem), isDigitByte b) ∧
          decimalValue (stripSign (sv.bytes mem)) ≤
            (if hasMinus (sv.bytes mem) then INT64_MAX + 1 else INT64_MAX)
      · exact ⟨_, _, isSignedDecimal_strip hc.1 hc.2.1,
          (signedValue_in_range _ _).mpr hc.2.2⟩
      · rw [if_neg hc] at h
        cases h
    · rintro ⟨neg, ds, hds, hlo, hhi⟩
      obtain ⟨e1, e2⟩ := strip_of_isSignedDecimal hds
      rw [if_pos (by
        rw [e1, e2]
        exact ⟨hds.2.1, hds.2.2, (signedValue_in_range neg ds).mp ⟨hlo, hhi⟩⟩)]
  · intro neg ds hds hlo hhi
    obtain ⟨e1, e2⟩ := strip_of_isSignedDecimal hds
    rw [hspec, if_pos (by
      rw [e1, e2]
      exact ⟨hds.2.1, hds.2.2, (signedValue_in_range neg ds).mp ⟨hlo, hhi⟩⟩), e1, e2]

/-- Witness for C18 at `"-98765"`. -/
theorem sv_to_int64_strict_witness :
    (strView "-98765").length ≤ SIZE_MAX ∧
    (((sv_to_int64 (strMem "-98765") (strView "-98765") (some 7)).1 = true ↔
      ∃ neg ds, isSignedDecimal ((strView "-98765").bytes (strMem "-98765")) neg ds ∧
        INT64_MIN ≤ signedValue neg ds ∧ signedValue neg ds ≤ (INT64_MAX : Int)) ∧
    (∀ neg ds, isSignedDecimal ((strView "-98765").bytes (strMem "-98765")) neg ds →
      INT64_MIN ≤ signedValue neg ds → signedValue neg ds ≤ (INT64_MAX : Int) →
      sv_to_int64 (strMem "-98765") (strView "-98765") (some 7)
        = (true, some (signedValue neg ds))) ∧
    sv_to_int64 (strMem "-9223372036854775808") (strView "-9223372036854775808") (some 7)
      = (true, some INT64_MIN) ∧
    (sv_to_int64 (strMem "9223372036854775808") (strView "9223372036854775808")
      (some 7)).1 = false ∧
    (sv_to_int64 (strMem "+9223372036854775808") (strView "+9223372036854775808")
      (some 7)).1 = false ∧
    sv_to_int64 (strMem "-0") (strView "-0") (some 7) = (true, some 0) ∧
    (sv_to_int64 (strMem "-9223372036854775809") (strView "-9223372036854775809")
      (some 7)).1 = false) :=
  ⟨by decide, sv_to_int64_strict (strMem "-98765") (strView "-98765") 7 (by decide)⟩

/-! ## Decimal rendering and the round trips -/

theorem bytesAt_length (mem : Memory) (n p : Nat) : (bytesAt mem p n).length = n := by
  induction n generalizing p with
  | zero => rfl
  | succ n ih => simp [bytesAt, ih]

theorem digitByte_val {d : Nat} (h : d < 10) : (digitByte d).val = 48 + d := by
  unfold digitByte
  simp only [Fin.ofNat, Fin.val_mk]
  omega

theorem isDigitByte_digitByte {d : Nat} (h : d < 10) : isDigitByte (digitByte d) := by
  unfold isDigitByte
  rw [digitByte_val h]
  omega

theorem renderCore_digits (fuel x : Nat) (ds : List Byte)
    (hds : ∀ b ∈ ds, isDigitByte b) : ∀ b ∈ renderCore fuel x ds, isDigitByte b := by
  induction fuel generalizing x ds with
  | zero => exact hds
  | succ fuel ih =>
    have hcons : ∀ b ∈ digitByte (x % 10) :: ds, isDigitByte b := by
      intro b hb
      rcases List.mem_cons.mp hb with rfl | hb
      · exact isDigitByte_digitByte (Nat.mod_lt _ (by omega))
      · exact hds b hb
    unfold renderCore
    split
    · exact hcons
    · exact ih (x / 10) _ hcons

theorem renderCore_ne_nil (fuel x : Nat) (ds : List Byte) (h : fuel ≠ 0 ∨ ds ≠ []) :
    renderCore fuel x ds ≠ [] := by
  induction fuel generalizing x ds with
  | zero =>
    rcases h with h | h
    · exact absurd rfl h
    · exact h
  | succ fuel ih =>
    unfold renderCore
    split
    · simp
    · exact ih (x / 10) _ (Or.inr (by simp))

theorem renderCore_value (fuel x : Nat) (ds : List Byte) (h : x < fuel) :
    decimalFrom 0 (renderCore fuel x ds) = decimalFrom x ds := by
  induction fuel generalizing x ds with
  | zero => omega
  | succ fuel ih =>
    have hd := digitByte_val (Nat.mod_lt x (show 10 > 0 by omega))
    unfold renderCore
    split
    · rename_i h0
      rw [decimalFrom_cons, hd]
      congr 1
      omega
    · rename_i h0
      rw [ih (x / 10) _ (by omega), decimalFrom_cons, hd]
      congr 1
      omega

theorem renderCore_length (fuel x : Nat) (ds : List Byte) :
    (renderCore fuel x ds).length ≤ max 1 x + ds.length := by
  induction fuel generalizing x ds with
  | zero => simp [renderCore]
  | succ fuel ih =>
    unfold renderCore
    split
    · simp only [List.length_cons]
      omega
    · have := ih (x / 10) (digitByte (x % 10) :: ds)
      simp only [List.length_cons] at this
      omega

theorem renderUnsigned_isUnsignedDecimal (x : Nat) :
    isUnsignedDecimal (renderUnsigned x) (renderUnsigned x) :=
  ⟨Or.inl rfl, renderCore_ne_nil _ _ _ (Or.inl (by omega)),
    renderCore_digits _ _ _ (fun _ hb => absurd hb (List.not_mem_nil _))⟩

theorem decimalValue_renderUnsigned (x : Nat) : decimalValue (renderUnsigned x) = x := by
  unfold decimalValue renderUnsigned
  rw [renderCore_value _ _ _ (by omega)]
  rfl

theorem renderUnsigned_length (x : Nat) : (renderUnsigned x).length ≤ max 1 x := by
  have := renderCore_length (x + 1) x []
  simpa using this

/-- The rendering agrees with the decimal digits Lean itself prints for a
natural number. -/
theorem renderCore_eq_toDigitsCore (fuel x : Nat) (cs : List Char) :
    renderCore fuel x (cs.map (fun c => Fin.ofNat c.toNat))
      = (Nat.toDigitsCore 10 fuel x cs).map (fun c => Fin.ofNat c.toNat) := by
  induction fuel generalizing x cs with
  | zero => rfl
  | succ fuel ih =>
    have hd : digitByte (x % 10) = Fin.ofNat (Nat.digitChar (x % 10)).toNat := by
      have hlt : x % 10 < 10 := Nat.mod_lt _ (by omega)
      generalize x % 10 = d at hlt
      interval_cases d <;> rfl
    unfold renderCore Nat.toDigitsCore
    by_cases h0 : x / 10 = 0
    · simp [h0, hd]
    · simp only [h0, if_false, hd]
      exact ih (x / 10) (Nat.digitChar (x % 10) :: cs)

theorem renderUnsigned_eq_toDigits (x : Nat) :
    renderUnsigned x = (Nat.toDigits 10 x).map (fun c => Fin.ofNat c.toNat) :=
  renderCore_eq_toDigitsCore (x + 1) x []

/-- C19: for every `x <= 2^64 - 1`, a view whose bytes are the canonical
decimal rendering of `x` and a non-null output pointer, `sv_to_uint64` returns
true and stores exactly `x`; so it does for `UINT64_MAX`, rendered
`"18446744073709551615"`. -/
theorem sv_to_uint64_roundtrip (mem : Memory) (sv : StringView) (x v0 : Nat)
    (hx : x ≤ UINT64_MAX) (hbytes : sv.bytes mem = renderUnsigned x) :
    sv_to_uint64 mem sv (some v0) = (true, some x) ∧
    renderUnsigned UINT64_MAX = cstr "18446744073709551615" ∧
    sv_to_uint64 (strMem "18446744073709551615") (strView "18446744073709551615") (some 7)
      = (true, some UINT64_MAX) := by
  refine ⟨?_, by decide, by decide⟩
  have hlen : sv.length ≤ SIZE_MAX := by
    have h1 : (sv.bytes mem).length = sv.length := bytesAt_length mem _ _
    have h2 := renderUnsigned_length x
    rw [← hbytes, h1] at h2
    unfold UINT64_MAX at hx
    unfold SIZE_MAX
    omega
  have hdec : isUnsignedDecimal (sv.bytes mem) (renderUnsigned x) := by
    rw [hbytes]
    exact renderUnsigned_isUnsignedDecimal x
  have hval : decimalValue (renderUnsigned x) ≤ UINT64_MAX := by
    rw [decimalValue_renderUnsigned]
    exact hx
  rw [sv_to_uint64_spec mem sv v0 hlen, stripPlus_of_isUnsignedDecimal hdec,
    if_pos ⟨hdec.2.1, hdec.2.2, hval⟩, decimalValue_renderUnsigned]

/-- Witness for C19 at `x = 12345`. -/
theorem sv_to_uint64_roundtrip_witness :
    (12345 ≤ UINT64_MAX ∧ (strView "12345").bytes (strMem "12345") = renderUnsigned 12345) ∧
    (sv_to_uint64 (strMem "12345") (strView "12345") (some 7) = (true, some 12345) ∧
    renderUnsigned UINT64_MAX = cstr "18446744073709551615" ∧
    sv_to_uint64 (strMem "18446744073709551615") (strView "18446744073709551615") (some 7)
      = (true, some UINT64_MAX)) :=
  ⟨by decide,
    sv_to_uint64_roundtrip (strMem "12345") (strView "12345") 12345 7 (by decide) (by decide)⟩

/-- C20: for every `x` with `-2^63 <= x <= 2^63 - 1`, a view whose bytes are
the canonical decimal rendering of `x` and a non-null output pointer,
`sv_to_int64` returns true and stores exactly `x`; so it does for `INT64_MAX`,
rendered `"9223372036854775807"`, and for `INT64_MIN`, rendered
`"-9223372036854775808"`. -/
theorem sv_to_int64_roundtrip (mem : Memory) (sv : StringView) (x v0 : Int)
    (hlo : INT64_MIN ≤ x) (hhi : x ≤ (INT64_MAX : Int))
    (hbytes : sv.bytes mem = renderSigned x) :
    sv_to_int64 mem sv (some v0) = (true, some x) ∧
    renderSigned (INT64_MAX : Int) = cstr "9223372036854775807" ∧
    sv_to_int64 (strMem "9223372036854775807") (strView "9223372036854775807") (some 7)
      = (true, some (INT64_MAX : Int)) ∧
    renderSigned INT64_MIN = cstr "-9223372036854775808" ∧
    sv_to_int64 (strMem "-9223372036854775808") (strView "-9223372036854775808") (some 7)
      = (true, some INT64_MIN) := by
  refine ⟨?_, by decide, by decide, by decide, by decide⟩
  have hu := renderUnsigned_isUnsignedDecimal x.natAbs
  have hlen : sv.length ≤ SIZE_MAX := by
    have h1 : (sv.bytes mem).length = sv.length := bytesAt_length mem _ _
    have h2 := renderUnsigned_length x.natAbs
    have h3 : (renderSigned x).length ≤ (renderUnsigned x.natAbs).length + 1 := by
      unfold renderSigned
      split <;> simp
    rw [← hbytes, h1] at h3
    unfold INT64_MIN at hlo
    unfold INT64_MAX at hhi
    unfold SIZE_MAX
    omega
  have hdec : isSignedDecimal (sv.bytes mem) (decide (x < 0)) (renderUnsigned x.natAbs) := by
    rw [hbytes]
    unfold renderSigned
    by_cases hneg : x < 0
    · simp only [hneg, if_true, decide_True]
      exact ⟨Or.inr (Or.inr ⟨rfl, rfl⟩), hu.2.1, hu.2.2⟩
    · simp only [hneg, if_false, decide_False]
      exact ⟨Or.inl ⟨rfl, rfl⟩, hu.2.1, hu.2.2⟩
  have hsv : signedValue (decide (x < 0)) (renderUnsigned x.natAbs) = x := by
    unfold signedValue
    rw [decimalValue_renderUnsigned]
    by_cases hneg : x < 0
    · simp only [hneg, decide_True, if_true]
      omega
    · simp only [hneg, decide_False, Bool.false_eq_true, if_false]
      omega
  obtain ⟨e1, e2⟩ := strip_of_isSignedDecimal hdec
  have hrange := (signedValue_in_range (decide (x < 0)) (renderUnsigned x.natAbs)).mp
    (by rw [hsv]; exact ⟨hlo, hhi⟩)
  rw [sv_to_int64_spec mem sv v0 hlen, e1, e2, if_pos ⟨hdec.2.1, hdec.2.2, hrange⟩, hsv]

/-- Witness for C20 at `x = -98765`. -/
theorem sv_to_int64_roundtrip_witness :
    (INT64_MIN ≤ -98765 ∧ (-98765 : Int) ≤ (INT64_MAX : Int) ∧
      (strView "-98765").bytes (strMem "-98765") = renderSigned (-98765)) ∧
    (sv_to_int64 (strMem "-98765") (strView "-98765") (some 7) = (true, some (-98765)) ∧
    renderSigned (INT64_MAX : Int) = cstr "9223372036854775807" ∧
    sv_to_int64 (strMem "9223372036854775807") (strView "9223372036854775807") (some 7)
      = (true, some (INT64_MAX : Int)) ∧
    renderSigned INT64_MIN = cstr "-9223372036854775808" ∧
    sv_to_int64 (strMem "-9223372036854775808") (strView "-9223372036854775808") (some 7)
      = (true, some INT64_MIN)) :=
  ⟨by decide,
    sv_to_int64_roundtrip (strMem "-98765") (strView "-98765") (-98765) 7
      (by decide) (by decide) (by decide)⟩

/-! ## Taking and dropping a prefix -/

/-- C30: for every view `v` whose length is a `size_t` value and every
`n <= v.length`: `sv_take v n` is `sv_substr v 0 n`, `sv_drop v n` is
`sv_substr v n (v.length - n)`, the bytes of the first followed by the bytes
of the second are the bytes of `v`, and `sv_substr v 0 v.length` is `v`
itself, hence byte-identical to it.  The functions take the view by value and
return new views, so `v` is not changed. -/
theorem sv_take_drop_partition (mem : Memory) (v : StringView) (n : Nat)
    (hn : n ≤ v.length) (hmax : v.length ≤ SIZE_MAX) :
    sv_take v n = sv_substr v 0 n ∧
    sv_drop v n = sv_substr v n (v.length - n) ∧
    (sv_take v n).bytes mem ++ (sv_drop v n).bytes mem = v.bytes mem ∧
    sv_substr v 0 v.length = v ∧
    (sv_substr v 0 v.length).bytes mem = v.bytes mem := by
  have hdrop : sv_drop v n = sv_substr v n (v.length - n) := by
    unfold sv_drop
    rw [size_sub_eq hn hmax]
  refine ⟨rfl, hdrop, ?_, rfl, rfl⟩
  rw [hdrop]
  unfold sv_take sv_substr StringView.bytes
  dsimp only
  have e : v.length = n + (v.length - n) := by omega
  conv => rhs; rw [e]
  rw [bytesAt_append, Nat.add_zero]

/-- Witness for C30 at `"Hello world"` cut after 5 bytes. -/
theorem sv_take_drop_partition_witness :
    (5 ≤ (StringView.mk 1 11).length ∧ (StringView.mk 1 11).length ≤ SIZE_MAX) ∧
    (sv_take ⟨1, 11⟩ 5 = sv_substr ⟨1, 11⟩ 0 5 ∧
    sv_drop ⟨1, 11⟩ 5 = sv_substr ⟨1, 11⟩ 5 ((StringView.mk 1 11).length - 5) ∧
    (sv_take ⟨1, 11⟩ 5).bytes helloMem ++ (sv_drop ⟨1, 11⟩ 5).bytes helloMem
      = (StringView.mk 1 11).bytes helloMem ∧
    sv_substr ⟨1, 11⟩ 0 (StringView.mk 1 11).length = ⟨1, 11⟩ ∧
    (sv_substr ⟨1, 11⟩ 0 (StringView.mk 1 11).length).bytes helloMem
      = (StringView.mk 1 11).bytes helloMem) :=
  ⟨by decide, sv_take_drop_partition helloMem ⟨1, 11⟩ 5 (by decide) (by decide)⟩

/-! ## `sv_to_long` -/

theorem toLong_of_in_range (long_max : Nat) (tmp : Int)
    (hlo : long_min long_max ≤ tmp) (hhi : tmp ≤ (long_max : Int)) :
    toLong long_max tmp = tmp := by
  unfold toLong
  unfold long_min at hlo
  rw [Int.emod_eq_of_lt (by omega) (by omega)]
  omega

/-- The flag of `sv_to_int64` and, on success, the stored value do not depend
on what the output location held before. -/
theorem sv_to_int64_initial (mem : Memory) (sv : StringView) (a b : Int)
    (hmax : sv.length ≤ SIZE_MAX) :
    (sv_to_int64 mem sv (some a)).1 = (sv_to_int64 mem sv (some b)).1 ∧
    ((sv_to_int64 mem sv (some a)).1 = true →
      sv_to_int64 mem sv (some a) = sv_to_int64 mem sv (some b)) := by
  rw [sv_to_int64_spec mem sv a hmax, sv_to_int64_spec mem sv b hmax]
  by_cases hc : stripSign (sv.bytes mem) ≠ [] ∧
      (∀ b ∈ stripSign (sv.bytes mem), isDigitByte b) ∧
      decimalValue (stripSign (sv.bytes mem)) ≤
        (if hasMinus (sv.bytes mem) then INT64_MAX + 1 else INT64_MAX)
  · rw [if_pos hc, if_pos hc]
    exact ⟨rfl, fun _ => rfl⟩
  · rw [if_neg hc, if_neg hc]
    exact ⟨rfl, fun h => by cases h⟩

/-- The value `sv_to_int64` stores on success lies in the `int64_t` range. -/
theorem sv_to_int64_value_range (mem : Memory) (sv : StringView) (a v : Int)
    (hmax : sv.length ≤ SIZE_MAX) (h : sv_to_int64 mem sv (some a) = (true, some v)) :
    INT64_MIN ≤ v ∧ v ≤ (INT64_MAX : Int) := by
  rw [sv_to_int64_spec mem sv a hmax] at h
  by_cases hc : stripSign (sv.bytes mem) ≠ [] ∧
      (∀ b ∈ stripSign (sv.bytes mem), isDigitByte b) ∧
      decimalValue (stripSign (sv.bytes mem)) ≤
        (if hasMinus (sv.bytes mem) then INT64_MAX + 1 else INT64_MAX)
  · rw [if_pos hc] at h
    have hv : signedValue (hasMinus (sv.bytes mem)) (stripSign (sv.bytes mem)) = v := by
      simpa using h
    rw [← hv]
    exact (signedValue_in_range _ _).mpr hc.2.2
  · rw [if_neg hc] at h
    cases h

/-- Either `sv_to_int64` fails whatever the output location held, leaving it
as it was, or it succeeds with one value of the `int64_t` range whatever the
location held. -/
theorem sv_to_int64_outcome (mem : Memory) (sv : StringView) (hmax : sv.length ≤ SIZE_MAX) :
    (∀ a, sv_to_int64 mem sv (some a) = (false, some a)) ∨
    (∃ v, INT64_MIN ≤ v ∧ v ≤ (INT64_MAX : Int) ∧
      ∀ a, sv_to_int64 mem sv (some a) = (true, some v)) := by
  by_cases hc : stripSign (sv.bytes mem) ≠ [] ∧
      (∀ b ∈ stripSign (sv.bytes mem), isDigitByte b) ∧
      decimalValue (stripSign (sv.bytes mem)) ≤
        (if hasMinus (sv.bytes mem) then INT64_MAX + 1 else INT64_MAX)
  · refine Or.inr ⟨_, ((signedValue_in_range _ _).mpr hc.2.2).1,
      ((signedValue_in_range _ _).mpr hc.2.2).2, fun a => ?_⟩
    rw [sv_to_int64_spec mem sv a hmax, if_pos hc]
  · refine Or.inl (fun a => ?_)
    rw [sv_to_int64_spec mem sv a hmax, if_neg hc]

theorem sv_to_long_of_fail (long_max : Nat) (mem : Memory) (sv : StringView) (tmp0 v0 : Int)
    (h : sv_to_int64 mem sv (some tmp0) = (false, some tmp0)) :
    sv_to_long long_max mem sv tmp0 (some v0) = (false, some v0) := by
  unfold sv_to_long
  rw [h]
  simp

theorem sv_to_long_of_ok (long_max : Nat) (mem : Memory) (sv : StringView) (tmp0 v0 v : Int)
    (h : sv_to_int64 mem sv (some tmp0) = (true, some v)) :
    sv_to_long long_max mem sv tmp0 (some v0) =
      if long_max = 2147483647 ∧ (v < long_min long_max ∨ v > (long_max : Int))
      then (false, some v0) else (true, some (toLong long_max v)) := by
  unfold sv_to_long
  rw [h]
  simp only [reduceCtorEq, if_false, Option.getD_some, Option.map_some']
  by_cases h32 : long_max = 2147483647
  · by_cases hr : v < long_min long_max ∨ v > (long_max : Int)
    · rw [if_pos h32, if_pos hr, if_pos ⟨h32, hr⟩]
    · rw [if_pos h32, if_neg hr, if_neg (fun hh => hr hh.2)]
  · rw [if_neg h32, if_neg (fun hh => h32 hh.1)]

/-- C28: on a platform whose `long` is 32 or 64 bits wide, for a view whose
length is a `size_t` value and a non-null output pointer, `sv_to_long` returns
true exactly when `sv_to_int64` returns true on the same input with a value in
`[LONG_MIN, LONG_MAX]`, and it then stores the value `sv_to_int64` stores.
Where `long` is 64 bits wide the two functions agree on every input and every
output pointer. -/
theorem sv_to_long_refines (long_max : Nat) (mem : Memory) (sv : StringView)
    (tmp0 v0 : Int) (hmax : sv.length ≤ SIZE_MAX)
    (hplat : long_max = 2147483647 ∨ long_max = INT64_MAX) :
    ((sv_to_long long_max mem sv tmp0 (some v0)).1 = true ↔
      ∃ v, sv_to_int64 mem sv (some v0) = (true, some v) ∧
        long_min long_max ≤ v ∧ v ≤ (long_max : Int)) ∧
    (∀ v, sv_to_int64 mem sv (some v0) = (true, some v) →
      long_min long_max ≤ v → v ≤ (long_max : Int) →
      sv_to_long long_max mem sv tmp0 (some v0) = (true, some v)) ∧
    (long_max = INT64_MAX →
      ∀ out, sv_to_long long_max mem sv tmp0 out = sv_to_int64 mem sv out) := by
  have h64 : long_max = INT64_MAX → long_max ≠ 2147483647 := by
    intro h
    rw [h]
    decide
  rcases sv_to_int64_outcome mem sv hmax with hfail | ⟨v, hlo, hhi, hok⟩
  · have hl := sv_to_long_of_fail long_max mem sv tmp0 v0 (hfail tmp0)
    refine ⟨⟨fun h => ?_, ?_⟩, ?_, ?_⟩
    · rw [hl] at h
      cases h
    · rintro ⟨w, hw, _⟩
      rw [hfail v0] at hw
      cases hw
    · intro w hw
      rw [hfail v0] at hw
      cases hw
    · intro _ out
      cases out with
      | none => simp [sv_to_long, sv_to_int64]
      | some w => rw [sv_to_long_of_fail long_max mem sv tmp0 w (hfail tmp0), hfail w]
  · have hl := fun w => sv_to_long_of_ok long_max mem sv tmp0 w v (hok tmp0)
    refine ⟨⟨fun h => ?_, ?_⟩, ?_, ?_⟩
    · refine ⟨v, hok v0, ?_⟩
      rcases hplat with h32 | h64v
      · rw [hl v0] at h
        by_cases hr : v < long_min long_max ∨ v > (long_max : Int)
        · rw [if_pos ⟨h32, hr⟩] at h
          cases h
        · omega
      · rw [h64v]
        unfold long_min
        unfold INT64_MIN at hlo
        unfold INT64_MAX at hhi ⊢
        omega
    · rintro ⟨w, hw, hlo2, hhi2⟩
      rw [hok v0] at hw
      have hwv : v = w := by simpa using hw
      subst hwv
      rw [hl v0, if_neg (fun hh => by omega)]
    · intro w hw hlo2 hhi2
      rw [hok v0] at hw
      have hwv : v = w := by simpa using hw
      subst hwv
      rw [hl v0, if_neg (fun hh => by omega), toLong_of_in_range long_max v hlo2 hhi2]
    · intro h64v out
      cases out with
      | none => simp [sv_to_long, sv_to_int64]
      | some w =>
        rw [hl w, if_neg (fun hh => h64 h64v hh.1), hok w, toLong_of_in_range long_max v
          (by rw [h64v]; unfold long_min; unfold INT64_MIN at hlo; unfold INT64_MAX; omega)
          (by rw [h64v]; exact hhi)]

/-- Witness for C28 at `"-98765"` with a 32-bit `long`. -/
theorem sv_to_long_refines_witness :
    ((strView "-98765").length ≤ SIZE_MAX ∧
      ((2147483647 : Nat) = 2147483647 ∨ (2147483647 : Nat) = INT64_MAX)) ∧
    (((sv_to_long 2147483647 (strMem "-98765") (strView "-98765") 3 (some 7)).1 = true ↔
      ∃ v, sv_to_int64 (strMem "-98765") (strView "-98765") (some 7) = (true, some v) ∧
        long_min 2147483647 ≤ v ∧ v ≤ ((2147483647 : Nat) : Int)) ∧
    (∀ v, sv_to_int64 (strMem "-98765") (strView "-98765") (some 7) = (true, some v) →
      long_min 2147483647 ≤ v → v ≤ ((2147483647 : Nat) : Int) →
      sv_to_long 2147483647 (strMem "-98765") (strView "-98765") 3 (some 7)
        = (true, some v)) ∧
    ((2147483647 : Nat) = INT64_MAX →
      ∀ out, sv_to_long 2147483647 (strMem "-98765") (strView "-98765") 3 out
        = sv_to_int64 (strMem "-98765") (strView "-98765") out)) :=
  ⟨by decide,
    sv_to_long_refines 2147483647 (strMem "-98765") (strView "-98765") 3 7 (by decide)
      (by decide)⟩

/-! ## Positions never lead out of range -/

theorem find_substr_loop_traced_spec (mem : Memory) (hay needle : StringView)
    (hn : needle.length ≠ 0) (hle : needle.length ≤ hay.length) (hmax : hay.length ≤ SIZE_MAX) :
    ∀ fuel i, i ≤ hay.length - needle.length + 1 →
      hay.length - needle.length + 2 ≤ fuel + i →
      ∃ r t, find_substr_loop_traced mem hay needle (mem needle.begin)
            (hay.length - needle.length) fuel i = some (r, t) ∧
        find_substr_loop mem hay needle (mem needle.begin)
            (hay.length - needle.length) fuel i = some r ∧
        ∀ a ∈ t, a.inRange hay.length needle.length := by
  intro fuel
  induction fuel with
  | zero => intro i hi hf; omega
  | succ fuel ih =>
    intro i hi hf
    unfold find_substr_loop_traced find_substr_loop
    by_cases hil : i ≤ hay.length - needle.length
    · simp only [hil, if_true]
      rw [size_sub_eq hil (by omega), size_add_eq (by omega)]
      cases hm : memchr mem (hay.begin + i) (mem needle.begin)
          (hay.length - needle.length - i + 1) with
      | none =>
        refine ⟨SV_NPOS, _, rfl, rfl, ?_⟩
        intro a ha
        simp only [List.mem_cons, List.mem_singleton, List.not_mem_nil, or_false] at ha
        rcases ha with rfl | rfl <;> simp only [Access.inRange] <;> omega
      | some p =>
        obtain ⟨d, hd, hp, _, _⟩ := memchr_eq_some hm
        have hoff : p - hay.begin = i + d := by omega
        simp only [hoff]
        have hlog : ∀ a ∈ [Access.sub (hay.length - needle.length) i,
            Access.hay i (hay.length - needle.length - i + 1)] ++
            [Access.hay (i + d) needle.length, Access.needle 0 needle.length],
            a.inRange hay.length needle.length := by
          intro a ha
          simp only [List.mem_cons, List.mem_append, List.mem_singleton, List.not_mem_nil,
            or_false] at ha
          rcases ha with (rfl | rfl) | (rfl | rfl) <;> simp only [Access.inRange] <;> omega
        by_cases hc : memcmp mem (hay.begin + (i + d)) needle.begin needle.length = 0
        · simp only [hc, if_true]
          exact ⟨i + d, _, rfl, rfl, hlog⟩
        · simp only [hc, if_false]
          rw [size_add_eq (by omega)]
          obtain ⟨r, t, h1, h2, h3⟩ := ih (i + d + 1) (by omega) (by omega)
          refine ⟨r, _, by rw [h1]; rfl, h2, ?_⟩
          intro a ha
          rcases List.mem_append.mp ha with ha | ha
          · exact hlog a ha
          · exact h3 a ha
    · simp only [hil, if_false]
      exact ⟨SV_NPOS, [], rfl, rfl, fun a ha => absurd ha (List.not_mem_nil a)⟩

theorem rfind_substr_loop_traced_spec (mem : Memory) (hay needle : StringView)
    (hi : Nat) (hhi : hi + needle.length ≤ hay.length) (hn : needle.length ≠ 0) :
    ∀ fuel i, i ≤ hi + 1 → i + 1 ≤ fuel →
      ∃ r t, rfind_substr_loop_traced mem hay needle (mem needle.begin) fuel i = some (r, t) ∧
        rfind_substr_loop mem hay needle (mem needle.begin) fuel i = some r ∧
        ∀ a ∈ t, a.inRange hay.length needle.length := by
  intro fuel
  induction fuel with
  | zero => intro i _ hf; omega
  | succ fuel ih =>
    intro i hile hf
    unfold rfind_substr_loop_traced rfind_substr_loop
    by_cases hi0 : i = 0
    · simp only [hi0, ne_eq, not_true_eq_false, if_false]
      exact ⟨SV_NPOS, [], rfl, rfl, fun a ha => absurd ha (List.not_mem_nil a)⟩
    · simp only [ne_eq, hi0, not_false_eq_true, if_true]
      cases hm : sv_memrchr_ mem hay.begin (mem needle.begin) i with
      | none =>
        refine ⟨SV_NPOS, _, rfl, rfl, ?_⟩
        intro a ha
        simp only [List.mem_singleton] at ha
        subst ha
        simp only [Access.inRange]
        omega
      | some p =>
        obtain ⟨d, hd, hp, _, _⟩ := sv_memrchr_eq_some hm
        have hoff : p - hay.begin = d := by omega
        simp only [hoff]
        have hlog : ∀ a ∈ [Access.hay 0 i] ++
            [Access.hay d needle.length, Access.needle 0 needle.length],
            a.inRange hay.length needle.length := by
          intro a ha
          simp only [List.mem_cons, List.mem_append, List.mem_singleton, List.not_mem_nil,
            or_false] at ha
          rcases ha with rfl | (rfl | rfl) <;> simp only [Access.inRange] <;> omega
        by_cases hc : memcmp mem (hay.begin + d) needle.begin needle.length = 0
        · simp only [hc, if_true]
          exact ⟨d, _, rfl, rfl, hlog⟩
        · simp only [hc, if_false]
          obtain ⟨r, t, h1, h2, h3⟩ := ih d (by omega) (by omega)
          refine ⟨r, _, by rw [h1]; rfl, h2, ?_⟩
          intro a ha
          rcases List.mem_append.mp ha with ha | ha
          · exact hlog a ha
          · exact h3 a ha

theorem sv_find_char_from_traced_spec (mem : Memory) (sv : StringView) (pos : Nat) (c : Byte)
    (hmax : sv.length ≤ SIZE_MAX) :
    (sv_find_char_from_traced mem sv pos c).1 = sv_find_char_from mem sv pos c ∧
    ∀ a ∈ (sv_find_char_from_traced mem sv pos c).2, a.inRange sv.length 0 := by
  have hclamp : (if pos > sv.length then sv.length else pos) = min pos sv.length := by
    split <;> omega
  unfold sv_find_char_from_traced sv_find_char_from
  by_cases h0 : sv.length = 0
  · simp [h0]
  · simp only [h0, if_false, hclamp]
    rw [size_sub_eq (by omega) hmax]
    have hlog : ∀ a ∈ [Access.sub sv.length (min pos sv.length),
        Access.hay (min pos sv.length) (sv.length - min pos sv.length)],
        a.inRange sv.length 0 := by
      intro a ha
      simp only [List.mem_cons, List.mem_singleton, List.not_mem_nil, or_false] at ha
      rcases ha with rfl | rfl <;> simp only [Access.inRange] <;> omega
    cases memchr mem (sv.begin + min pos sv.length) c (sv.length - min pos sv.length) with
    | none => exact ⟨rfl, hlog⟩
    | some p => exact ⟨rfl, hlog⟩

theorem sv_rfind_char_from_traced_spec (mem : Memory) (sv : StringView) (pos : Nat) (c : Byte)
    (hmax : sv.length ≤ SIZE_MAX) :
    (sv_rfind_char_from_traced mem sv pos c).1 = sv_rfind_char_from mem sv pos c ∧
    ∀ a ∈ (sv_rfind_char_from_traced mem sv pos c).2, a.inRange sv.length 0 := by
  unfold sv_rfind_char_from_traced sv_rfind_char_from
  by_cases h0 : sv.length = 0
  · simp [h0]
  · have hclamp : (if pos ≥ sv.length then size_sub sv.length 1 else pos)
        = min pos (sv.length - 1) := by
      rw [size_sub_eq (by omega) hmax]
      split <;> omega
    simp only [h0, if_false, hclamp]
    rw [size_add_eq (by omega)]
    have hlog : ∀ a ∈ (if pos ≥ sv.length then [Access.sub sv.length 1] else []) ++
        [Access.hay 0 (min pos (sv.length - 1) + 1)], a.inRange sv.length 0 := by
      intro a ha
      rcases List.mem_append.mp ha with ha | ha
      · split at ha
        · simp only [List.mem_singleton] at ha
          subst ha
          simp only [Access.inRange]
          omega
        · exact absurd ha (List.not_mem_nil a)
      · simp only [List.mem_singleton] at ha
        subst ha
        simp only [Access.inRange]
        omega
    cases sv_memrchr_ mem sv.begin c (min pos (sv.length - 1) + 1) with
    | none => exact ⟨rfl, hlog⟩
    | some p => exact ⟨rfl, hlog⟩

theorem sv_find_substr_from_traced_spec (mem : Memory) (hay : StringView) (pos : Nat)
    (needle : StringView) (hmax : hay.length ≤ SIZE_MAX) :
    ∃ r t, sv_find_substr_from_traced mem hay pos needle = some (r, t) ∧
      sv_find_substr_from mem hay pos needle = some r ∧
      ∀ a ∈ t, a.inRange hay.length needle.length := by
  have hclamp : (if pos > hay.length then hay.length else pos) = min pos hay.length := by
    split <;> omega
  unfold sv_find_substr_from_traced sv_find_substr_from
  simp only [hclamp]
  generalize hp : min pos hay.length = q
  have hqle : q ≤ hay.length := by omega
  by_cases hn : needle.length = 0
  · simp only [hn, if_true]
    exact ⟨q, [], rfl, rfl, fun a ha => absurd ha (List.not_mem_nil a)⟩
  · simp only [hn, if_false]
    rw [size_sub_eq hqle hmax]
    by_cases hgt : needle.length > hay.length - q
    · simp only [hgt, if_true]
      refine ⟨SV_NPOS, _, rfl, rfl, ?_⟩
      intro a ha
      simp only [List.mem_singleton] at ha
      subst ha
      simp only [Access.inRange]
      omega
    · simp only [hgt, if_false]
      rw [size_sub_eq (by omega) hmax]
      obtain ⟨r, t, h1, h2, h3⟩ := find_substr_loop_traced_spec mem hay needle hn (by omega)
        hmax (hay.length + 1) q (by omega) (by omega)
      refine ⟨r, _, by rw [h1]; rfl, h2, ?_⟩
      intro a ha
      rcases List.mem_append.mp ha with ha | ha
      · simp only [List.mem_cons, List.mem_singleton, List.not_mem_nil, or_false] at ha
        rcases ha with rfl | rfl | rfl <;> simp only [Access.inRange] <;> omega
      · exact h3 a ha

theorem sv_rfind_substr_from_traced_spec (mem : Memory) (hay : StringView) (pos : Nat)
    (needle : StringView) (hv : hay.valid) :
    ∃ r t, sv_rfind_substr_from_traced mem hay pos needle = some (r, t) ∧
      sv_rfind_substr_from mem hay pos needle = some r ∧
      ∀ a ∈ t, a.inRange hay.length needle.length := by
  have hlt := hv.length_lt
  have hclamp : (if pos > hay.length then hay.length else pos) = min pos hay.length := by
    split <;> omega
  unfold sv_rfind_substr_from_traced sv_rfind_substr_from
  simp only [hclamp]
  generalize hp : min pos hay.length = q
  have hqle : q ≤ hay.length := by omega
  by_cases hn : needle.length = 0
  · simp only [hn, if_true]
    exact ⟨q, [], rfl, rfl, fun a ha => absurd ha (List.not_mem_nil a)⟩
  · simp only [hn, if_false]
    by_cases hgt : needle.length > hay.length
    · simp only [hgt, if_true]
      exact ⟨SV_NPOS, [], rfl, rfl, fun a ha => absurd ha (List.not_mem_nil a)⟩
    · simp only [hgt, if_false]
      rw [size_add_eq (show q + 1 ≤ SIZE_MAX by omega)]
      by_cases hclose : q + 1 < needle.length
      · simp only [hclose, if_true]
        exact ⟨SV_NPOS, [], rfl, rfl, fun a ha => absurd ha (List.not_mem_nil a)⟩
      · simp only [hclose, if_false]
        rw [size_sub_eq (by omega) (by omega)]
        have hclamp2 : (if q > hay.length - needle.length then hay.length - needle.length
            else q) = min q (hay.length - needle.length) := by
          split <;> omega
        simp only [hclamp2]
        generalize hw : min q (hay.length - needle.length) = w
        rw [size_add_eq (show w + 1 ≤ SIZE_MAX by omega)]
        obtain ⟨r, t, h1, h2, h3⟩ := rfind_substr_loop_traced_spec mem hay needle w (by omega)
          hn (hay.length + 1) (w + 1) (by omega) (by omega)
        refine ⟨r, _, by rw [h1]; rfl, h2, ?_⟩
        intro a ha
        rcases List.mem_append.mp ha with ha | ha
        · simp only [List.mem_cons, List.mem_singleton, List.not_mem_nil, or_false] at ha
          rcases ha with rfl | rfl <;> simp only [Access.inRange] <;> omega
        · exact h3 a ha

theorem sv_split_once_from_traced_spec (mem : Memory) (sv : StringView) (d : Byte) (pos : Nat)
    (ob oa : Option StringView) (hmax : sv.length ≤ SIZE_MAX) :
    (sv_split_once_from_traced mem sv d pos ob oa).1 = sv_split_once_from mem sv d pos ob oa ∧
    ∀ a ∈ (sv_split_once_from_traced mem sv d pos ob oa).2, a.inRange sv.length 0 := by
  have hclamp : (if pos > sv.length then sv.length else pos) = min pos sv.length := by
    split <;> omega
  unfold sv_split_once_from_traced sv_split_once_from
  by_cases h0 : sv.length = 0
  · simp [h0]
  · simp only [h0, ne_eq, not_false_eq_true, if_true, hclamp]
    generalize hq : min pos sv.length = q
    have hqle : q ≤ sv.length := by omega
    rw [size_sub_eq hqle hmax]
    have hlog : ∀ a ∈ [Access.sub sv.length q, Access.hay q (sv.length - q)],
        a.inRange sv.length 0 := by
      intro a ha
      simp only [List.mem_cons, List.mem_singleton, List.not_mem_nil, or_false] at ha
      rcases ha with rfl | rfl <;> simp only [Access.inRange] <;> omega
    cases hm : memchr mem (sv.begin + q) d (sv.length - q) with
    | none => exact ⟨rfl, hlog⟩
    | some p =>
      obtain ⟨k, hk, hp, _, _⟩ := memchr_eq_some hm
      have hoff : p - sv.begin = q + k := by omega
      refine ⟨rfl, ?_⟩
      intro a ha
      simp only [hoff] at ha
      rcases List.mem_append.mp ha with ha | ha
      · exact hlog a ha
      · split at ha
        · exact absurd ha (List.not_mem_nil a)
        · rw [size_sub_eq (by omega) hmax] at ha
          simp only [List.mem_cons, List.mem_singleton, List.not_mem_nil, or_false] at ha
          rcases ha with rfl | rfl <;> simp only [Access.inRange] <;> omega

/-- C29: for every valid view, every position `pos` (any natural number, so
every `size_t` value, `pos > length` and `SIZE_MAX` included), every needle
and every byte: the runs of `sv_find_char_from`, `sv_rfind_char_from`,
`sv_find_substr_from`, `sv_rfind_substr_from` and `sv_split_once_from` end,
return what the functions return, and touch only byte ranges whose indices are
below the length of the view (below `needle.length` for the needle), with no
subtraction that underflows. -/
theorem positions_stay_in_range (mem : Memory) (hay needle : StringView) (pos : Nat)
    (c : Byte) (ob oa : Option StringView) (hv : hay.valid) :
    ((sv_find_char_from_traced mem hay pos c).1 = sv_find_char_from mem hay pos c ∧
      ∀ a ∈ (sv_find_char_from_traced mem hay pos c).2, a.inRange hay.length 0) ∧
    ((sv_rfind_char_from_traced mem hay pos c).1 = sv_rfind_char_from mem hay pos c ∧
      ∀ a ∈ (sv_rfind_char_from_traced mem hay pos c).2, a.inRange hay.length 0) ∧
    (∃ r t, sv_find_substr_from_traced mem hay pos needle = some (r, t) ∧
      sv_find_substr_from mem hay pos needle = some r ∧
      ∀ a ∈ t, a.inRange hay.length needle.length) ∧
    (∃ r t, sv_rfind_substr_from_traced mem hay pos needle = some (r, t) ∧
      sv_rfind_substr_from mem hay pos needle = some r ∧
      ∀ a ∈ t, a.inRange hay.length needle.length) ∧
    ((sv_split_once_from_traced mem hay c pos ob oa).1
        = sv_split_once_from mem hay c pos ob oa ∧
      ∀ a ∈ (sv_split_once_from_traced mem hay c pos ob oa).2, a.inRange hay.length 0) := by
  have hmax : hay.length ≤ SIZE_MAX := Nat.le_of_lt hv.length_lt
  exact ⟨sv_find_char_from_traced_spec mem hay pos c hmax,
    sv_rfind_char_from_traced_spec mem hay pos c hmax,
    sv_find_substr_from_traced_spec mem hay pos needle hmax,
    sv_rfind_substr_from_traced_spec mem hay pos needle hv,
    sv_split_once_from_traced_spec mem hay c pos ob oa hmax⟩

/-- Witness for C29 at `"banana"`, needle `"ana"` and `pos = SIZE_MAX`. -/
theorem positions_stay_in_range_witness :
    (StringView.mk 1 6).valid ∧
    (((sv_find_char_from_traced bananaMem ⟨1, 6⟩ SIZE_MAX 97).1
        = sv_find_char_from bananaMem ⟨1, 6⟩ SIZE_MAX 97 ∧
      ∀ a ∈ (sv_find_char_from_traced bananaMem ⟨1, 6⟩ SIZE_MAX 97).2,
        a.inRange (StringView.mk 1 6).length 0) ∧
    ((sv_rfind_char_from_traced bananaMem ⟨1, 6⟩ SIZE_MAX 97).1
        = sv_rfind_char_from bananaMem ⟨1, 6⟩ SIZE_MAX 97 ∧
      ∀ a ∈ (sv_rfind_char_from_traced bananaMem ⟨1, 6⟩ SIZE_MAX 97).2,
        a.inRange (StringView.mk 1 6).length 0) ∧
    (∃ r t, sv_find_substr_from_traced bananaMem ⟨1, 6⟩ SIZE_MAX ⟨8, 3⟩ = some (r, t) ∧
      sv_find_substr_from bananaMem ⟨1, 6⟩ SIZE_MAX ⟨8, 3⟩ = some r ∧
      ∀ a ∈ t, a.inRange (StringView.mk 1 6).length (StringView.mk 8 3).length) ∧
    (∃ r t, sv_rfind_substr_from_traced bananaMem ⟨1, 6⟩ SIZE_MAX ⟨8, 3⟩ = some (r, t) ∧
      sv_rfind_substr_from bananaMem ⟨1, 6⟩ SIZE_MAX ⟨8, 3⟩ = some r ∧
      ∀ a ∈ t, a.inRange (StringView.mk 1 6).length (StringView.mk 8 3).length) ∧
    ((sv_split_once_from_traced bananaMem ⟨1, 6⟩ 97 SIZE_MAX (some sv_empty) (some sv_empty)).1
        = sv_split_once_from bananaMem ⟨1, 6⟩ 97 SIZE_MAX (some sv_empty) (some sv_empty) ∧
      ∀ a ∈ (sv_split_once_from_traced bananaMem ⟨1, 6⟩ 97 SIZE_MAX
          (some sv_empty) (some sv_empty)).2,
        a.inRange (StringView.mk 1 6).length 0)) :=
  ⟨by decide,
    positions_stay_in_range bananaMem ⟨1, 6⟩ ⟨8, 3⟩ SIZE_MAX 97 (some sv_empty) (some sv_empty)
      (by decide)⟩

/-! ## A failed parse leaves the output alone -/

/-- The digit part of `sv_to_uint64` hands the output location back unchanged
when it returns `false`. -/
theorem sv_to_uint64_digits_false (mem : Memory) (p n : Nat) (out : Option Nat)
    (h : (sv_to_uint64_digits mem p n out).1 = false) :
    (sv_to_uint64_digits mem p n out).2 = out := by
  unfold sv_to_uint64_digits at h ⊢
  cases hl : parse_digits_loop mem UINT64_MAX p 0 false n with
  | none => rfl
  | some r =>
    obtain ⟨acc, got⟩ := r
    rw [hl] at h
    cases got with
    | false => rfl
    | true => simp at h

/-- `sv_to_uint64` hands the output location back unchanged when it returns
`false`. -/
theorem sv_to_uint64_false (mem : Memory) (sv : StringView) (out : Option Nat)
    (h : (sv_to_uint64 mem sv out).1 = false) : (sv_to_uint64 mem sv out).2 = out := by
  unfold sv_to_uint64 at h ⊢
  dsimp only at h ⊢
  split_ifs at h ⊢
  · rfl
  · rfl
  · exact sv_to_uint64_digits_false mem _ _ out h
  · exact sv_to_uint64_digits_false mem _ _ out h

/-- The digit part of `sv_to_int64` hands the output location back unchanged
when it returns `false`. -/
theorem sv_to_int64_digits_false (mem : Memory) (p n : Nat) (neg : Bool) (out : Option Int)
    (h : (sv_to_int64_digits mem p n neg out).1 = false) :
    (sv_to_int64_digits mem p n neg out).2 = out := by
  unfold sv_to_int64_digits at h ⊢
  dsimp only at h ⊢
  cases hl : parse_digits_loop mem (if neg = true then u64 (INT64_MAX + 1) else INT64_MAX)
      p 0 false n with
  | none => rfl
  | some r =>
    obtain ⟨acc, got⟩ := r
    rw [hl] at h
    cases got with
    | false => rfl
    | true =>
      simp only [Bool.not_true, Bool.false_eq_true, if_false] at h
      split_ifs at h

/-- `sv_to_int64` hands the output location back unchanged when it returns
`false`. -/
theorem sv_to_int64_false (mem : Memory) (sv : StringView) (out : Option Int)
    (h : (sv_to_int64 mem sv out).1 = false) : (sv_to_int64 mem sv out).2 = out := by
  unfold sv_to_int64 at h ⊢
  dsimp only at h ⊢
  split_ifs at h ⊢
  · rfl
  · rfl
  · exact sv_to_int64_digits_false mem _ _ _ out h
  · exact sv_to_int64_digits_false mem _ _ _ out h

/-- `sv_to_long` hands the output location back unchanged when it returns
`false`. -/
theorem sv_to_long_false (long_max : Nat) (mem : Memory) (sv : StringView) (tmp0 : Int)
    (out : Option Int) (h : (sv_to_long long_max mem sv tmp0 out).1 = false) :
    (sv_to_long long_max mem sv tmp0 out).2 = out := by
  unfold sv_to_long at h ⊢
  split_ifs at h ⊢
  · rfl
  · cases hr : sv_to_int64 mem sv (some tmp0) with
    | mk ok t =>
      rw [hr] at h
      cases ok with
      | false => rfl
      | true =>
        dsimp only at h ⊢
        split_ifs at h ⊢
        rfl
  · cases hr : sv_to_int64 mem sv (some tmp0) with
    | mk ok t =>
      rw [hr] at h
      cases ok with
      | false => rfl
      | true => simp at h

/-- The part of `sv_to_double` after the scan hands the output location back
unchanged when it returns `false`. -/
theorem double_finish_false {F : Type} (fo : FloatOps F) (s : DoubleScan F) (out : Option F)
    (h : (double_finish fo s out).1 = false) : (double_finish fo s out).2 = out := by
  unfold double_finish at h ⊢
  dsimp only at h ⊢
  split_ifs at h ⊢ <;>
    first
    | rfl
    | (cases hs : double_scale_up fo 9 (double_value fo s) (double_exp_total s) with
        | none => rfl
        | some scaled => rw [hs] at h; simp at h)

/-- `sv_to_double` hands the output location back unchanged when it returns
`false`. -/
theorem sv_to_double_false {F : Type} (fo : FloatOps F) (mem : Memory) (sv : StringView)
    (out : Option F) (h : (sv_to_double fo mem sv out).1 = false) :
    (sv_to_double fo mem sv out).2 = out := by
  unfold sv_to_double at h ⊢
  split_ifs at h ⊢
  · rfl
  · cases hs : double_scan fo mem sv with
    | none => rfl
    | some s => rw [hs] at h; exact double_finish_false fo s out h

/-- C21: for `sv_to_uint64`, `sv_to_int64`, `sv_to_long` and `sv_to_double`,
every memory, every view and every output pointer (null or not): when the
function returns `false`, the output location is the one passed in, holding the
value it held before the call.  The four closed parts show the failure path
taken with an output that holds `7`. -/
theorem parse_failure_keeps_output {F : Type} (fo : FloatOps F) (mem : Memory)
    (sv : StringView) (long_max : Nat) (tmp0 : Int) (outU : Option Nat)
    (outI outL : Option Int) (outD : Option F) :
    ((sv_to_uint64 mem sv outU).1 = false → (sv_to_uint64 mem sv outU).2 = outU) ∧
    ((sv_to_int64 mem sv outI).1 = false → (sv_to_int64 mem sv outI).2 = outI) ∧
    ((sv_to_long long_max mem sv tmp0 outL).1 = false →
      (sv_to_long long_max mem sv tmp0 outL).2 = outL) ∧
    ((sv_to_double fo mem sv outD).1 = false → (sv_to_double fo mem sv outD).2 = outD) ∧
    sv_to_uint64 (strMem "12x") (strView "12x") (some 7) = (false, some 7) ∧
    sv_to_int64 (strMem "-") (strView "-") (some 7) = (false, some 7) ∧
    sv_to_long 2147483647 (strMem "2147483648") (strView "2147483648") 3 (some 7)
      = (false, some 7) ∧
    sv_to_double ieee (strMem "1e309") (strView "1e309") (some (Dbl.fin false 7 0))
      = (false, some (Dbl.fin false 7 0)) :=
  ⟨sv_to_uint64_false mem sv outU, sv_to_int64_false mem sv outI,
    sv_to_long_false long_max mem sv tmp0 outL, sv_to_double_false fo mem sv outD,
    by decide, by decide, by decide, by decide⟩

/-- Witness for C21: four failing calls whose output held `7` before the call
and holds `7` after it. -/
theorem parse_failure_keeps_output_witness :
    (sv_to_uint64 (strMem "12x") (strView "12x") (some 7)).2 = some 7 ∧
    (sv_to_int64 (strMem "12x") (strView "12x") (some 7)).2 = some 7 ∧
    (sv_to_long 2147483647 (strMem "12x") (strView "12x") 3 (some 7)).2 = some 7 ∧
    (sv_to_double ieee (strMem "12x") (strView "12x") (some (Dbl.fin false 7 0))).2
      = some (Dbl.fin false 7 0) :=
  ⟨(parse_failure_keeps_output ieee (strMem "12x") (strView "12x") 2147483647 3
      (some 7) (some 7) (some 7) (some (Dbl.fin false 7 0))).1 (by decide),
   (parse_failure_keeps_output ieee (strMem "12x") (strView "12x") 2147483647 3
      (some 7) (some 7) (some 7) (some (Dbl.fin false 7 0))).2.1 (by decide),
   (parse_failure_keeps_output ieee (strMem "12x") (strView "12x") 2147483647 3
      (some 7) (some 7) (some 7) (some (Dbl.fin false 7 0))).2.2.1 (by decide),
   (parse_failure_keeps_output ieee (strMem "12x") (strView "12x") 2147483647 3
      (some 7) (some 7) (some 7) (some (Dbl.fin false 7 0))).2.2.2.1 (by decide)⟩

/-! ## `sv_to_double`: the scan and the grammar -/

theorem digitRun_cons_of_digit {b : Byte} (h : 48 ≤ b.val ∧ b.val ≤ 57) (bs : List Byte) :
    digitRun (b :: bs) = b :: digitRun bs := by
  simp [digitRun, List.takeWhile, isDigitB, isDigitByte, h]

theorem digitRun_cons_of_not {b : Byte} (h : ¬(48 ≤ b.val ∧ b.val ≤ 57)) (bs : List Byte) :
    digitRun (b :: bs) = [] := by
  simp [digitRun, List.takeWhile, isDigitB, isDigitByte, h]

theorem digitRest_cons_of_digit {b : Byte} (h : 48 ≤ b.val ∧ b.val ≤ 57) (bs : List Byte) :
    digitRest (b :: bs) = digitRest bs := by
  simp [digitRest, List.dropWhile, isDigitB, isDigitByte, h]

theorem digitRest_cons_of_not {b : Byte} (h : ¬(48 ≤ b.val ∧ b.val ≤ 57)) (bs : List Byte) :
    digitRest (b :: bs) = b :: bs := by
  simp [digitRest, List.dropWhile, isDigitB, isDigitByte, h]

theorem digitRun_append_digitRest (bs : List Byte) : digitRun bs ++ digitRest bs = bs :=
  List.takeWhile_append_dropWhile isDigitB bs

theorem digitRun_digits (bs : List Byte) : ∀ b ∈ digitRun bs, isDigitByte b := by
  intro b hb
  have := List.mem_takeWhile_imp hb
  simpa [isDigitB] using this

theorem digitRun_length_le (bs : List Byte) : (digitRun bs).length ≤ bs.length := by
  have h := congrArg List.length (digitRun_append_digitRest bs)
  rw [List.length_append] at h
  omega

theorem digitRun_eq_self {bs : List Byte} (h : digitRest bs = []) : digitRun bs = bs := by
  have := digitRun_append_digitRest bs
  rw [h, List.append_nil] at this
  exact this

/-- A run of digits followed by something that does not start with a digit is
split by `digitRun` and `digitRest` at that place. -/
theorem digitRun_append {ds rest : List Byte} (hd : ∀ b ∈ ds, isDigitByte b)
    (hr : ∀ b, rest.head? = some b → ¬isDigitByte b) :
    digitRun (ds ++ rest) = ds ∧ digitRest (ds ++ rest) = rest := by
  induction ds with
  | nil =>
    cases rest with
    | nil => exact ⟨rfl, rfl⟩
    | cons b rest =>
      have hb : ¬(48 ≤ b.val ∧ b.val ≤ 57) := hr b rfl
      exact ⟨digitRun_cons_of_not hb rest, digitRest_cons_of_not hb rest⟩
  | cons d ds ih =>
    have hdig : 48 ≤ d.val ∧ d.val ≤ 57 := hd d (List.mem_cons_self d ds)
    have ih2 := ih (fun b hb => hd b (List.mem_cons_of_mem d hb))
    rw [List.cons_append, digitRun_cons_of_digit hdig, digitRest_cons_of_digit hdig]
    exact ⟨by rw [ih2.1], ih2.2⟩

/-- What is left when the digits at `p` are passed. -/
theorem bytesAt_after_digitRun (mem : Memory) : ∀ (n p : Nat),
    bytesAt mem (p + (digitRun (bytesAt mem p n)).length)
      (n - (digitRun (bytesAt mem p n)).length) = digitRest (bytesAt mem p n) := by
  intro n
  induction n with
  | zero => intro p; rfl
  | succ n ih =>
    intro p
    by_cases h : 48 ≤ (mem p).val ∧ (mem p).val ≤ 57
    · simp only [bytesAt, digitRun_cons_of_digit h, digitRest_cons_of_digit h, List.length_cons]
      rw [show p + ((digitRun (bytesAt mem (p + 1) n)).length + 1)
          = p + 1 + (digitRun (bytesAt mem (p + 1) n)).length by omega,
        show n + 1 - ((digitRun (bytesAt mem (p + 1) n)).length + 1)
          = n - (digitRun (bytesAt mem (p + 1) n)).length by omega]
      exact ih (p + 1)
    · simp only [bytesAt, digitRun_cons_of_not h, digitRest_cons_of_not h, List.length_nil,
        Nat.add_zero, Nat.sub_zero]

/-- The integer-part loop consumes the longest run of digits. -/
theorem double_int_loop_eq (mem : Memory) : ∀ (n p ip : Nat) (hi : Bool),
    double_int_loop mem n p ip hi =
      (p + (digitRun (bytesAt mem p n)).length, n - (digitRun (bytesAt mem p n)).length,
        intAcc ip (digitRun (bytesAt mem p n)), hi || !(digitRun (bytesAt mem p n)).isEmpty) := by
  intro n
  induction n with
  | zero => intro p ip hi; simp [double_int_loop, bytesAt, digitRun, intAcc]
  | succ n ih =>
    intro p ip hi
    unfold double_int_loop
    by_cases h : 48 ≤ (mem p).val ∧ (mem p).val ≤ 57
    · simp only [h, and_self, if_true, bytesAt, digitRun_cons_of_digit h, List.length_cons]
      rw [ih]
      simp only [intAcc, List.foldl_cons, List.isEmpty_cons, Bool.not_false, Bool.or_true,
        Bool.true_or, Prod.mk.injEq]
      and_intros <;> first | omega | rfl | trivial
    · simp only [h, if_false, bytesAt, digitRun_cons_of_not h, List.length_nil, Nat.add_zero,
        Nat.sub_zero, intAcc, List.foldl_nil, List.isEmpty_nil, Bool.not_true, Bool.or_false]

/-- The exponent-digit loop consumes the longest run of digits. -/
theorem double_exp_loop_eq (mem : Memory) : ∀ (n p ev : Nat) (got : Bool),
    double_exp_loop mem n p ev got =
      (p + (digitRun (bytesAt mem p n)).length, n - (digitRun (bytesAt mem p n)).length,
        expAcc ev (digitRun (bytesAt mem p n)), got || !(digitRun (bytesAt mem p n)).isEmpty) := by
  intro n
  induction n with
  | zero => intro p ev got; simp [double_exp_loop, bytesAt, digitRun, expAcc]
  | succ n ih =>
    intro p ev got
    unfold double_exp_loop
    by_cases h : 48 ≤ (mem p).val ∧ (mem p).val ≤ 57
    · simp only [h, and_self, if_true, bytesAt, digitRun_cons_of_digit h, List.length_cons]
      rw [ih]
      simp only [expAcc, List.foldl_cons, List.isEmpty_cons, Bool.not_false, Bool.or_true,
        Bool.true_or, Prod.mk.injEq]
      and_intros <;> first | omega | rfl | trivial
    · simp only [h, if_false, bytesAt, digitRun_cons_of_not h, List.length_nil, Nat.add_zero,
        Nat.sub_zero, expAcc, List.foldl_nil, List.isEmpty_nil, Bool.not_true, Bool.or_false]

/-- The fractional-part loop consumes the longest run of digits. -/
theorem double_frac_loop_eq {F : Type} (fo : FloatOps F) (mem : Memory) :
    ∀ (n p fa fd : Nat) (hf : Bool) (ft ts : F),
    double_frac_loop fo mem n p fa fd hf ft ts =
      { p := p + (digitRun (bytesAt mem p n)).length
        n := n - (digitRun (bytesAt mem p n)).length
        frac_acc := (fracFold fo ⟨fa, fd, ft, ts⟩ (digitRun (bytesAt mem p n))).frac_acc
        frac_digits := (fracFold fo ⟨fa, fd, ft, ts⟩ (digitRun (bytesAt mem p n))).frac_digits
        have_frac := hf || !(digitRun (bytesAt mem p n)).isEmpty
        frac_tail := (fracFold fo ⟨fa, fd, ft, ts⟩ (digitRun (bytesAt mem p n))).frac_tail
        tail_scale := (fracFold fo ⟨fa, fd, ft, ts⟩ (digitRun (bytesAt mem p n))).tail_scale } := by
  intro n
  induction n with
  | zero => intro p fa fd hf ft ts; simp [double_frac_loop, bytesAt, digitRun, fracFold]
  | succ n ih =>
    intro p fa fd hf ft ts
    unfold double_frac_loop
    by_cases h : 48 ≤ (mem p).val ∧ (mem p).val ≤ 57
    · simp only [h, and_self, if_true, bytesAt, digitRun_cons_of_digit h, List.length_cons]
      by_cases h19 : fd < 19
      · rw [if_pos h19, ih]
        simp only [fracFold, List.foldl_cons, fracStep, h19, if_true, List.isEmpty_cons,
          Bool.not_false, Bool.or_true, Bool.true_or, FracState.mk.injEq]
        and_intros <;> first | omega | rfl | trivial
      · rw [if_neg h19, ih]
        simp only [fracFold, List.foldl_cons, fracStep, h19, if_false, List.isEmpty_cons,
          Bool.not_false, Bool.or_true, Bool.true_or, FracState.mk.injEq]
        and_intros <;> first | omega | rfl | trivial
    · simp only [h, if_false, bytesAt, digitRun_cons_of_not h, List.length_nil, Nat.add_zero,
        Nat.sub_zero, fracFold, List.foldl_nil, List.isEmpty_nil, Bool.not_true, Bool.or_false]

theorem digitRest_eq_nil_iff (mem : Memory) (n p : Nat) :
    digitRest (bytesAt mem p n) = [] ↔ n - (digitRun (bytesAt mem p n)).length = 0 := by
  rw [← bytesAt_after_digitRun, ← List.length_eq_zero, bytesAt_length]

/-- The digits of the exponent and the check that nothing follows them. -/
theorem double_exp_digits_eq {F : Type} (mem : Memory) (p n : Nat) (s : Nat → DoubleScan F) :
    (if (!(double_exp_loop mem n p 0 false).2.2.2) = true then none
      else if ¬(double_exp_loop mem n p 0 false).2.1 = 0 then none
      else some (s (double_exp_loop mem n p 0 false).2.2.1))
    = if digitRun (bytesAt mem p n) = [] ∨ ¬digitRest (bytesAt mem p n) = [] then none
      else some (s (expAcc 0 (bytesAt mem p n))) := by
  rw [double_exp_loop_eq]
  by_cases h1 : digitRun (bytesAt mem p n) = []
  · simp [h1]
  · by_cases h2 : digitRest (bytesAt mem p n) = []
    · have h3 := (digitRest_eq_nil_iff mem n p).1 h2
      have e := digitRun_eq_self h2
      rw [e] at h1 h3
      simp [h1, h2, h3, e]
    · have h3 : n - (digitRun (bytesAt mem p n)).length ≠ 0 :=
        fun h => h2 ((digitRest_eq_nil_iff mem n p).2 h)
      simp [h1, h2, h3]

/-- The exponent part of the scan, on the bytes that are left. -/
theorem double_scan_exponent_eq {F : Type} (mem : Memory) (p n : Nat) (neg : Bool)
    (ip : Nat) (hi : Bool) (fa fd : Nat) (hf : Bool) (ft : F) :
    double_scan_exponent mem p n neg ip hi fa fd hf ft =
      (parseExponent (bytesAt mem p n)).map (fun e =>
        DoubleScan.mk neg ip hi fa fd hf ft e.isSome (exponentNeg e)
          (expAcc 0 (exponentDigits e))) := by
  unfold double_scan_exponent
  cases n with
  | zero => simp [bytesAt, parseExponent, exponentNeg, exponentDigits, expAcc]
  | succ m =>
    simp only [bytesAt, parseExponent, Nat.add_sub_cancel, ne_eq, Nat.add_one_ne_zero,
      not_false_eq_true, true_and]
    by_cases he : mem p = 101 ∨ mem p = 69
    · rw [if_pos he, if_pos he]
      cases m with
      | zero => simp [bytesAt, parseSign, digitRun]
      | succ k =>
        simp only [bytesAt, parseSign, Nat.add_sub_cancel, Nat.add_one_ne_zero, if_false]
        by_cases h43 : mem (p + 1) = 43
        · have hb : bytesAt mem (p + 1) (k + 1) = mem (p + 1) :: bytesAt mem (p + 1 + 1) k := rfl
          simp only [h43, true_or, if_true]
          cases k with
          | zero => simp [bytesAt, digitRun]
          | succ j =>
            rw [if_neg (Nat.add_one_ne_zero j), double_exp_digits_eq]
            split_ifs <;> simp [exponentNeg, exponentDigits]
        · by_cases h45 : mem (p + 1) = 45
          · simp only [h45, or_true, if_true]
            cases k with
            | zero => simp [bytesAt, digitRun]
            | succ j =>
              rw [if_neg (Nat.add_one_ne_zero j), double_exp_digits_eq]
              split_ifs <;> simp_all [exponentNeg, exponentDigits]
          · simp only [h43, h45, or_self, if_false]
            rw [double_exp_digits_eq]
            have hb : bytesAt mem (p + 1) (k + 1) = mem (p + 1) :: bytesAt mem (p + 1 + 1) k :=
              rfl
            rw [hb]
            split_ifs <;> simp [exponentNeg, exponentDigits]
    · rw [if_neg he, if_neg he]
      simp

/-- The mantissa part of the scan, on the bytes that are left. -/
theorem double_scan_mantissa_eq {F : Type} (fo : FloatOps F) (mem : Memory) (p n : Nat)
    (neg : Bool) (sg : Option Bool) (hneg : neg = decide (sg = some true)) :
    double_scan_mantissa fo mem p n neg =
      (parseMantissa sg (bytesAt mem p n)).map (DoubleLiteral.scan fo) := by
  unfold double_scan_mantissa parseMantissa
  rw [double_int_loop_eq]
  have hL := bytesAt_after_digitRun mem n p
  generalize p + (digitRun (bytesAt mem p n)).length = p1 at hL ⊢
  generalize n - (digitRun (bytesAt mem p n)).length = n1 at hL ⊢
  rw [← hL]
  cases n1 with
  | zero =>
    simp only [bytesAt, ne_eq, not_true_eq_false, false_and, if_false, Bool.false_or,
      Bool.not_false, Bool.and_true, Bool.not_eq_true']
    by_cases hd : digitRun (bytesAt mem p n) = []
    · simp [hd]
    · have hd2 : (digitRun (bytesAt mem p n)).isEmpty = false := by
        simpa [List.isEmpty_iff] using hd
      rw [double_scan_exponent_eq]
      simp [hd, hd2, bytesAt, parseExponent, DoubleLiteral.scan, fracFold, fracInit, hneg,
        exponentNeg, exponentDigits]
  | succ j =>
    have hb : bytesAt mem p1 (j + 1) = mem p1 :: bytesAt mem (p1 + 1) j := rfl
    rw [hb]
    simp only [ne_eq, Nat.add_one_ne_zero, not_false_eq_true, true_and, Nat.add_sub_cancel,
      Bool.false_or, Bool.not_false, Bool.and_true]
    by_cases h46 : mem p1 = 46
    · rw [if_pos h46, if_pos h46, double_frac_loop_eq]
      by_cases hd : digitRun (bytesAt mem (p1 + 1) j) = []
      · simp [hd]
      · have hd2 : (digitRun (bytesAt mem (p1 + 1) j)).isEmpty = false := by
          simpa [List.isEmpty_iff] using hd
        simp only [hd2, Bool.not_false, Bool.or_true, Bool.not_true, Bool.false_eq_true,
          if_false, Bool.and_false, hd]
        rw [double_scan_exponent_eq, bytesAt_after_digitRun]
        simp [DoubleLiteral.scan, fracInit, hneg, Option.map_map, Function.comp_def]
    · rw [if_neg h46, if_neg h46]
      by_cases hd : digitRun (bytesAt mem p n) = []
      · simp [hd]
      · have hd2 : (digitRun (bytesAt mem p n)).isEmpty = false := by
          simpa [List.isEmpty_iff] using hd
        rw [double_scan_exponent_eq]
        simp [hd, hd2, hb, DoubleLiteral.scan, fracFold, fracInit, hneg, Option.map_map,
          Function.comp_def]

/-- The scan of `sv_to_double`, on the bytes of the view: it reads the parts of
a literal, or fails when the bytes are not a literal. -/
theorem double_scan_eq {F : Type} (fo : FloatOps F) (mem : Memory) (sv : StringView)
    (h0 : sv.length ≠ 0) :
    double_scan fo mem sv = (parseLiteral (sv.bytes mem)).map (DoubleLiteral.scan fo) := by
  unfold double_scan parseLiteral StringView.bytes
  obtain ⟨j, hj⟩ := Nat.exists_eq_succ_of_ne_zero h0
  rw [hj]
  have hb : bytesAt mem sv.begin (j + 1) = mem sv.begin :: bytesAt mem (sv.begin + 1) j := rfl
  rw [hb]
  simp only [Nat.succ_eq_add_one, Nat.add_sub_cancel, parseSign]
  by_cases h43 : mem sv.begin = 43
  · simp only [h43, true_or, if_true]
    cases j with
    | zero => simp [bytesAt, parseMantissa, digitRun, digitRest]
    | succ i =>
      rw [if_neg (Nat.add_one_ne_zero i)]
      exact double_scan_mantissa_eq fo mem _ _ _ (some false) (by decide)
  · by_cases h45 : mem sv.begin = 45
    · simp only [h45, or_true, if_true]
      cases j with
      | zero => simp [bytesAt, parseMantissa, digitRun, digitRest]
      | succ i =>
        rw [if_neg (Nat.add_one_ne_zero i)]
        exact double_scan_mantissa_eq fo mem _ _ _ (some true) (by decide)
    · simp only [h43, h45, or_self, if_false]
      rw [← hb]
      exact double_scan_mantissa_eq fo mem _ _ _ none (by decide)

/-! ## `sv_to_double`: the recogniser and the grammar -/

theorem parseSign_append (bs : List Byte) :
    signBytes (parseSign bs).1 ++ (parseSign bs).2 = bs := by
  cases bs with
  | nil => rfl
  | cons b rest =>
    unfold parseSign
    by_cases h43 : b = 43
    · simp [h43, signBytes]
    · by_cases h45 : b = 45
      · simp [h45, signBytes]
      · simp [h43, h45, signBytes]

/-- A sign in front of something that does not start with a sign is read back. -/
theorem parseSign_signBytes (sg : Option Bool) (rest : List Byte)
    (h : ∀ b, rest.head? = some b → b ≠ 43 ∧ b ≠ 45) :
    parseSign (signBytes sg ++ rest) = (sg, rest) := by
  cases sg with
  | none =>
    cases rest with
    | nil => rfl
    | cons b r =>
      have hb := h b rfl
      simp [signBytes, parseSign, hb.1, hb.2]
  | some s =>
    cases s with
    | false => simp [signBytes, parseSign]
    | true => simp [signBytes, parseSign]

theorem digit_ne_sign {b : Byte} (h : isDigitByte b) : b ≠ 43 ∧ b ≠ 45 := by
  constructor <;> (intro hb; rw [hb] at h; exact absurd h (by decide))

theorem parseExponent_sound {bs : List Byte} {e : Option (Bool × Option Bool × List Byte)}
    (h : parseExponent bs = some e) :
    bs = exponentBytes e ∧
      ∀ u sg es, e = some (u, sg, es) → es ≠ [] ∧ ∀ b ∈ es, isDigitByte b := by
  cases bs with
  | nil =>
    simp only [parseExponent, Option.some.injEq] at h
    subst h
    exact ⟨rfl, by intro u sg es h; cases h⟩
  | cons b rest =>
    simp only [parseExponent] at h
    by_cases hb : b = 101 ∨ b = 69
    · rw [if_pos hb] at h
      by_cases hc : digitRun (parseSign rest).2 = [] ∨ digitRest (parseSign rest).2 ≠ []
      · rw [if_pos hc] at h; cases h
      · rw [if_neg hc] at h
        simp only [Option.some.injEq] at h
        subst h
        have hrun : digitRun (parseSign rest).2 ≠ [] := fun x => hc (Or.inl x)
        have hrest : digitRest (parseSign rest).2 = [] := by
          by_contra x; exact hc (Or.inr x)
        have hself := digitRun_eq_self hrest
        refine ⟨?_, ?_⟩
        · simp only [exponentBytes]
          rw [parseSign_append]
          rcases hb with hb | hb <;> simp [hb]
        · intro u sg es he
          simp only [Option.some.injEq, Prod.mk.injEq] at he
          obtain ⟨_, _, rfl⟩ := he
          refine ⟨by rw [← hself]; exact hrun, ?_⟩
          intro x hx
          rw [← hself] at hx
          exact digitRun_digits _ x hx
    · rw [if_neg hb] at h; cases h

theorem parseExponent_complete (e : Option (Bool × Option Bool × List Byte))
    (h : ∀ u sg es, e = some (u, sg, es) → es ≠ [] ∧ ∀ b ∈ es, isDigitByte b) :
    parseExponent (exponentBytes e) = some e := by
  cases e with
  | none => rfl
  | some t =>
    obtain ⟨u, sg, es⟩ := t
    obtain ⟨hne, hd⟩ := h u sg es rfl
    have hhead : ∀ b, es.head? = some b → b ≠ 43 ∧ b ≠ 45 := by
      intro b hb
      cases es with
      | nil => cases hb
      | cons x xs =>
        simp only [List.head?_cons, Option.some.injEq] at hb
        subst hb
        exact digit_ne_sign (hd x (List.mem_cons_self x xs))
    have hrr := @digitRun_append es [] hd (by intro b hb; cases hb)
    rw [List.append_nil] at hrr
    simp only [exponentBytes, parseExponent]
    rw [parseSign_signBytes sg es hhead]
    cases u <;> simp [hrr.1, hrr.2, hne]

theorem parseMantissa_sound {sg : Option Bool} {bs : List Byte} {l : DoubleLiteral}
    (h : parseMantissa sg bs = some l) :
    l.sign = sg ∧ l.wf ∧
      bs = l.int_digits ++ (fracBytes l.frac_digits ++ exponentBytes l.exponent) := by
  have hsplit := digitRun_append_digitRest bs
  have hdig := digitRun_digits bs
  have noPoint : (if digitRun bs = [] then none
      else (parseExponent (digitRest bs)).map (fun e =>
        ({ sign := sg, int_digits := digitRun bs, frac_digits := none, exponent := e } :
          DoubleLiteral))) = some l →
      l.sign = sg ∧ l.wf ∧
        bs = l.int_digits ++ (fracBytes l.frac_digits ++ exponentBytes l.exponent) := by
    intro h
    by_cases hd : digitRun bs = []
    · rw [if_pos hd] at h; cases h
    · rw [if_neg hd] at h
      cases he : parseExponent (digitRest bs) with
      | none => rw [he] at h; cases h
      | some e =>
        rw [he] at h
        simp only [Option.map_some', Option.some.injEq] at h
        subst h
        obtain ⟨h1, h2⟩ := parseExponent_sound he
        refine ⟨rfl, ⟨hdig, ?_, Or.inl hd, h2⟩, ?_⟩
        · intro fs hfs; cases hfs
        · simp only [fracBytes, List.nil_append]
          rw [← h1, hsplit]
  unfold parseMantissa at h
  cases hr : digitRest bs with
  | nil =>
    rw [hr] at h noPoint
    exact noPoint h
  | cons b rest =>
    rw [hr] at h
    simp only at h
    by_cases h46 : b = 46
    · rw [if_pos h46] at h
      by_cases hd : digitRun rest = []
      · rw [if_pos hd] at h; cases h
      · rw [if_neg hd] at h
        cases he : parseExponent (digitRest rest) with
        | none => rw [he] at h; cases h
        | some e =>
          rw [he] at h
          simp only [Option.map_some', Option.some.injEq] at h
          subst h
          obtain ⟨h1, h2⟩ := parseExponent_sound he
          refine ⟨rfl, ⟨hdig, ?_, Or.inr (by simp), h2⟩, ?_⟩
          · intro fs hfs
            simp only [Option.some.injEq] at hfs
            subst hfs
            exact ⟨hd, digitRun_digits rest⟩
          · simp only [fracBytes, List.cons_append]
            rw [← h1, digitRun_append_digitRest rest, ← h46, ← hr, hsplit]
    · rw [if_neg h46, ← hr] at h
      exact noPoint h

theorem parseMantissa_complete (l : DoubleLiteral) (h : l.wf) :
    parseMantissa l.sign (l.int_digits ++ (fracBytes l.frac_digits ++ exponentBytes l.exponent))
      = some l := by
  obtain ⟨h1, h2, h3, h4⟩ := h
  obtain ⟨sg, ds, fr, ex⟩ := l
  simp only at h1 h2 h3 h4 ⊢
  have hex := parseExponent_complete ex h4
  have hexhead : ∀ b, (exponentBytes ex).head? = some b → ¬isDigitByte b ∧ b ≠ 46 := by
    intro b hb
    cases ex with
    | none => cases hb
    | some t =>
      obtain ⟨u, s, es⟩ := t
      simp only [exponentBytes, List.head?_cons, Option.some.injEq] at hb
      subst hb
      cases u <;> exact ⟨by decide, by decide⟩
  cases fr with
  | none =>
    have hne : ds ≠ [] := by
      rcases h3 with h | h
      · exact h
      · exact absurd rfl h
    simp only [fracBytes, List.nil_append]
    obtain ⟨r1, r2⟩ := digitRun_append h1 (fun b hb => (hexhead b hb).1)
    unfold parseMantissa
    rw [r1, r2, if_neg hne, hex]
    cases hb : exponentBytes ex with
    | nil => rfl
    | cons b rest =>
      have := (hexhead b (by rw [hb]; rfl)).2
      simp only [this, if_false]
      rfl
  | some fs =>
    obtain ⟨hfs, hfd⟩ := h2 fs rfl
    simp only [fracBytes]
    obtain ⟨r1, r2⟩ := @digitRun_append ds (46 :: (fs ++ exponentBytes ex)) h1
      (by intro b hb; simp only [List.head?_cons, Option.some.injEq] at hb; subst hb; decide)
    obtain ⟨r3, r4⟩ := digitRun_append hfd (fun b hb => (hexhead b hb).1)
    unfold parseMantissa
    rw [List.cons_append, r2]
    simp only [if_true, r1, r3, r4, if_neg hfs, hex, Option.map_some']

/-- What the recogniser returns is a literal of the grammar with the bytes read. -/
theorem parseLiteral_sound {bs : List Byte} {l : DoubleLiteral} (h : parseLiteral bs = some l) :
    l.wf ∧ bs = l.bytes := by
  unfold parseLiteral at h
  obtain ⟨h1, h2, h3⟩ := parseMantissa_sound h
  refine ⟨h2, ?_⟩
  unfold DoubleLiteral.bytes
  rw [← h3, h1, parseSign_append]

/-- The recogniser accepts every literal of the grammar and returns its parts. -/
theorem parseLiteral_complete (l : DoubleLiteral) (h : l.wf) : parseLiteral l.bytes = some l := by
  have hhead : ∀ b, (l.int_digits ++ (fracBytes l.frac_digits ++ exponentBytes l.exponent)).head?
      = some b → b ≠ 43 ∧ b ≠ 45 := by
    intro b hb
    obtain ⟨h1, h2, h3, h4⟩ := h
    cases hd : l.int_digits with
    | nil =>
      rw [hd] at hb h3
      cases hf : l.frac_digits with
      | none => rw [hf] at h3; rcases h3 with h | h <;> exact absurd rfl h
      | some fs =>
        rw [hf] at hb
        simp only [fracBytes, List.nil_append, List.cons_append, List.head?_cons,
          Option.some.injEq] at hb
        subst hb
        exact ⟨by decide, by decide⟩
    | cons x xs =>
      rw [hd] at hb
      simp only [List.cons_append, List.head?_cons, Option.some.injEq] at hb
      subst hb
      exact digit_ne_sign (h1 x (by rw [hd]; exact List.mem_cons_self x xs))
  unfold parseLiteral DoubleLiteral.bytes
  rw [parseSign_signBytes l.sign _ hhead]
  exact parseMantissa_complete l h

/-- The grammar is what the recogniser accepts. -/
theorem isDoubleLiteral_iff (bs : List Byte) :
    isDoubleLiteral bs ↔ (parseLiteral bs).isSome = true := by
  constructor
  · rintro ⟨l, hwf, rfl⟩
    rw [parseLiteral_complete l hwf]
    rfl
  · intro h
    cases hp : parseLiteral bs with
    | none => rw [hp] at h; cases h
    | some l => exact ⟨l, parseLiteral_sound hp⟩

/-- When the bytes of the view are not a literal, `sv_to_double` fails. -/
theorem sv_to_double_of_not_literal {F : Type} (fo : FloatOps F) (mem : Memory)
    (sv : StringView) (out : Option F) (h : ¬isDoubleLiteral (sv.bytes mem)) :
    sv_to_double fo mem sv out = (false, out) := by
  unfold sv_to_double
  by_cases hc : out.isNone ∨ sv.length = 0
  · rw [if_pos hc]
  · rw [if_neg hc]
    have h0 : sv.length ≠ 0 := fun x => hc (Or.inr x)
    have hp : parseLiteral (sv.bytes mem) = none := by
      cases hq : parseLiteral (sv.bytes mem) with
      | none => rfl
      | some l => exact absurd ((isDoubleLiteral_iff _).2 (by rw [hq]; rfl)) h
    rw [double_scan_eq fo mem sv h0, hp]
    rfl

/-- C22: for every floating-point arithmetic, memory, view and output pointer:
when the bytes of the view, taken in their entirety, are not of the form
`[sign] (digits [. digits] | . digits) [(e|E) [sign] digits]` with at least one
digit in each digits group, `sv_to_double` returns `false`.  The closed part
runs the sixteen inputs the claim names. -/
theorem sv_to_double_rejects_non_literals {F : Type} (fo : FloatOps F) (mem : Memory)
    (sv : StringView) (out : Option F) (h : ¬isDoubleLiteral (sv.bytes mem)) :
    (sv_to_double fo mem sv out).1 = false ∧
    ∀ s ∈ ["", "+", ".", "-.", "1.", ".e5", "1e", "1e+", " 1", "1 ", "12x", "1e3x", "inf",
        "nan", "0x10", "1,5"],
      ¬isDoubleLiteral ((strView s).bytes (strMem s)) ∧
      (sv_to_double ieee (strMem s) (strView s) (some (Dbl.fin false 7 0))).1 = false := by
  refine ⟨by rw [sv_to_double_of_not_literal fo mem sv out h], ?_⟩
  intro s hs
  have key : ∀ s ∈ ["", "+", ".", "-.", "1.", ".e5", "1e", "1e+", " 1", "1 ", "12x", "1e3x",
      "inf", "nan", "0x10", "1,5"],
      (parseLiteral ((strView s).bytes (strMem s))).isSome = false ∧
      (sv_to_double ieee (strMem s) (strView s) (some (Dbl.fin false 7 0))).1 = false := by
    decide
  obtain ⟨k1, k2⟩ := key s hs
  exact ⟨fun hl => (by rw [(isDoubleLiteral_iff _).1 hl] at k1; cases k1), k2⟩

/-- Witness for C22 at the input `1.`. -/
theorem sv_to_double_rejects_non_literals_witness :
    ¬isDoubleLiteral ((strView "1.").bytes (strMem "1.")) ∧
    (sv_to_double ieee (strMem "1.") (strView "1.") (some (Dbl.fin false 7 0))).1 = false :=
  ⟨fun hl => absurd ((isDoubleLiteral_iff _).1 hl) (by decide),
   (sv_to_double_rejects_non_literals ieee (strMem "1.") (strView "1.")
      (some (Dbl.fin false 7 0))
      (fun hl => absurd ((isDoubleLiteral_iff _).1 hl) (by decide))).1⟩

/-! ## The consume family -/

/-- C31: for every view and every `n` (so in particular for `n ≤ sv.length`),
each consume operation returns what its non-consuming counterpart returns and
leaves the remainder in `*sv`: `sv_take_and_consume` returns `sv_take` and
leaves `sv_drop`, `sv_drop_and_consume` returns and leaves `sv_drop`,
`sv_take_last_and_consume` returns `sv_take_last` and leaves `sv_drop_last`,
`sv_drop_last_and_consume` returns and leaves `sv_drop_last`.  The closed part
is the test `take_and_consume_basic`: 2 bytes of a 6-byte view. -/
theorem consume_refines (sv : StringView) (n : Nat) :
    sv_take_and_consume sv n = (sv_take sv n, sv_drop sv n) ∧
    sv_drop_and_consume sv n = (sv_drop sv n, sv_drop sv n) ∧
    sv_take_last_and_consume sv n = (sv_take_last sv n, sv_drop_last sv n) ∧
    sv_drop_last_and_consume sv n = (sv_drop_last sv n, sv_drop_last sv n) ∧
    sv_take_and_consume ⟨1, 6⟩ 2 = (⟨1, 2⟩, ⟨3, 4⟩) ∧
    sv_take_last_and_consume ⟨1, 6⟩ 2 = (⟨5, 2⟩, ⟨1, 4⟩) := by
  refine ⟨?_, ?_, ?_, ?_, by decide, by decide⟩ <;>
    simp [sv_take_and_consume, sv_drop_and_consume, sv_take_last_and_consume,
      sv_drop_last_and_consume, sv_take, sv_drop, sv_take_last, sv_drop_last, sv_substr]

/-- Counterexample for C32 as stated: `sv_drop_and_consume` on a 6-byte view
at address 1 with `n = 2` returns the remainder, which is also what it leaves
in `*sv`; the address 3 lies in both ranges, and the address 1 of the original
range lies in neither. -/
theorem drop_and_consume_overlaps :
    sv_drop_and_consume ⟨1, 6⟩ 2 = (⟨3, 4⟩, ⟨3, 4⟩) ∧
    (sv_drop_and_consume ⟨1, 6⟩ 2).1.has 3 ∧ (sv_drop_and_consume ⟨1, 6⟩ 2).2.has 3 ∧
    (StringView.mk 1 6).has 1 ∧
    ¬(sv_drop_and_consume ⟨1, 6⟩ 2).1.has 1 ∧ ¬(sv_drop_and_consume ⟨1, 6⟩ 2).2.has 1 := by
  decide

/-- C32, amended: with `n ≤ sv.length` (a `size_t` value), the two take
operations return a range and leave a range that do not overlap and together
are exactly the original range; the two drop operations return the range they
leave, and that range and the `n` dropped bytes do not overlap and together are
exactly the original range. -/
theorem consume_partitions (sv : StringView) (n : Nat) (hn : n ≤ sv.length)
    (hmax : sv.length ≤ SIZE_MAX) :
    ((∀ a, ¬((sv_take_and_consume sv n).1.has a ∧ (sv_take_and_consume sv n).2.has a)) ∧
      ∀ a, sv.has a ↔ (sv_take_and_consume sv n).1.has a ∨ (sv_take_and_consume sv n).2.has a) ∧
    ((∀ a, ¬((sv_take_last_and_consume sv n).1.has a ∧
        (sv_take_last_and_consume sv n).2.has a)) ∧
      ∀ a, sv.has a ↔ (sv_take_last_and_consume sv n).1.has a ∨
        (sv_take_last_and_consume sv n).2.has a) ∧
    ((sv_drop_and_consume sv n).1 = (sv_drop_and_consume sv n).2 ∧
      (∀ a, ¬((StringView.mk sv.begin n).has a ∧ (sv_drop_and_consume sv n).2.has a)) ∧
      ∀ a, sv.has a ↔ (StringView.mk sv.begin n).has a ∨ (sv_drop_and_consume sv n).2.has a) ∧
    ((sv_drop_last_and_consume sv n).1 = (sv_drop_last_and_consume sv n).2 ∧
      (∀ a, ¬((StringView.mk (sv.begin + (sv.length - n)) n).has a ∧
        (sv_drop_last_and_consume sv n).2.has a)) ∧
      ∀ a, sv.has a ↔ (StringView.mk (sv.begin + (sv.length - n)) n).has a ∨
        (sv_drop_last_and_consume sv n).2.has a) := by
  have hs : size_sub sv.length n = sv.length - n := size_sub_eq hn hmax
  simp only [sv_take_and_consume, sv_drop_and_consume, sv_take_last_and_consume,
    sv_drop_last_and_consume, StringView.has, hs, true_and]
  refine ⟨⟨?_, ?_⟩, ⟨?_, ?_⟩, ⟨?_, ?_⟩, ⟨?_, ?_⟩⟩ <;> intro a <;> omega

/-- Witness for the amended C32: 2 bytes of a 6-byte view. -/
theorem consume_partitions_witness :
    ((2 : Nat) ≤ (StringView.mk 1 6).length ∧ (StringView.mk 1 6).length ≤ SIZE_MAX) ∧
    (sv_drop_and_consume ⟨1, 6⟩ 2).1 = (sv_drop_and_consume ⟨1, 6⟩ 2).2 ∧
    ∀ a, ¬((sv_take_and_consume ⟨1, 6⟩ 2).1.has a ∧ (sv_take_and_consume ⟨1, 6⟩ 2).2.has a) :=
  ⟨⟨by decide, by decide⟩,
    (consume_partitions ⟨1, 6⟩ 2 (by decide) (by decide)).2.2.1.1,
    (consume_partitions ⟨1, 6⟩ 2 (by decide) (by decide)).1.1⟩

/-! ## Equality, prefixes and suffixes -/

/-- Two byte ranges of the same length hold the same bytes exactly when they
agree index by index. -/
theorem bytesAt_eq_iff (mem : Memory) (n a b : Nat) :
    bytesAt mem a n = bytesAt mem b n ↔ ∀ j, j < n → mem (a + j) = mem (b + j) := by
  induction n generalizing a b with
  | zero => simp [bytesAt]
  | succ n ih =>
    simp only [bytesAt, List.cons.injEq, ih]
    constructor
    · rintro ⟨h0, h⟩ j hj
      rcases Nat.eq_zero_or_pos j with rfl | hpos
      · simpa using h0
      · have := h (j - 1) (by omega)
        rwa [show a + 1 + (j - 1) = a + j by omega,
          show b + 1 + (j - 1) = b + j by omega] at this
    · intro h
      refine ⟨by simpa using h 0 (by omega), fun j hj => ?_⟩
      have := h (j + 1) (by omega)
      rwa [show a + (j + 1) = a + 1 + j by omega, show b + (j + 1) = b + 1 + j by omega] at this

/-- C33: for every memory and all views `a` and `b`, `sv_eq` is true exactly
when the lengths are equal and the byte sequences are identical; hence two
empty views are equal whatever their pointers, the null pointer included.  The
closed part compares two sub-views of one buffer (`"ana"` at offsets 1 and 3 of
`"banana"`, and at offsets 1 and 2). -/
theorem sv_eq_iff_same_bytes (mem : Memory) (a b : StringView) :
    (sv_eq mem a b = true ↔ a.length = b.length ∧ a.bytes mem = b.bytes mem) ∧
    (a.length = 0 → b.length = 0 → sv_eq mem a b = true) ∧
    sv_eq bananaMem ⟨0, 0⟩ ⟨5, 0⟩ = true ∧
    sv_eq bananaMem ⟨2, 3⟩ ⟨4, 3⟩ = true ∧
    sv_eq bananaMem ⟨2, 3⟩ ⟨3, 3⟩ = false := by
  have main : sv_eq mem a b = true ↔ a.length = b.length ∧ a.bytes mem = b.bytes mem := by
    unfold sv_eq StringView.bytes
    by_cases hl : a.length = b.length
    · rw [if_neg (fun h => h hl)]
      by_cases h0 : a.length = 0
      · rw [if_pos h0]
        have hb : b.length = 0 := by omega
        simp [h0, hb, bytesAt]
      · rw [if_neg h0, decide_eq_true_iff, memcmp_eq_zero, ← hl, bytesAt_eq_iff]
        simp [hl]
    · rw [if_pos hl]
      simp [hl]
  refine ⟨main, ?_, by decide, by decide, by decide⟩
  intro ha hb
  rw [main]
  unfold StringView.bytes
  rw [ha, hb]
  exact ⟨rfl, rfl⟩

/-- C34: for every memory, view `sv` (its length a `size_t` value) and needle
`p`: `sv_starts_with` is true exactly when `p.length ≤ sv.length` and the first
`p.length` bytes of `sv` are the bytes of `p`; `sv_ends_with` is true exactly
when `p.length ≤ sv.length` and the last `p.length` bytes of `sv` are the bytes
of `p`.  So both are false when the needle is longer than `sv` and true for an
empty needle, also when `sv` is empty. -/
theorem starts_ends_with_iff (mem : Memory) (sv p : StringView) (hmax : sv.length ≤ SIZE_MAX) :
    (sv_starts_with mem sv p = true ↔
      p.length ≤ sv.length ∧ bytesAt mem sv.begin p.length = p.bytes mem) ∧
    (sv_ends_with mem sv p = true ↔
      p.length ≤ sv.length ∧
        bytesAt mem (sv.begin + (sv.length - p.length)) p.length = p.bytes mem) ∧
    (p.length > sv.length → sv_starts_with mem sv p = false ∧ sv_ends_with mem sv p = false) ∧
    (p.length = 0 → sv_starts_with mem sv p = true ∧ sv_ends_with mem sv p = true) := by
  have h1 : sv_starts_with mem sv p = true ↔
      p.length ≤ sv.length ∧ bytesAt mem sv.begin p.length = p.bytes mem := by
    unfold sv_starts_with StringView.bytes
    by_cases hl : p.length > sv.length
    · rw [if_pos hl]
      simp only [Bool.false_eq_true, false_iff, not_and]
      intro h; omega
    · rw [if_neg hl, decide_eq_true_iff, memcmp_eq_zero, bytesAt_eq_iff]
      exact ⟨fun h => ⟨by omega, h⟩, fun h => h.2⟩
  have h2 : sv_ends_with mem sv p = true ↔
      p.length ≤ sv.length ∧
        bytesAt mem (sv.begin + (sv.length - p.length)) p.length = p.bytes mem := by
    unfold sv_ends_with StringView.bytes
    by_cases hl : p.length > sv.length
    · rw [if_pos hl]
      simp only [Bool.false_eq_true, false_iff, not_and]
      intro h; omega
    · rw [if_neg hl]
      simp only []
      rw [size_sub_eq (by omega) hmax, decide_eq_true_iff, memcmp_eq_zero, bytesAt_eq_iff]
      exact ⟨fun h => ⟨by omega, h⟩, fun h => h.2⟩
  refine ⟨h1, h2, ?_, ?_⟩
  · intro hl
    constructor
    · rw [← Bool.not_eq_true, h1]; intro h; omega
    · rw [← Bool.not_eq_true, h2]; intro h; omega
  · intro h0
    rw [h1, h2]
    unfold StringView.bytes
    rw [h0]
    exact ⟨⟨by omega, rfl⟩, ⟨by omega, rfl⟩⟩

/-- Witness for C34: `"banana"` starts with its first three bytes and ends with
`"ana"` (a copy at address 8), and does not end with `"ban"`. -/
theorem starts_ends_with_iff_witness :
    (StringView.mk 1 6).length ≤ SIZE_MAX ∧
    (sv_starts_with bananaMem ⟨1, 6⟩ ⟨1, 3⟩ = true ↔
      (StringView.mk 1 3).length ≤ (StringView.mk 1 6).length ∧
        bytesAt bananaMem (StringView.mk 1 6).begin (StringView.mk 1 3).length
          = (StringView.mk 1 3).bytes bananaMem) ∧
    sv_starts_with bananaMem ⟨1, 6⟩ ⟨1, 3⟩ = true ∧
    sv_ends_with bananaMem ⟨1, 6⟩ ⟨8, 3⟩ = true ∧
    sv_ends_with bananaMem ⟨1, 6⟩ ⟨1, 3⟩ = false :=
  ⟨by decide, (starts_ends_with_iff bananaMem ⟨1, 6⟩ ⟨1, 3⟩ (by decide)).1, by decide,
    by decide, by decide⟩

/-! ## Every result other than the sentinel is a valid position -/

theorem sv_find_char_valid (mem : Memory) (sv : StringView) (c : Byte)
    (h : sv_find_char mem sv c ≠ SV_NPOS) :
    sv_find_char mem sv c < sv.length ∧ sv_at mem sv (sv_find_char mem sv c) = c := by
  unfold sv_find_char at h ⊢
  by_cases h0 : sv.length = 0
  · rw [if_pos h0] at h; exact absurd rfl h
  · rw [if_neg h0] at h ⊢
    cases hm : memchr mem sv.begin c sv.length with
    | none => rw [hm] at h; exact absurd rfl h
    | some p =>
      obtain ⟨k, hk, hpk, hc, _⟩ := memchr_eq_some hm
      have hoff : p - sv.begin = k := by omega
      simp only [hoff, sv_at]
      exact ⟨hk, hc⟩

theorem sv_rfind_char_valid (mem : Memory) (sv : StringView) (c : Byte)
    (h : sv_rfind_char mem sv c ≠ SV_NPOS) :
    sv_rfind_char mem sv c < sv.length ∧ sv_at mem sv (sv_rfind_char mem sv c) = c := by
  unfold sv_rfind_char at h ⊢
  by_cases h0 : sv.length = 0
  · rw [if_pos h0] at h; exact absurd rfl h
  · rw [if_neg h0] at h ⊢
    cases hm : sv_memrchr_ mem sv.begin c sv.length with
    | none => rw [hm] at h; exact absurd rfl h
    | some p =>
      obtain ⟨k, hk, hpk, hc, _⟩ := sv_memrchr_eq_some hm
      have hoff : p - sv.begin = k := by omega
      simp only [hoff, sv_at]
      exact ⟨hk, hc⟩

theorem sv_find_char_from_valid (mem : Memory) (sv : StringView) (pos : Nat) (c : Byte)
    (hmax : sv.length ≤ SIZE_MAX) (h : sv_find_char_from mem sv pos c ≠ SV_NPOS) :
    sv_find_char_from mem sv pos c < sv.length ∧
      sv_at mem sv (sv_find_char_from mem sv pos c) = c := by
  unfold sv_find_char_from at h ⊢
  by_cases h0 : sv.length = 0
  · rw [if_pos h0] at h; exact absurd rfl h
  · rw [if_neg h0] at h ⊢
    have hclamp : (if pos > sv.length then sv.length else pos) = min pos sv.length := by
      split <;> omega
    simp only [hclamp] at h ⊢
    rw [size_sub_eq (by omega) hmax] at h ⊢
    cases hm : memchr mem (sv.begin + min pos sv.length) c (sv.length - min pos sv.length) with
    | none => rw [hm] at h; exact absurd rfl h
    | some p =>
      obtain ⟨k, hk, hpk, hc, _⟩ := memchr_eq_some hm
      have hoff : p - sv.begin = min pos sv.length + k := by omega
      simp only [hoff, sv_at]
      exact ⟨by omega, by rwa [← Nat.add_assoc]⟩

theorem sv_rfind_char_from_valid (mem : Memory) (sv : StringView) (pos : Nat) (c : Byte)
    (hmax : sv.length ≤ SIZE_MAX) (h : sv_rfind_char_from mem sv pos c ≠ SV_NPOS) :
    sv_rfind_char_from mem sv pos c < sv.length ∧
      sv_at mem sv (sv_rfind_char_from mem sv pos c) = c := by
  unfold sv_rfind_char_from at h ⊢
  by_cases h0 : sv.length = 0
  · rw [if_pos h0] at h; exact absurd rfl h
  · rw [if_neg h0] at h ⊢
    have hclamp : (if pos ≥ sv.length then size_sub sv.length 1 else pos)
        = min pos (sv.length - 1) := by
      split
      · rw [size_sub_eq (by omega) hmax]; omega
      · omega
    simp only [hclamp] at h ⊢
    rw [size_add_eq (by omega)] at h ⊢
    cases hm : sv_memrchr_ mem sv.begin c (min pos (sv.length - 1) + 1) with
    | none => rw [hm] at h; exact absurd rfl h
    | some p =>
      obtain ⟨k, hk, hpk, hc, _⟩ := sv_memrchr_eq_some hm
      have hoff : p - sv.begin = k := by omega
      simp only [hoff, sv_at]
      exact ⟨by omega, hc⟩

theorem occursAt_of_empty {mem : Memory} {hay needle : StringView} {r : Nat}
    (hn : needle.length = 0) (hr : r ≤ hay.length) : occursAt mem hay needle r :=
  ⟨by omega, fun j hj => absurd hj (by omega)⟩

/-- C40: for every memory, valid haystack, needle (empty or not), position
and byte: each of the four substring searches returns, and a result other than
`SV_NPOS` is an index `r` with `r + needle.length ≤ hay.length` at which the
bytes of the haystack are the bytes of the needle; each of the four character
searches returns, when not `SV_NPOS`, an index below the length at which the
byte is `c`.  So `r` and `needle.length` meet the precondition of `sv_substr`,
and every index of an occurrence is below `SV_NPOS`. -/
theorem results_are_valid_positions (mem : Memory) (hay needle : StringView) (pos : Nat)
    (c : Byte) (hv : hay.valid) :
    (∃ r, sv_find_substr mem hay needle = some r ∧
      (r ≠ SV_NPOS → occursAt mem hay needle r)) ∧
    (∃ r, sv_rfind_substr mem hay needle = some r ∧
      (r ≠ SV_NPOS → occursAt mem hay needle r)) ∧
    (∃ r, sv_find_substr_from mem hay pos needle = some r ∧
      (r ≠ SV_NPOS → occursAt mem hay needle r)) ∧
    (∃ r, sv_rfind_substr_from mem hay pos needle = some r ∧
      (r ≠ SV_NPOS → occursAt mem hay needle r)) ∧
    (sv_find_char mem hay c ≠ SV_NPOS →
      sv_find_char mem hay c < hay.length ∧ sv_at mem hay (sv_find_char mem hay c) = c) ∧
    (sv_rfind_char mem hay c ≠ SV_NPOS →
      sv_rfind_char mem hay c < hay.length ∧ sv_at mem hay (sv_rfind_char mem hay c) = c) ∧
    (sv_find_char_from mem hay pos c ≠ SV_NPOS →
      sv_find_char_from mem hay pos c < hay.length ∧
        sv_at mem hay (sv_find_char_from mem hay pos c) = c) ∧
    (sv_rfind_char_from mem hay pos c ≠ SV_NPOS →
      sv_rfind_char_from mem hay pos c < hay.length ∧
        sv_at mem hay (sv_rfind_char_from mem hay pos c) = c) ∧
    (∀ r, occursAt mem hay needle r →
      r ≤ hay.length ∧ needle.length ≤ hay.length - r ∧ r < SV_NPOS) := by
  have hlt : hay.length < SIZE_MAX := hv.length_lt
  have hmax : hay.length ≤ SIZE_MAX := Nat.le_of_lt hlt
  have hclamp : (if pos > hay.length then hay.length else pos) = min pos hay.length := by
    split <;> omega
  refine ⟨?_, ?_, ?_, ?_, sv_find_char_valid mem hay c, sv_rfind_char_valid mem hay c,
    sv_find_char_from_valid mem hay pos c hmax, sv_rfind_char_from_valid mem hay pos c hmax, ?_⟩
  · by_cases hn : needle.length = 0
    · exact ⟨0, by simp [sv_find_substr, hn], fun _ => occursAt_of_empty hn (by omega)⟩
    · obtain ⟨r, hr, h⟩ := sv_find_substr_spec mem hay needle hmax hn
      refine ⟨r, hr, fun hne => ?_⟩
      rcases h with h | h
      · exact absurd h.1 hne
      · exact h.2.1
  · by_cases hn : needle.length = 0
    · exact ⟨hay.length, by simp [sv_rfind_substr, hn],
        fun _ => occursAt_of_empty hn (Nat.le_refl _)⟩
    · obtain ⟨r, hr, h⟩ := sv_rfind_substr_spec mem hay needle hmax hn
      refine ⟨r, hr, fun hne => ?_⟩
      rcases h with h | h
      · exact absurd h.1 hne
      · exact h.2.1
  · by_cases hn : needle.length = 0
    · exact ⟨min pos hay.length, by simp [sv_find_substr_from, hn, hclamp],
        fun _ => occursAt_of_empty hn (by omega)⟩
    · obtain ⟨r, hr, h, _⟩ := sv_find_substr_from_spec mem hay pos needle hmax hn
      refine ⟨r, hr, fun hne => ?_⟩
      rcases h with h | h
      · exact absurd h.1 hne
      · exact h.2.2.1
  · by_cases hn : needle.length = 0
    · exact ⟨min pos hay.length, by simp [sv_rfind_substr_from, hn, hclamp],
        fun _ => occursAt_of_empty hn (by omega)⟩
    · obtain ⟨r, hr, h1, h2⟩ := sv_rfind_substr_from_spec mem hay pos needle hv hn
      refine ⟨r, hr, fun hne => ?_⟩
      by_cases hc : needle.length > hay.length ∨ min pos hay.length + 1 < needle.length
      · exact absurd (h1 hc) hne
      · rcases h2 hc with h | h
        · exact absurd h.1 hne
        · exact h.2.1
  · intro r hocc
    have := hocc.1
    unfold SV_NPOS
    omega

/-- Witness for C40 on `"banana"` with the needle `"ana"`, `pos = 2` and the
byte `'n'`. -/
theorem results_are_valid_positions_witness :
    (StringView.mk 1 6).valid ∧
    (∃ r, sv_rfind_substr_from bananaMem ⟨1, 6⟩ 2 ⟨8, 3⟩ = some r ∧
      (r ≠ SV_NPOS → occursAt bananaMem ⟨1, 6⟩ ⟨8, 3⟩ r)) ∧
    sv_rfind_substr_from bananaMem ⟨1, 6⟩ 2 ⟨8, 3⟩ = some 1 ∧
    sv_find_char_from bananaMem ⟨1, 6⟩ 3 110 = 4 :=
  ⟨by decide,
    (results_are_valid_positions bananaMem ⟨1, 6⟩ ⟨8, 3⟩ 2 110 (by decide)).2.2.2.1,
    by decide, by decide⟩

/-! ## `sv_to_double`: the accumulators -/

theorem expAcc_cons (a : Nat) (b : Byte) (ds : List Byte) :
    expAcc a (b :: ds) = expAcc (if a < 10000 then a * 10 + (b.val - 48) else a) ds := rfl

/-- Once the exponent accumulator has reached 10000 it stays. -/
theorem expAcc_frozen (a : Nat) (ds : List Byte) (h : 10000 ≤ a) : expAcc a ds = a := by
  induction ds with
  | nil => rfl
  | cons b ds ih => rw [expAcc_cons, if_neg (by omega), ih]

/-- The exponent accumulator against the decimal value of the digits read. -/
theorem expAcc_spec (ds : List Byte) (hd : ∀ b ∈ ds, isDigitByte b) :
    ∀ a, a ≤ 99999 →
      expAcc a ds ≤ 99999 ∧
      (decimalFrom a ds ≤ 99999 → expAcc a ds = decimalFrom a ds) ∧
      (99999 < decimalFrom a ds → 10000 ≤ expAcc a ds) := by
  induction ds with
  | nil =>
    intro a ha
    exact ⟨ha, fun _ => rfl, fun h => by simp only [decimalFrom, List.foldl_nil] at h; omega⟩
  | cons b ds ih =>
    intro a ha
    have hb : 48 ≤ b.val ∧ b.val ≤ 57 := hd b (List.mem_cons_self b ds)
    have hds : ∀ x ∈ ds, isDigitByte x := fun x hx => hd x (List.mem_cons_of_mem b hx)
    rw [expAcc_cons, decimalFrom_cons]
    by_cases hlt : a < 10000
    · rw [if_pos hlt]
      exact ih hds (a * 10 + (b.val - 48)) (by omega)
    · rw [if_neg hlt, expAcc_frozen a ds (by omega)]
      have hge := decimalFrom_ge (a * 10 + (b.val - 48)) ds
      exact ⟨ha, fun h => by omega, fun _ => by omega⟩

/-- C37: for every memory and every run of exponent digits (the digits that
the exponent loop of `sv_to_double` consumes, started with `exp_val = 0`): the
accumulator `exp_val` at the end of the loop is at most 99999, it is the
decimal value of the digits when that value is at most 99999, and it is at
least 10000 otherwise; so `exp_val > 308` and `exp_val > 400` hold exactly when
they hold for the decimal value, which makes the tests `exp_total > 308` and
`exp_total < -400` come out as with the uncapped exponent.  The closed part
reads `"007"` and a run of twelve nines. -/
theorem exponent_accumulator_capped (mem : Memory) (p n : Nat) :
    (double_exp_loop mem n p 0 false).2.2.1 ≤ 99999 ∧
    (decimalValue (digitRun (bytesAt mem p n)) ≤ 99999 →
      (double_exp_loop mem n p 0 false).2.2.1 = decimalValue (digitRun (bytesAt mem p n))) ∧
    (99999 < decimalValue (digitRun (bytesAt mem p n)) →
      10000 ≤ (double_exp_loop mem n p 0 false).2.2.1) ∧
    ((double_exp_loop mem n p 0 false).2.2.1 > 308 ↔
      decimalValue (digitRun (bytesAt mem p n)) > 308) ∧
    ((double_exp_loop mem n p 0 false).2.2.1 > 400 ↔
      decimalValue (digitRun (bytesAt mem p n)) > 400) ∧
    (double_exp_loop (strMem "007") 3 1 0 false).2.2.1 = 7 ∧
    (double_exp_loop (strMem "999999999999") 12 1 0 false).2.2.1 = 99999 := by
  rw [double_exp_loop_eq]
  simp only []
  obtain ⟨h1, h2, h3⟩ := expAcc_spec (digitRun (bytesAt mem p n)) (digitRun_digits _) 0 (by omega)
  unfold decimalValue
  refine ⟨h1, h2, h3, ?_, ?_, by decide, by decide⟩
  · by_cases hc : decimalFrom 0 (digitRun (bytesAt mem p n)) ≤ 99999
    · simp only [h2 hc]
    · have := h3 (by omega)
      constructor <;> intro _ <;> omega
  · by_cases hc : decimalFrom 0 (digitRun (bytesAt mem p n)) ≤ 99999
    · simp only [h2 hc]
    · have := h3 (by omega)
      constructor <;> intro _ <;> omega

theorem fracFold_cons {F : Type} (fo : FloatOps F) (st : FracAcc F) (b : Byte)
    (ds : List Byte) : fracFold fo st (b :: ds) = fracFold fo (fracStep fo st b) ds := rfl

/-- The fractional accumulator against the decimal value of the digits read:
the first `19 - frac_digits` digits are appended without wrap-around, the rest
leave it alone. -/
theorem fracFold_spec {F : Type} (fo : FloatOps F) (ds : List Byte)
    (hd : ∀ b ∈ ds, isDigitByte b) :
    ∀ st : FracAcc F, st.frac_acc < 10 ^ min st.frac_digits 19 →
      (fracFold fo st ds).frac_digits = st.frac_digits + ds.length ∧
      (fracFold fo st ds).frac_acc = decimalFrom st.frac_acc (ds.take (19 - st.frac_digits)) ∧
      (fracFold fo st ds).frac_acc < 10 ^ min (st.frac_digits + ds.length) 19 := by
  induction ds with
  | nil =>
    intro st hst
    exact ⟨rfl, by simp [fracFold, decimalFrom], by simpa [fracFold] using hst⟩
  | cons b ds ih =>
    intro st hst
    have hb : 48 ≤ b.val ∧ b.val ≤ 57 := hd b (List.mem_cons_self b ds)
    have hds : ∀ x ∈ ds, isDigitByte x := fun x hx => hd x (List.mem_cons_of_mem b hx)
    rw [fracFold_cons]
    by_cases h19 : st.frac_digits < 19
    · have hmin : min st.frac_digits 19 = st.frac_digits := by omega
      rw [hmin] at hst
      have hpow : (10 : Nat) ^ (st.frac_digits + 1) ≤ 10 ^ 19 :=
        Nat.pow_le_pow_right (by omega) (by omega)
      have hsucc : (10 : Nat) ^ (st.frac_digits + 1) = 10 ^ st.frac_digits * 10 := pow_succ _ _
      have h1019 : (10 : Nat) ^ 19 = 10000000000000000000 := by norm_num
      have hnew : st.frac_acc * 10 + (b.val - 48) < 10 ^ (st.frac_digits + 1) := by omega
      have hu1 : u64 (st.frac_acc * 10) = st.frac_acc * 10 := by
        unfold u64 UINT64_MAX; exact Nat.mod_eq_of_lt (by omega)
      have hu2 : u64 (st.frac_acc * 10 + (b.val - 48)) = st.frac_acc * 10 + (b.val - 48) := by
        unfold u64 UINT64_MAX; exact Nat.mod_eq_of_lt (by omega)
      have hstep : fracStep fo st b =
          { frac_acc := st.frac_acc * 10 + (b.val - 48), frac_digits := st.frac_digits + 1,
            frac_tail := st.frac_tail, tail_scale := st.tail_scale } := by
        unfold fracStep
        rw [if_pos h19, hu1, hu2]
      rw [hstep]
      obtain ⟨i1, i2, i3⟩ := ih hds
        { frac_acc := st.frac_acc * 10 + (b.val - 48), frac_digits := st.frac_digits + 1,
          frac_tail := st.frac_tail, tail_scale := st.tail_scale }
        (by simp only []; rw [show min (st.frac_digits + 1) 19 = st.frac_digits + 1 by omega]
            exact hnew)
      simp only [] at i1 i2 i3
      refine ⟨by rw [i1, List.length_cons]; omega, ?_, ?_⟩
      · rw [i2, show 19 - st.frac_digits = (19 - (st.frac_digits + 1)) + 1 by omega,
          List.take_succ_cons, decimalFrom_cons]
      · rw [List.length_cons, show st.frac_digits + (ds.length + 1)
          = st.frac_digits + 1 + ds.length by omega]
        exact i3
    · have hmin : min st.frac_digits 19 = 19 := by omega
      rw [hmin] at hst
      have hstep : (fracStep fo st b).frac_acc = st.frac_acc ∧
          (fracStep fo st b).frac_digits = st.frac_digits + 1 := by
        unfold fracStep
        rw [if_neg h19]
        exact ⟨rfl, rfl⟩
      obtain ⟨i1, i2, i3⟩ := ih hds (fracStep fo st b)
        (by rw [hstep.1, hstep.2, show min (st.frac_digits + 1) 19 = 19 by omega]; exact hst)
      rw [hstep.1, hstep.2] at i2
      rw [hstep.2] at i1 i3
      refine ⟨by rw [i1, List.length_cons]; omega, ?_, ?_⟩
      · rw [i2, show 19 - (st.frac_digits + 1) = 0 by omega,
          show 19 - st.frac_digits = 0 by omega]
        rfl
      · rw [List.length_cons, show st.frac_digits + (ds.length + 1)
          = st.frac_digits + 1 + ds.length by omega]
        exact i3

/-- C39: for every floating-point arithmetic, every memory and every run of
fractional digits (the digits that the fractional loop of `sv_to_double`
consumes, started as the source starts it): at the end of the loop `frac_acc`
is the decimal value of the first `min k 19` digits, which is at most
`10^19 - 1 < 2^64`, `frac_digits` is the number `k` of digits, and the index
`used` into `k_pow10` is `min k 19`, below the 20 entries of the table.  The
closed part reads 21 digits: the last two do not count. -/
theorem fraction_accumulator_exact {F : Type} (fo : FloatOps F) (mem : Memory) (p n : Nat) :
    (double_frac_loop fo mem n p 0 0 false fo.zero (fo.pow10 (-20))).frac_acc
      = decimalValue ((digitRun (bytesAt mem p n)).take 19) ∧
    (double_frac_loop fo mem n p 0 0 false fo.zero (fo.pow10 (-20))).frac_acc ≤ 10 ^ 19 - 1 ∧
    10 ^ 19 - 1 < UINT64_MAX + 1 ∧
    (double_frac_loop fo mem n p 0 0 false fo.zero (fo.pow10 (-20))).frac_digits
      = (digitRun (bytesAt mem p n)).length ∧
    (if (double_frac_loop fo mem n p 0 0 false fo.zero (fo.pow10 (-20))).frac_digits ≤ 19
      then (double_frac_loop fo mem n p 0 0 false fo.zero (fo.pow10 (-20))).frac_digits
      else 19) = min (digitRun (bytesAt mem p n)).length 19 ∧
    min (digitRun (bytesAt mem p n)).length 19 < (k_pow10 fo).length ∧
    (double_frac_loop ieee (strMem "123456789012345678999") 21 1 0 0 false ieee.zero
      (ieee.pow10 (-20))).frac_acc = 1234567890123456789 := by
  rw [double_frac_loop_eq]
  simp only []
  obtain ⟨h1, h2, h3⟩ := fracFold_spec fo (digitRun (bytesAt mem p n)) (digitRun_digits _)
    { frac_acc := 0, frac_digits := 0, frac_tail := fo.zero, tail_scale := fo.pow10 (-20) }
    (by simp)
  simp only [Nat.zero_add, Nat.sub_zero] at h1 h2 h3
  have hle : (10 : Nat) ^ min (digitRun (bytesAt mem p n)).length 19 ≤ 10 ^ 19 :=
    Nat.pow_le_pow_right (by omega) (by omega)
  refine ⟨h2, by omega, by unfold UINT64_MAX; norm_num, h1, ?_, ?_, by decide⟩
  · rw [h1]; split <;> omega
  · have hk : (k_pow10 fo).length = 20 := by simp [k_pow10]
    rw [hk]; omega

/-! ## `sv_to_double`: the scaling pass -/

/-- The negative scaling multiplies by the entries of `p10_inv` at the indices
that `double_scale_used` lists, in that order. -/
theorem double_scale_down_eq {F : Type} (fo : FloatOps F) : ∀ (k : Nat) (x : F) (e : Int),
    double_scale_down fo k x e =
      (double_scale_used k e).1.foldl (fun acc i => fo.mul acc ((p10_inv fo).getD i fo.zero)) x := by
  intro k
  induction k with
  | zero => intro x e; rfl
  | succ i ih =>
    intro x e
    unfold double_scale_down double_scale_used
    by_cases h : e ≥ (p10_exp.getD i 0 : Int)
    · rw [if_pos h, if_pos h, ih]; rfl
    · rw [if_neg h, if_neg h, ih]

/-- The positive scaling, when it does not fail, multiplies by the entries of
`p10` at the indices that `double_scale_used` lists, in that order. -/
theorem double_scale_up_eq {F : Type} (fo : FloatOps F) : ∀ (k : Nat) (x y : F) (e : Int),
    double_scale_up fo k x e = some y →
      y = (double_scale_used k e).1.foldl (fun acc i => fo.mul acc ((p10 fo).getD i fo.zero)) x := by
  intro k
  induction k with
  | zero => intro x y e h; simpa [double_scale_up, double_scale_used] using h.symm
  | succ i ih =>
    intro x y e h
    unfold double_scale_up at h
    unfold double_scale_used
    by_cases hc : e ≥ (p10_exp.getD i 0 : Int)
    · rw [if_pos hc] at h
      rw [if_pos hc]
      simp only [] at h
      split_ifs at h
      exact ih _ _ _ h
    · rw [if_neg hc] at h
      rw [if_neg hc]
      exact ih _ _ _ h

set_option maxRecDepth 1000000 in
/-- The pass over the table for every `m` from 0 to 400: indices strictly
decreasing, exponents adding up to `m`, nothing left. -/
theorem double_scale_used_table : ∀ m ∈ List.range 401,
    ((double_scale_used 9 (m : Int)).1).Pairwise (fun i j => j < i) ∧
    (∀ i ∈ (double_scale_used 9 (m : Int)).1, i < 9) ∧
    (((double_scale_used 9 (m : Int)).1).map (fun i => p10_exp.getD i 0)).sum = m ∧
    (double_scale_used 9 (m : Int)).2 = 0 := by
  decide!

theorem prod_pow_ten (f : Nat → Nat) (l : List Nat) :
    (l.map (fun i => 10 ^ f i)).prod = 10 ^ (l.map f).sum := by
  induction l with
  | nil => rfl
  | cons a l ih => simp only [List.map_cons, List.prod_cons, List.sum_cons, ih, pow_add]

/-- C38: for every exponent `e` with `-400 ≤ e ≤ 308` (zero or not), the pass
over the table exponents 256, 128, ..., 2, 1 started with `|e|` uses table
indices that strictly decrease (so each entry at most once), the exponents of
the entries used add up to `|e|`, the residual is 0, and the product of the
powers `10^(p10_exp[i])` over the entries used is `10^|e|`.  For every
floating-point arithmetic the negative scaling is the product of the value
with the entries `p10_inv[i]` used, and the positive scaling, when it
succeeds, the product with the entries `p10[i]` used; entry `i` of `p10` and
`p10_inv` is the literal `1e(p10_exp[i])` and `1e-(p10_exp[i])`. -/
theorem scaling_pass_exact {F : Type} (fo : FloatOps F) (e : Int) (x y : F)
    (hlo : -400 ≤ e) (hhi : e ≤ 308) :
    ((double_scale_used 9 (e.natAbs : Int)).1).Pairwise (fun i j => j < i) ∧
    (∀ i ∈ (double_scale_used 9 (e.natAbs : Int)).1, i < 9) ∧
    (((double_scale_used 9 (e.natAbs : Int)).1).map (fun i => p10_exp.getD i 0)).sum
      = e.natAbs ∧
    (double_scale_used 9 (e.natAbs : Int)).2 = 0 ∧
    (((double_scale_used 9 (e.natAbs : Int)).1).map (fun i => 10 ^ p10_exp.getD i 0)).prod
      = 10 ^ e.natAbs ∧
    (e < 0 → double_scale_down fo 9 x (-e) =
      (double_scale_used 9 (e.natAbs : Int)).1.foldl
        (fun acc i => fo.mul acc ((p10_inv fo).getD i fo.zero)) x) ∧
    (0 < e → double_scale_up fo 9 x e = some y →
      y = (double_scale_used 9 (e.natAbs : Int)).1.foldl
        (fun acc i => fo.mul acc ((p10 fo).getD i fo.zero)) x) ∧
    (∀ i, i < 9 → (p10 fo).getD i fo.zero = fo.pow10 (p10_exp.getD i 0 : Nat) ∧
      (p10_inv fo).getD i fo.zero = fo.pow10 (-((p10_exp.getD i 0 : Nat) : Int))) := by
  have hm : e.natAbs ∈ List.range 401 := by
    rw [List.mem_range]; omega
  obtain ⟨t1, t2, t3, t4⟩ := double_scale_used_table e.natAbs hm
  refine ⟨t1, t2, t3, t4, ?_, ?_, ?_, ?_⟩
  · rw [prod_pow_ten, t3]
  · intro hneg
    rw [double_scale_down_eq, show -e = (e.natAbs : Int) by omega]
  · intro hpos hy
    rw [show (e.natAbs : Int) = e by omega]
    exact double_scale_up_eq fo 9 x y e hy
  · intro i hi
    interval_cases i <;> exact ⟨rfl, rfl⟩

/-- Witness for C38 at `e = -400`: the entries 256, 128 and 16 are used. -/
theorem scaling_pass_exact_witness :
    ((-400 : Int) ≤ -400 ∧ (-400 : Int) ≤ 308) ∧
    (double_scale_used 9 400).1 = [8, 7, 4] ∧
    (((double_scale_used 9 (((-400 : Int).natAbs : Nat) : Int)).1).map
      (fun i => p10_exp.getD i 0)).sum = (-400 : Int).natAbs :=
  ⟨⟨by decide, by decide⟩, by decide,
    (scaling_pass_exact ieee (-400) ieee.zero ieee.zero (by decide) (by decide)).2.2.1⟩

/-! ## `sv_to_double`: the integer-part accumulator wraps -/

set_option exponentiation.threshold 5000 in
/-- The runs of `sv_to_double` on 2^64 - 1 and on 2^64 written in decimal. -/
theorem sv_to_double_near_uint64_max :
    sv_to_double ieee (strMem "18446744073709551615") (strView "18446744073709551615")
      (some (Dbl.fin false 7 0)) = (true, some (Dbl.fin false 4503599627370496 12)) ∧
    sv_to_double ieee (strMem "18446744073709551616") (strView "18446744073709551616")
      (some (Dbl.fin false 7 0)) = (true, some (Dbl.fin false 0 (-1074))) := by
  decide

set_option exponentiation.threshold 5000 in
/-- The run of `sv_to_double` on 2^64 written in decimal, followed by `e309`. -/
theorem sv_to_double_wrapped_e309 :
    sv_to_double ieee (strMem "18446744073709551616e309") (strView "18446744073709551616e309")
      (some (Dbl.fin false 7 0)) = (true, some (Dbl.fin false 0 (-1074))) := by
  decide

set_option exponentiation.threshold 5000 in
set_option maxRecDepth 100000 in
/-- The run of `sv_to_double` on `0.` followed by 323 zeros and `9e999`. -/
theorem sv_to_double_tiny_fraction :
    sv_to_double ieee (strMem tinyFractionLiteral) (strView tinyFractionLiteral)
      (some (Dbl.fin false 7 0)) = (true, some (Dbl.fin false 0 (-1074))) := by
  decide!

set_option maxRecDepth 100000 in
/-- The recogniser accepts `0.` followed by 323 zeros and `9e999`. -/
theorem tinyFractionLiteral_parses :
    (parseLiteral ((strView tinyFractionLiteral).bytes (strMem tinyFractionLiteral))).isSome
      = true := by
  decide!

/-- C26 does not hold of the code: on the 20 integer digits of 2^64 the guard
`int_part <= 1844674407370955161` lets the last digit in, and the 64-bit
accumulator wraps to 0, although every non-empty leading part of the digits
has a non-zero decimal value; `sv_to_double` then succeeds with `+0.0`.  On the
digits of 2^64 - 1 the accumulator is exact. -/
theorem int_part_accumulator_wraps :
    (double_int_loop (strMem "18446744073709551616") 20 1 0 false).2.2.1 = 0 ∧
    digitRun (bytesAt (strMem "18446744073709551616") 1 20) = cstr "18446744073709551616" ∧
    (∀ k, k < 20 → decimalValue ((cstr "18446744073709551616").take (k + 1)) ≠ 0) ∧
    sv_to_double ieee (strMem "18446744073709551616") (strView "18446744073709551616")
      (some (Dbl.fin false 7 0)) = (true, some (Dbl.fin false 0 (-1074))) ∧
    (double_int_loop (strMem "18446744073709551615") 20 1 0 false).2.2.1
      = 18446744073709551615 :=
  ⟨by decide, by decide, by decide, sv_to_double_near_uint64_max.2, by decide⟩

/-- C24 does not hold of the code: `18446744073709551616e309` is a literal
with a non-zero mantissa and the exponent 309, and `sv_to_double` returns
`true` with `+0.0` (the integer part has wrapped to 0); so does the literal
`0.` + 323 zeros + `9e999`, whose only non-zero digit is weighted by a
`tail_scale` that has underflowed to 0. -/
theorem overflow_exponent_accepted :
    isDoubleLiteral ((strView "18446744073709551616e309").bytes
      (strMem "18446744073709551616e309")) ∧
    (parseLiteral ((strView "18446744073709551616e309").bytes
      (strMem "18446744073709551616e309"))).map (fun l => (l.int_digits, l.exponent))
      = some (cstr "18446744073709551616", some (false, none, cstr "309")) ∧
    sv_to_double ieee (strMem "18446744073709551616e309") (strView "18446744073709551616e309")
      (some (Dbl.fin false 7 0)) = (true, some (Dbl.fin false 0 (-1074))) ∧
    isDoubleLiteral ((strView tinyFractionLiteral).bytes (strMem tinyFractionLiteral)) ∧
    sv_to_double ieee (strMem tinyFractionLiteral) (strView tinyFractionLiteral)
      (some (Dbl.fin false 7 0)) = (true, some (Dbl.fin false 0 (-1074))) :=
  ⟨(isDoubleLiteral_iff _).2 (by decide), by decide, sv_to_double_wrapped_e309,
    (isDoubleLiteral_iff _).2 tinyFractionLiteral_parses, sv_to_double_tiny_fraction⟩

/-! ## `sv_to_double` on the literals of the grammar -/

theorem DoubleLiteral.bytes_ne_nil {l : DoubleLiteral} (h : l.wf) : l.bytes ≠ [] := by
  obtain ⟨_, _, h3, _⟩ := h
  unfold DoubleLiteral.bytes
  intro hnil
  simp only [List.append_eq_nil] at hnil
  obtain ⟨_, hi, hf, _⟩ := hnil
  rcases h3 with h | h
  · exact h hi
  · cases hfd : l.frac_digits with
    | none => exact h hfd
    | some fs => rw [hfd] at hf; simp [fracBytes] at hf

/-- The text of a literal starts with `'-'` exactly when its sign is `'-'`. -/
theorem DoubleLiteral.hasMinus_bytes {l : DoubleLiteral} (h : l.wf) :
    hasMinus l.bytes = decide (l.sign = some true) := by
  obtain ⟨h1, h2, h3, _⟩ := h
  unfold DoubleLiteral.bytes hasMinus
  cases hs : l.sign with
  | some s => cases s <;> simp [signBytes]
  | none =>
    simp only [signBytes, List.nil_append]
    cases hi : l.int_digits with
    | cons x xs =>
      have hx : isDigitByte x := h1 x (by rw [hi]; exact List.mem_cons_self x xs)
      have := (digit_ne_sign hx).2
      simp [this]
    | nil =>
      rw [hi] at h3
      cases hf : l.frac_digits with
      | none => rw [hf] at h3; rcases h3 with h | h <;> exact absurd rfl h
      | some fs => simp [fracBytes]

/-- On a literal of the grammar `sv_to_double` goes on with what the scan of
the literal has gathered. -/
theorem sv_to_double_of_literal {F : Type} (fo : FloatOps F) (mem : Memory) (sv : StringView)
    (v0 : F) (l : DoubleLiteral) (hwf : l.wf) (hb : sv.bytes mem = l.bytes) :
    sv_to_double fo mem sv (some v0) = double_finish fo (l.scan fo) (some v0) := by
  have h0 : sv.length ≠ 0 := by
    intro h
    have hlen := bytesAt_length mem sv.length sv.begin
    unfold StringView.bytes at hb
    rw [hb, h] at hlen
    exact DoubleLiteral.bytes_ne_nil hwf (List.length_eq_zero.mp hlen)
  unfold sv_to_double
  rw [if_neg (by simp [h0]), double_scan_eq fo mem sv h0, hb, parseLiteral_complete l hwf]
  rfl

/-- C25: for every floating-point arithmetic, every memory and every view whose
bytes are a literal of the grammar with an exponent that has the sign `'-'` and
digits of decimal value above 400: `sv_to_double` returns `true` and stores the
zero `0.0`, negated exactly when the input begins with `'-'`.  In IEEE 754
binary64 these are the zeros with sign bit clear and set; the closed part runs
`1e-401` and `-1e-401`. -/
theorem sv_to_double_underflows_to_zero {F : Type} (fo : FloatOps F) (mem : Memory)
    (sv : StringView) (v0 : F) (l : DoubleLiteral) (u : Bool) (es : List Byte)
    (hwf : l.wf) (hb : sv.bytes mem = l.bytes) (he : l.exponent = some (u, some true, es))
    (h400 : 400 < decimalValue es) :
    sv_to_double fo mem sv (some v0)
      = (true, some (if hasMinus (sv.bytes mem) then fo.neg fo.zero else fo.zero)) ∧
    ieee.zero = Dbl.fin false 0 (-1074) ∧ ieee.neg ieee.zero = Dbl.fin true 0 (-1074) ∧
    sv_to_double ieee (strMem "1e-401") (strView "1e-401") (some (Dbl.fin false 7 0))
      = (true, some (Dbl.fin false 0 (-1074))) ∧
    sv_to_double ieee (strMem "-1e-401") (strView "-1e-401") (some (Dbl.fin false 7 0))
      = (true, some (Dbl.fin true 0 (-1074))) := by
  refine ⟨?_, rfl, rfl, by decide, by decide⟩
  rw [sv_to_double_of_literal fo mem sv v0 l hwf hb, hb, DoubleLiteral.hasMinus_bytes hwf]
  have hd : ∀ b ∈ es, isDigitByte b := (hwf.2.2.2 u (some true) es he).2
  obtain ⟨_, a2, a3⟩ := expAcc_spec es hd 0 (by omega)
  have hexp : 400 < expAcc 0 es := by
    unfold decimalValue at h400
    by_cases hc : decimalFrom 0 es ≤ 99999
    · rw [a2 hc]; exact h400
    · have := a3 (by omega); omega
  have htot : double_exp_total (l.scan fo) = -((expAcc 0 es : Nat) : Int) := by
    simp [double_exp_total, DoubleLiteral.scan, he, exponentNeg, exponentDigits]
  have hneg : (l.scan fo).neg = decide (l.sign = some true) := rfl
  unfold double_finish
  simp only [htot, hneg]
  by_cases hz : fo.eq (double_value fo (l.scan fo)) fo.zero = true
  · rw [if_pos hz]; rfl
  · rw [if_neg hz, if_neg (by omega), if_pos (by omega)]; rfl

/-- Witness for C25 at the input `-2.5e-401`. -/
theorem sv_to_double_underflows_to_zero_witness :
    ((DoubleLiteral.mk (some true) (cstr "2") (some (cstr "5"))
        (some (false, some true, cstr "401"))).wf ∧
      (strView "-2.5e-401").bytes (strMem "-2.5e-401")
        = (DoubleLiteral.mk (some true) (cstr "2") (some (cstr "5"))
            (some (false, some true, cstr "401"))).bytes ∧
      400 < decimalValue (cstr "401")) ∧
    sv_to_double ieee (strMem "-2.5e-401") (strView "-2.5e-401") (some (Dbl.fin false 7 0))
      = (true, some (if hasMinus ((strView "-2.5e-401").bytes (strMem "-2.5e-401"))
          then ieee.neg ieee.zero else ieee.zero)) :=
  have hwf : (DoubleLiteral.mk (some true) (cstr "2") (some (cstr "5"))
      (some (false, some true, cstr "401"))).wf :=
    (@parseLiteral_sound ((strView "-2.5e-401").bytes (strMem "-2.5e-401")) _
      (by decide)).1
  ⟨⟨hwf, by decide, by decide⟩,
    (sv_to_double_underflows_to_zero ieee (strMem "-2.5e-401") (strView "-2.5e-401")
      (Dbl.fin false 7 0) _ false (cstr "401") hwf (by decide) rfl (by decide)).1⟩

/-! ## `sv_to_cstr` -/

/-- Two byte ranges of the same length, in two memories, hold the same bytes
exactly when they agree index by index. -/
theorem bytesAt_eq_bytesAt_iff (m1 m2 : Memory) (n a b : Nat) :
    bytesAt m1 a n = bytesAt m2 b n ↔ ∀ j, j < n → m1 (a + j) = m2 (b + j) := by
  induction n generalizing a b with
  | zero => simp [bytesAt]
  | succ n ih =>
    simp only [bytesAt, List.cons.injEq, ih]
    constructor
    · rintro ⟨h0, h⟩ j hj
      rcases Nat.eq_zero_or_pos j with rfl | hpos
      · simpa using h0
      · have := h (j - 1) (by omega)
        rwa [show a + 1 + (j - 1) = a + j by omega,
          show b + 1 + (j - 1) = b + j by omega] at this
    · intro h
      refine ⟨by simpa using h 0 (by omega), fun j hj => ?_⟩
      have := h (j + 1) (by omega)
      rwa [show a + (j + 1) = a + 1 + j by omega, show b + (j + 1) = b + 1 + j by omega] at this

/-- C35: for every memory, view, buffer address and capacity `c`: with
`c = 0`, `sv_to_cstr` returns 0 and leaves the memory as it is; otherwise it
returns `n = min sv.length (c - 1)`, and after the call the buffer holds the
first `n` bytes that the view held before the call, then the NUL byte at index
`n`; every address outside `buffer[0 .. n]` is unchanged, the buffer bytes at
indices above `n` included.  A view longer than `c - 1` is truncated, not
rejected.  The closed part copies `"banana"` into a buffer of 4 bytes. -/
theorem sv_to_cstr_copies (mem : Memory) (sv : StringView) (buffer c : Nat) :
    (c = 0 → sv_to_cstr mem sv buffer c = (0, mem)) ∧
    (c ≠ 0 →
      (sv_to_cstr mem sv buffer c).1 = min sv.length (c - 1) ∧
      (sv_to_cstr mem sv buffer c).1 < c ∧
      bytesAt (sv_to_cstr mem sv buffer c).2 buffer (min sv.length (c - 1))
        = bytesAt mem sv.begin (min sv.length (c - 1)) ∧
      (sv_to_cstr mem sv buffer c).2 (buffer + min sv.length (c - 1)) = 0 ∧
      ∀ a, (a < buffer ∨ buffer + min sv.length (c - 1) < a) →
        (sv_to_cstr mem sv buffer c).2 a = mem a) ∧
    (sv_to_cstr bananaMem ⟨1, 6⟩ 20 4).1 = 3 ∧
    bytesAt (sv_to_cstr bananaMem ⟨1, 6⟩ 20 4).2 20 4 = [98, 97, 110, 0] := by
  refine ⟨?_, ?_, by decide, by decide⟩
  · intro h0
    unfold sv_to_cstr
    rw [if_pos h0]
  · intro h0
    have hn : (if sv.length > c - 1 then c - 1 else sv.length) = min sv.length (c - 1) := by
      split <;> omega
    have hfun : sv_to_cstr mem sv buffer c = (min sv.length (c - 1),
        fun a => if a = buffer + min sv.length (c - 1) then 0
          else (if min sv.length (c - 1) > 0
            then memcpy mem buffer sv.begin (min sv.length (c - 1)) else mem) a) := by
      unfold sv_to_cstr
      rw [if_neg h0]
      simp only [hn]
    rw [hfun]
    simp only []
    refine ⟨trivial, by omega, ?_, by simp, ?_⟩
    · rw [bytesAt_eq_bytesAt_iff]
      intro j hj
      rw [if_neg (by omega), if_pos (by omega)]
      unfold memcpy
      rw [if_pos ⟨by omega, by omega⟩, Nat.add_sub_cancel_left]
    · intro a ha
      rw [if_neg (by omega)]
      split
      · unfold memcpy
        rw [if_neg (by omega)]
      · rfl

/-! ## Trimming -/

/-- The loop of `sv_trim_left` ends, at the first index whose byte is not
white space, or at the length. -/
theorem sv_trim_left_loop_spec (mem : Memory) (sv : StringView) : ∀ (fuel i : Nat),
    i ≤ sv.length → sv.length - i < fuel →
    ∃ k, sv_trim_left_loop mem sv fuel i = some k ∧ i ≤ k ∧ k ≤ sv.length ∧
      (∀ j, i ≤ j → j < k → isspace (mem (sv.begin + j)) = true) ∧
      (k < sv.length → isspace (mem (sv.begin + k)) = false) := by
  intro fuel
  induction fuel with
  | zero => intro i _ h; omega
  | succ fuel ih =>
    intro i hi hf
    unfold sv_trim_left_loop
    by_cases hc : i < sv.length ∧ isspace (mem (sv.begin + i)) = true
    · rw [if_pos hc]
      obtain ⟨k, hk, h1, h2, h3, h4⟩ := ih (i + 1) (by omega) (by omega)
      refine ⟨k, hk, by omega, h2, ?_, h4⟩
      intro j hj1 hj2
      by_cases hji : j = i
      · rw [hji]; exact hc.2
      · exact h3 j (by omega) hj2
    · rw [if_neg hc]
      refine ⟨i, rfl, Nat.le_refl _, hi, fun j h1 h2 => by omega, ?_⟩
      intro hlt
      cases hs : isspace (mem (sv.begin + i)) with
      | false => rfl
      | true => exact absurd ⟨hlt, hs⟩ hc

/-- The loop of `sv_trim_right` ends, at the first count `k` for which the
byte `k` places before the end is not white space, or at the length. -/
theorem sv_trim_right_loop_spec (mem : Memory) (sv : StringView) : ∀ (fuel i : Nat),
    i ≤ sv.length → sv.length - i < fuel →
    ∃ k, sv_trim_right_loop mem sv fuel i = some k ∧ i ≤ k ∧ k ≤ sv.length ∧
      (∀ j, i ≤ j → j < k → isspace (mem (sv.begin + (sv.length - j - 1))) = true) ∧
      (k < sv.length → isspace (mem (sv.begin + (sv.length - k - 1))) = false) := by
  intro fuel
  induction fuel with
  | zero => intro i _ h; omega
  | succ fuel ih =>
    intro i hi hf
    unfold sv_trim_right_loop
    by_cases hc : i < sv.length ∧ isspace (mem (sv.begin + (sv.length - i - 1))) = true
    · rw [if_pos hc]
      obtain ⟨k, hk, h1, h2, h3, h4⟩ := ih (i + 1) (by omega) (by omega)
      refine ⟨k, hk, by omega, h2, ?_, h4⟩
      intro j hj1 hj2
      by_cases hji : j = i
      · rw [hji]; exact hc.2
      · exact h3 j (by omega) hj2
    · rw [if_neg hc]
      refine ⟨i, rfl, Nat.le_refl _, hi, fun j h1 h2 => by omega, ?_⟩
      intro hlt
      cases hs : isspace (mem (sv.begin + (sv.length - i - 1))) with
      | false => rfl
      | true => exact absurd ⟨hlt, hs⟩ hc

/-- `sv_trim_left` returns the view that starts after the leading white space. -/
theorem sv_trim_left_spec (mem : Memory) (sv : StringView) (hmax : sv.length ≤ SIZE_MAX) :
    ∃ k, sv_trim_left mem sv = some ⟨sv.begin + k, sv.length - k⟩ ∧ k ≤ sv.length ∧
      (∀ j, j < k → isspace (mem (sv.begin + j)) = true) ∧
      (k < sv.length → isspace (mem (sv.begin + k)) = false) := by
  obtain ⟨k, hk, _, h2, h3, h4⟩ :=
    sv_trim_left_loop_spec mem sv (sv.length + 1) 0 (by omega) (by omega)
  refine ⟨k, ?_, h2, fun j hj => h3 j (by omega) hj, h4⟩
  unfold sv_trim_left
  rw [hk]
  simp only [Option.map_some', sv_from_parts, size_sub_eq h2 hmax]

/-- `sv_trim_right` returns the view that ends before the trailing white space. -/
theorem sv_trim_right_spec (mem : Memory) (sv : StringView) (hmax : sv.length ≤ SIZE_MAX) :
    ∃ k, sv_trim_right mem sv = some ⟨sv.begin, sv.length - k⟩ ∧ k ≤ sv.length ∧
      (∀ j, j < k → isspace (mem (sv.begin + (sv.length - j - 1))) = true) ∧
      (k < sv.length → isspace (mem (sv.begin + (sv.length - k - 1))) = false) := by
  obtain ⟨k, hk, _, h2, h3, h4⟩ :=
    sv_trim_right_loop_spec mem sv (sv.length + 1) 0 (by omega) (by omega)
  refine ⟨k, ?_, h2, fun j hj => h3 j (by omega) hj, h4⟩
  unfold sv_trim_right
  rw [hk]
  simp only [Option.map_some', sv_from_parts, size_sub_eq h2 hmax]

/-- Dropping the longest prefix of a kind from a list that is such a prefix
followed by something that does not start with that kind. -/
theorem dropWhile_append_of {α : Type} (p : α → Bool) (A B : List α)
    (hA : ∀ x ∈ A, p x = true) (hB : ∀ x, B.head? = some x → p x = false) :
    (A ++ B).dropWhile p = B := by
  induction A with
  | nil =>
    cases B with
    | nil => rfl
    | cons b B => simp [List.dropWhile, hB b rfl]
  | cons a A ih =>
    simp only [List.cons_append, List.dropWhile, hA a (List.mem_cons_self a A)]
    exact ih (fun x hx => hA x (List.mem_cons_of_mem a hx))

theorem bytesAt_head (mem : Memory) (p n : Nat) (x : Byte)
    (h : (bytesAt mem p n).head? = some x) : n ≠ 0 ∧ x = mem p := by
  cases n with
  | zero => cases h
  | succ n =>
    simp only [bytesAt, List.head?_cons, Option.some.injEq] at h
    exact ⟨Nat.succ_ne_zero n, h.symm⟩

theorem bytesAt_reverse_head (mem : Memory) (p n : Nat) (x : Byte)
    (h : (bytesAt mem p n).reverse.head? = some x) : n ≠ 0 ∧ x = mem (p + (n - 1)) := by
  cases n with
  | zero => cases h
  | succ n =>
    rw [bytesAt_append mem n 1 p] at h
    simp only [bytesAt, List.reverse_append, List.reverse_cons, List.reverse_nil,
      List.nil_append, List.singleton_append, List.head?_cons, Option.some.injEq] at h
    exact ⟨Nat.succ_ne_zero n, by rw [Nat.add_sub_cancel]; exact h.symm⟩

/-- `sv_trim` returns the view between the leading and the trailing white
space. -/
theorem sv_trim_spec (mem : Memory) (sv : StringView) (hmax : sv.length ≤ SIZE_MAX) :
    ∃ k1 k2, sv_trim mem sv = some ⟨sv.begin + k1, sv.length - k1 - k2⟩ ∧
      sv_trim_left mem sv = some ⟨sv.begin + k1, sv.length - k1⟩ ∧
      sv_trim_right mem ⟨sv.begin + k1, sv.length - k1⟩
        = some ⟨sv.begin + k1, sv.length - k1 - k2⟩ ∧
      k1 + k2 ≤ sv.length ∧
      (∀ j, j < k1 → isspace (mem (sv.begin + j)) = true) ∧
      (k1 < sv.length → isspace (mem (sv.begin + k1)) = false) ∧
      (∀ j, j < k2 → isspace (mem (sv.begin + k1 + (sv.length - k1 - j - 1))) = true) ∧
      (k2 < sv.length - k1 →
        isspace (mem (sv.begin + k1 + (sv.length - k1 - k2 - 1))) = false) := by
  obtain ⟨k1, e1, h1, a1, b1⟩ := sv_trim_left_spec mem sv hmax
  obtain ⟨k2, e2, h2, a2, b2⟩ := sv_trim_right_spec mem ⟨sv.begin + k1, sv.length - k1⟩
    (by simp only []; omega)
  simp only [] at e2 h2 a2 b2
  refine ⟨k1, k2, ?_, e1, e2, by omega, a1, b1, a2, b2⟩
  unfold sv_trim
  rw [e1]
  exact e2

/-- A view that neither begins nor ends with white space is left as it is. -/
theorem sv_trim_of_clean (mem : Memory) (sv : StringView) (hmax : sv.length ≤ SIZE_MAX)
    (h : sv.length ≠ 0 → isspace (sv_at mem sv 0) = false ∧
      isspace (sv_at mem sv (sv.length - 1)) = false) :
    sv_trim mem sv = some sv := by
  obtain ⟨k1, k2, e, _, _, hk, a1, _, a2, _⟩ := sv_trim_spec mem sv hmax
  unfold sv_at at h
  have z1 : k1 = 0 := by
    by_contra hne
    have hs := a1 0 (by omega)
    rw [(h (by omega)).1] at hs
    cases hs
  have z2 : k2 = 0 := by
    by_contra hne
    have hs := a2 0 (by omega)
    rw [z1] at hs
    simp only [Nat.add_zero, Nat.sub_zero] at hs
    rw [(h (by omega)).2] at hs
    cases hs
  rw [e, z1, z2]
  rfl

/-- C36: for every memory and every view whose length is a `size_t` value,
with white space the six bytes that `isspace` accepts in the "C" locale:
`sv_trim_left` returns the end part of the view whose bytes are the bytes of
the view without the longest leading run of white space, `sv_trim_right` the
start part whose bytes are the bytes without the longest trailing run, and
`sv_trim`, which is `sv_trim_right` of `sv_trim_left`, a sub-range that neither
begins nor ends with white space, is empty when every byte is white space, is
the view itself when the view neither begins nor ends with white space, and is
left as it is by `sv_trim`. -/
theorem trim_removes_outer_whitespace (mem : Memory) (sv : StringView)
    (hmax : sv.length ≤ SIZE_MAX) :
    (∃ l, sv_trim_left mem sv = some l ∧
      l.bytes mem = (sv.bytes mem).dropWhile isspace ∧
      sv.begin ≤ l.begin ∧ l.begin + l.length = sv.begin + sv.length) ∧
    (∃ r, sv_trim_right mem sv = some r ∧
      r.bytes mem = (sv.bytes mem).rdropWhile isspace ∧
      r.begin = sv.begin ∧ r.length ≤ sv.length) ∧
    (∃ l t, sv_trim_left mem sv = some l ∧ sv_trim_right mem l = some t ∧
      sv_trim mem sv = some t ∧
      sv.begin ≤ t.begin ∧ t.begin + t.length ≤ sv.begin + sv.length ∧
      (t.length ≠ 0 → isspace (sv_at mem t 0) = false ∧
        isspace (sv_at mem t (t.length - 1)) = false) ∧
      ((∀ i, i < sv.length → isspace (sv_at mem sv i) = true) → t.length = 0) ∧
      ((sv.length ≠ 0 → isspace (sv_at mem sv 0) = false ∧
        isspace (sv_at mem sv (sv.length - 1)) = false) → t = sv) ∧
      sv_trim mem t = some t) := by
  refine ⟨?_, ?_, ?_⟩
  · obtain ⟨k, e, hk, a, b⟩ := sv_trim_left_spec mem sv hmax
    refine ⟨_, e, ?_, by simp only []; omega, by simp only []; omega⟩
    unfold StringView.bytes
    simp only []
    have hsplit := bytesAt_append mem k (sv.length - k) sv.begin
    rw [show k + (sv.length - k) = sv.length by omega] at hsplit
    rw [hsplit]
    symm
    apply dropWhile_append_of
    · intro x hx
      obtain ⟨j, hj, rfl⟩ := mem_bytesAt.mp hx
      exact a j hj
    · intro x hx
      obtain ⟨hne, rfl⟩ := bytesAt_head mem _ _ x hx
      exact b (by omega)
  · obtain ⟨k, e, hk, a, b⟩ := sv_trim_right_spec mem sv hmax
    refine ⟨_, e, ?_, rfl, by simp only []; omega⟩
    unfold StringView.bytes
    simp only []
    have hsplit := bytesAt_append mem (sv.length - k) k sv.begin
    rw [show sv.length - k + k = sv.length by omega] at hsplit
    rw [hsplit, List.rdropWhile, List.reverse_append,
      dropWhile_append_of isspace _ _ _ _, List.reverse_reverse]
    · intro x hx
      rw [List.mem_reverse] at hx
      obtain ⟨j, hj, rfl⟩ := mem_bytesAt.mp hx
      have := a (k - 1 - j) (by omega)
      rwa [show sv.begin + (sv.length - (k - 1 - j) - 1) = sv.begin + (sv.length - k) + j
        by omega] at this
    · intro x hx
      obtain ⟨hne, rfl⟩ := bytesAt_reverse_head mem _ _ x hx
      exact b (by omega)
  · obtain ⟨k1, k2, e, el, er, hk, a1, b1, a2, b2⟩ := sv_trim_spec mem sv hmax
    refine ⟨_, _, el, er, e, by simp only []; omega, by simp only []; omega, ?_, ?_, ?_, ?_⟩
    · intro hne
      simp only [] at hne
      simp only [sv_at, Nat.add_zero]
      exact ⟨b1 (by omega), b2 (by omega)⟩
    · intro hall
      simp only []
      by_contra hne
      have h1 := b1 (by omega)
      have h2 := hall k1 (by omega)
      unfold sv_at at h2
      rw [h1] at h2
      cases h2
    · intro hclean
      rw [sv_trim_of_clean mem sv hmax hclean] at e
      exact (Option.some.inj e).symm
    · apply sv_trim_of_clean
      · simp only []; omega
      · intro hne
        simp only [] at hne
        simp only [sv_at, Nat.add_zero]
        exact ⟨b1 (by omega), b2 (by omega)⟩

/-- Witness for C36: the view `"  hi \t"` at address 1 trims to `"hi"`. -/
theorem trim_removes_outer_whitespace_witness :
    (StringView.mk 1 6).length ≤ SIZE_MAX ∧
    (∃ l, sv_trim_left trimMem ⟨1, 6⟩ = some l ∧
      l.bytes trimMem = ((StringView.mk 1 6).bytes trimMem).dropWhile isspace ∧
      (StringView.mk 1 6).begin ≤ l.begin ∧
      l.begin + l.length = (StringView.mk 1 6).begin + (StringView.mk 1 6).length) ∧
    sv_trim_left trimMem ⟨1, 6⟩ = some ⟨3, 4⟩ ∧
    sv_trim_right trimMem ⟨1, 6⟩ = some ⟨1, 4⟩ ∧
    sv_trim trimMem ⟨1, 6⟩ = some ⟨3, 2⟩ ∧
    sv_trim trimMem ⟨1, 2⟩ = some ⟨3, 0⟩ :=
  ⟨by decide, (trim_removes_outer_whitespace trimMem ⟨1, 6⟩ (by decide)).1, by decide,
    by decide, by decide, by decide⟩

/-! ## IEEE 754 binary64: rounding keeps magnitudes -/

theorem bitLengthAux_lt : ∀ (fuel n : Nat), n ≤ fuel → n < 2 ^ bitLengthAux fuel n := by
  intro fuel
  induction fuel with
  | zero => intro n h; simp only [bitLengthAux]; omega
  | succ fuel ih =>
    intro n h
    unfold bitLengthAux
    by_cases h0 : n = 0
    · rw [if_pos h0, h0]; exact Nat.one_pos
    · rw [if_neg h0, pow_succ]
      have := ih (n / 2) (by omega)
      omega

theorem bitLengthAux_ge : ∀ (fuel n : Nat), n ≤ fuel → n ≠ 0 →
    2 ^ (bitLengthAux fuel n - 1) ≤ n ∧ bitLengthAux fuel n ≠ 0 := by
  intro fuel
  induction fuel with
  | zero => intro n h h0; omega
  | succ fuel ih =>
    intro n h h0
    unfold bitLengthAux
    rw [if_neg h0]
    refine ⟨?_, Nat.succ_ne_zero _⟩
    rw [Nat.add_sub_cancel]
    by_cases h2 : n / 2 = 0
    · have : bitLengthAux fuel (n / 2) = 0 := by
        rw [h2]; cases fuel <;> simp [bitLengthAux]
      rw [this]; simp only [pow_zero]; omega
    · obtain ⟨i1, i2⟩ := ih (n / 2) (by omega) h2
      have e : bitLengthAux fuel (n / 2) = (bitLengthAux fuel (n / 2) - 1) + 1 := by omega
      rw [e, pow_succ]
      omega

theorem lt_two_pow_bitLength (n : Nat) : n < 2 ^ bitLength n := bitLengthAux_lt n n (Nat.le_refl n)

theorem two_pow_bitLength_le {n : Nat} (h : n ≠ 0) :
    2 ^ (bitLength n - 1) ≤ n ∧ bitLength n ≠ 0 := bitLengthAux_ge n n (Nat.le_refl n) h

theorem bitLength_le_of_lt {n k : Nat} (h : n < 2 ^ k) : bitLength n ≤ k := by
  by_cases h0 : n = 0
  · rw [h0]; simp [bitLength, bitLengthAux]
  · obtain ⟨h1, h2⟩ := two_pow_bitLength_le h0
    by_contra hc
    have : 2 ^ k ≤ 2 ^ (bitLength n - 1) := Nat.pow_le_pow_right (by omega) (by omega)
    omega

theorem bitLength_zero : bitLength 0 = 0 := rfl

theorem magBelow_fin_iff (s : Bool) (m : Nat) (e K : Int) :
    (Dbl.fin s m e).magBelow K ↔
      (m < 2 ^ 53 ∧ -1074 ≤ e ∧ e ≤ 971 ∧ (m < 2 ^ 52 → e = -1074) ∧
        e + (bitLength m : Int) ≤ K) := by
  constructor
  · rintro ⟨_, _, _, heq, hp⟩
    cases heq
    exact hp
  · intro h
    exact ⟨s, m, e, rfl, h⟩

theorem not_magBelow_inf (s : Bool) (K : Int) : ¬(Dbl.inf s).magBelow K := by
  rintro ⟨_, _, _, heq, _⟩
  cases heq

theorem not_magBelow_nan (K : Int) : ¬Dbl.nan.magBelow K := by
  rintro ⟨_, _, _, heq, _⟩
  cases heq

/-- Rounding keeps a magnitude below `2^K`, for `K` up to 1024: the result is
finite and in the kept form. -/
theorem round_magBelow (s : Bool) (m : Nat) (e K : Int)
    (h : e + (bitLength m : Int) < K) (hK1 : -1074 < K) (hK2 : K ≤ 1024) :
    (Dbl.round s m e).magBelow K := by
  unfold Dbl.round
  by_cases hm : m = 0
  · rw [if_pos hm]
    simp only [magBelow_fin_iff, bitLength_zero]
    exact ⟨by norm_num, by omega, by omega, fun _ => trivial, by omega⟩
  · rw [if_neg hm]
    simp only []
    have hb1 := lt_two_pow_bitLength m
    obtain ⟨hb2, hb3⟩ := two_pow_bitLength_le hm
    generalize hb : bitLength m = b at h hb1 hb2 hb3 ⊢
    generalize he1 : max (e + (b : Int) - 53) (-1074) = e1
    have e1a : e + (b : Int) - 53 ≤ e1 := by omega
    have e1b : -1074 ≤ e1 := by omega
    have e1c : e1 = -1074 ∨ e1 = e + (b : Int) - 53 := by omega
    by_cases hle : e1 ≤ e
    · rw [if_pos hle, if_neg (by omega)]
      obtain ⟨j, hj⟩ : ∃ j : Nat, e - e1 = (j : Int) := ⟨(e - e1).toNat, by omega⟩
      rw [hj, Int.toNat_ofNat]
      have hbj : b + j ≤ 53 := by omega
      have hlt : m * 2 ^ j < 2 ^ (b + j) := by
        rw [pow_add]; exact Nat.mul_lt_mul_of_pos_right hb1 (Nat.two_pow_pos j)
      have hle53 : 2 ^ (b + j) ≤ 2 ^ 53 := Nat.pow_le_pow_right (by omega) hbj
      have hbl := bitLength_le_of_lt hlt
      simp only [magBelow_fin_iff]
      refine ⟨by omega, e1b, by omega, ?_, by omega⟩
      intro hsmall
      rcases e1c with hc | hc
      · exact hc
      · exfalso
        have hj53 : j = 53 - b := by omega
        have : 2 ^ (b - 1) * 2 ^ j ≤ m * 2 ^ j := Nat.mul_le_mul_right _ hb2
        rw [← pow_add, show b - 1 + j = 52 by omega] at this
        omega
    · rw [if_neg hle]
      obtain ⟨sh, hsh⟩ : ∃ sh : Nat, e1 - e = (sh : Int) := ⟨(e1 - e).toNat, by omega⟩
      rw [hsh, Int.toNat_ofNat]
      have hsh1 : 1 ≤ sh := by omega
      have hbsh : b ≤ sh + 53 := by omega
      have hpos : 0 < 2 ^ sh := Nat.two_pow_pos sh
      have hq53 : m / 2 ^ sh < 2 ^ 53 := by
        rw [Nat.div_lt_iff_lt_mul hpos, ← pow_add]
        exact Nat.lt_of_lt_of_le hb1 (Nat.pow_le_pow_right (by omega) (by omega))
      generalize hq : m / 2 ^ sh = q at hq53 ⊢
      generalize hq1 : (if m % 2 ^ sh > 2 ^ (sh - 1) ∨ m % 2 ^ sh = 2 ^ (sh - 1) ∧ q % 2 = 1
        then q + 1 else q) = q1
      have hq1a : q ≤ q1 := by rw [← hq1]; split <;> omega
      have hq1b : q1 ≤ q + 1 := by rw [← hq1]; split <;> omega
      have hqm : q * 2 ^ sh ≤ m := by rw [← hq]; exact Nat.div_mul_le_self m (2 ^ sh)
      by_cases hcarry : q1 = 2 ^ 53
      · simp only [hcarry, if_true]
        have hq52 : 2 ^ 52 ≤ q := by omega
        have hbig : 2 ^ (52 + sh) ≤ m := by
          rw [pow_add]; exact Nat.le_trans (Nat.mul_le_mul_right _ hq52) hqm
        have hbeq : b = sh + 53 := by
          by_contra hne
          have : 2 ^ b ≤ 2 ^ (52 + sh) := Nat.pow_le_pow_right (by omega) (by omega)
          omega
        rw [if_neg (by omega)]
        have hbl : bitLength (2 ^ 52) ≤ 53 := bitLength_le_of_lt (by norm_num)
        simp only [magBelow_fin_iff]
        exact ⟨by norm_num, by omega, by omega, fun hx => absurd hx (by omega), by omega⟩
      · simp only [hcarry, if_false]
        rw [if_neg (by omega)]
        simp only [magBelow_fin_iff]
        refine ⟨by omega, e1b, by omega, ?_, ?_⟩
        · intro hsmall
          rcases e1c with hc | hc
          · exact hc
          · exfalso
            have hshb : sh + 53 = b := by omega
            have hm52 : 2 ^ 52 * 2 ^ sh ≤ m := by
              rw [← pow_add, show 52 + sh = b - 1 by omega]; exact hb2
            have hq52 : 2 ^ 52 ≤ q := by
              rw [← hq]; exact (Nat.le_div_iff_mul_le hpos).2 hm52
            omega
        · by_cases hbs : sh ≤ b
          · have hqlt : q < 2 ^ (b - sh) := by
              rw [← hq, Nat.div_lt_iff_lt_mul hpos, ← pow_add, show b - sh + sh = b by omega]
              exact hb1
            have hq1lt : q1 < 2 ^ (b - sh + 1) := by
              rw [pow_succ]; omega
            have hbl := bitLength_le_of_lt hq1lt
            omega
          · have hq0 : q = 0 := by
              rw [← hq]
              apply Nat.div_eq_of_lt
              exact Nat.lt_of_lt_of_le hb1 (Nat.pow_le_pow_right (by omega) (by omega))
            have hq1lt : q1 < 2 ^ 1 := by omega
            have hbl := bitLength_le_of_lt hq1lt
            omega

theorem bitLength_eq {n k : Nat} (h1 : 2 ^ (k - 1) ≤ n) (h2 : n < 2 ^ k) :
    bitLength n = k := by
  have hle := bitLength_le_of_lt h2
  have hlt := lt_two_pow_bitLength n
  by_contra hne
  have : 2 ^ bitLength n ≤ 2 ^ (k - 1) := Nat.pow_le_pow_right (by omega) (by omega)
  omega

theorem bitLength_mul_two_pow {m : Nat} (h0 : m ≠ 0) (j : Nat) :
    bitLength (m * 2 ^ j) = bitLength m + j := by
  obtain ⟨h1, h2⟩ := two_pow_bitLength_le h0
  have h3 := lt_two_pow_bitLength m
  apply bitLength_eq
  · rw [show bitLength m + j - 1 = (bitLength m - 1) + j by omega, pow_add]
    exact Nat.mul_le_mul_right _ h1
  · rw [pow_add]
    exact Nat.mul_lt_mul_of_pos_right h3 (Nat.two_pow_pos j)

theorem Dbl.magBelow.isFinite {x : Dbl} {K : Int} (h : x.magBelow K) : x.isFinite = true := by
  cases x with
  | fin s m e => rfl
  | inf s => exact absurd h (not_magBelow_inf _ _)
  | nan => exact absurd h (not_magBelow_nan _)

theorem Dbl.magBelow.mono {x : Dbl} {K K2 : Int} (h : x.magBelow K) (hk : K ≤ K2) :
    x.magBelow K2 := by
  cases x with
  | fin s m e =>
    simp only [magBelow_fin_iff] at h ⊢
    exact ⟨h.1, h.2.1, h.2.2.1, h.2.2.2.1, by omega⟩
  | inf s => exact absurd h (not_magBelow_inf _ _)
  | nan => exact absurd h (not_magBelow_nan _)

theorem Dbl.magBelow.lower {x : Dbl} {K : Int} (h : x.magBelow K) : -1074 ≤ K := by
  cases x with
  | fin s m e =>
    simp only [magBelow_fin_iff] at h
    omega
  | inf s => exact absurd h (not_magBelow_inf _ _)
  | nan => exact absurd h (not_magBelow_nan _)

/-- A product of two kept values is kept when the magnitudes allow it. -/
theorem mul_magBelow {x y : Dbl} {K1 K2 K : Int} (hx : x.magBelow K1) (hy : y.magBelow K2)
    (hK : K1 + K2 < K) (hK1 : -1074 < K) (hK2 : K ≤ 1024) : (Dbl.mul x y).magBelow K := by
  cases x with
  | fin s1 m1 e1 =>
    cases y with
    | fin s2 m2 e2 =>
      simp only [magBelow_fin_iff] at hx hy
      simp only [Dbl.mul]
      apply round_magBelow _ _ _ _ _ hK1 hK2
      have h1 := lt_two_pow_bitLength m1
      have h2 := lt_two_pow_bitLength m2
      have hlt : m1 * m2 < 2 ^ (bitLength m1 + bitLength m2) := by
        rw [pow_add]
        exact Nat.mul_lt_mul'' h1 h2
      have := bitLength_le_of_lt hlt
      omega
    | inf s => exact absurd hy (not_magBelow_inf _ _)
    | nan => exact absurd hy (not_magBelow_nan _)
  | inf s => exact absurd hx (not_magBelow_inf _ _)
  | nan => exact absurd hx (not_magBelow_nan _)

/-- A sum of two kept values is kept when the magnitudes allow it. -/
theorem add_magBelow {x y : Dbl} {K1 K2 K : Int} (hx : x.magBelow K1) (hy : y.magBelow K2)
    (hK : max K1 K2 + 1 < K) (hK2 : K ≤ 1024) : (Dbl.add x y).magBelow K := by
  have hlow := hx.lower
  cases x with
  | fin s1 m1 e1 =>
    cases y with
    | fin s2 m2 e2 =>
      simp only [magBelow_fin_iff] at hx hy
      simp only [Dbl.add]
      obtain ⟨j1, hj1⟩ : ∃ j : Nat, e1 - min e1 e2 = (j : Int) :=
        ⟨(e1 - min e1 e2).toNat, by omega⟩
      obtain ⟨j2, hj2⟩ : ∃ j : Nat, e2 - min e1 e2 = (j : Int) :=
        ⟨(e2 - min e1 e2).toNat, by omega⟩
      rw [hj1, hj2, Int.toNat_ofNat, Int.toNat_ofNat]
      obtain ⟨t, ht⟩ : ∃ t : Nat, max K1 K2 + 1 - min e1 e2 = (t : Int) :=
        ⟨(max K1 K2 + 1 - min e1 e2).toNat, by omega⟩
      have h1 := lt_two_pow_bitLength m1
      have h2 := lt_two_pow_bitLength m2
      have hb1 : m1 * 2 ^ j1 < 2 ^ (bitLength m1 + j1) := by
        rw [pow_add]; exact Nat.mul_lt_mul_of_pos_right h1 (Nat.two_pow_pos j1)
      have hb2 : m2 * 2 ^ j2 < 2 ^ (bitLength m2 + j2) := by
        rw [pow_add]; exact Nat.mul_lt_mul_of_pos_right h2 (Nat.two_pow_pos j2)
      have hc1 : 2 ^ (bitLength m1 + j1) ≤ 2 ^ (t - 1) :=
        Nat.pow_le_pow_right (by omega) (by omega)
      have hc2 : 2 ^ (bitLength m2 + j2) ≤ 2 ^ (t - 1) :=
        Nat.pow_le_pow_right (by omega) (by omega)
      have ht1 : 2 ^ t = 2 ^ (t - 1) * 2 := by
        rw [← pow_succ, show t - 1 + 1 = t by omega]
      generalize m1 * 2 ^ j1 = M1 at hb1 ⊢
      generalize m2 * 2 ^ j2 = M2 at hb2 ⊢
      have habs : ((if s1 = true then (-1 : Int) else 1) * (M1 : Int)
          + (if s2 = true then (-1 : Int) else 1) * (M2 : Int)).natAbs < 2 ^ t := by
        cases s1 <;> cases s2 <;> simp <;> omega
      generalize (if s1 = true then (-1 : Int) else 1) * (M1 : Int)
          + (if s2 = true then (-1 : Int) else 1) * (M2 : Int) = S at habs ⊢
      by_cases h0 : S = 0
      · rw [if_pos h0]
        simp only [magBelow_fin_iff, bitLength_zero]
        exact ⟨by norm_num, by omega, by omega, fun _ => trivial, by omega⟩
      · rw [if_neg h0]
        apply round_magBelow _ _ _ _ _ (by omega) hK2
        have := bitLength_le_of_lt habs
        omega
    | inf s => exact absurd hy (not_magBelow_inf _ _)
    | nan => exact absurd hy (not_magBelow_nan _)
  | inf s => exact absurd hx (not_magBelow_inf _ _)
  | nan => exact absurd hx (not_magBelow_nan _)

/-- The rounded quotient is kept when the magnitudes allow it. -/
theorem roundRat_magBelow (s : Bool) (num den b1 : Nat) (E K : Int) (hden : den ≠ 0)
    (hnum : num < 2 ^ b1) (hK : E + (b1 : Int) - (bitLength den : Int) + 1 < K)
    (hK1 : -1074 < K) (hK2 : K ≤ 1024) : (Dbl.roundRat s num den E).magBelow K := by
  unfold Dbl.roundRat
  obtain ⟨h2, h3⟩ := two_pow_bitLength_le hden
  generalize hk : bitLength den + 64 = k
  generalize bitLength den = b2 at h2 h3 hK hk
  simp only []
  have hq : num * 2 ^ k / den < 2 ^ (b1 + 64 + 1) := by
    rw [Nat.div_lt_iff_lt_mul (by omega)]
    have e1 : num * 2 ^ k < 2 ^ b1 * 2 ^ k :=
      Nat.mul_lt_mul_of_pos_right hnum (Nat.two_pow_pos _)
    have e2 : 2 ^ (b1 + 64 + 1) * 2 ^ (b2 - 1) ≤ 2 ^ (b1 + 64 + 1) * den :=
      Nat.mul_le_mul_left _ h2
    rw [← pow_add] at e1 e2
    rw [show b1 + 64 + 1 + (b2 - 1) = b1 + k by omega] at e2
    omega
  have hst : (if num * 2 ^ k % den = 0 then 0 else 1) ≤ 1 := by split <;> omega
  generalize (if num * 2 ^ k % den = 0 then 0 else 1) = st at hst ⊢
  generalize num * 2 ^ k / den = q at hq ⊢
  have hlt : 2 * q + st < 2 ^ (b1 + 64 + 2) := by
    rw [show b1 + 64 + 2 = (b1 + 64 + 1) + 1 by omega, pow_succ]
    generalize 2 ^ (b1 + 64 + 1) = P at hq ⊢
    omega
  have hbl := bitLength_le_of_lt hlt
  generalize 2 * q + st = M at hbl ⊢
  refine round_magBelow s M _ K ?_ hK1 hK2
  omega

/-- A quotient of a kept value by a kept non-zero value is kept when the
magnitudes allow it. -/
theorem div_magBelow {x : Dbl} {s2 : Bool} {m2 : Nat} {e2 K1 L K : Int} (hx : x.magBelow K1)
    (hm2 : m2 ≠ 0) (hL : L ≤ e2 + (bitLength m2 : Int)) (hK : K1 - L + 1 < K)
    (hK1 : -1074 < K) (hK2 : K ≤ 1024) : (Dbl.div x (Dbl.fin s2 m2 e2)).magBelow K := by
  cases x with
  | fin s1 m1 e1 =>
    simp only [magBelow_fin_iff] at hx
    have h := roundRat_magBelow (s1 != s2) m1 m2 (bitLength m1) (e1 - e2) K hm2
      (lt_two_pow_bitLength m1) (by omega) hK1 hK2
    have hd : Dbl.div (Dbl.fin s1 m1 e1) (Dbl.fin s2 m2 e2)
        = Dbl.roundRat (s1 != s2) m1 m2 (e1 - e2) := by
      simp only [Dbl.div, hm2, if_false]
    rw [hd]
    exact h
  | inf s => exact absurd hx (not_magBelow_inf _ _)
  | nan => exact absurd hx (not_magBelow_nan _)

/-- The conversion of a 64-bit unsigned integer is kept, below `2^65`. -/
theorem ofNat_magBelow {n : Nat} (h : n < 2 ^ 64) : (Dbl.round false n 0).magBelow 65 := by
  have hb := bitLength_le_of_lt h
  exact round_magBelow false n 0 65 (by omega) (by omega) (by omega)

theorem neg_magBelow {x : Dbl} {K : Int} (h : x.magBelow K) : (Dbl.neg x).magBelow K := by
  cases x with
  | fin s m e =>
    rw [Dbl.neg, magBelow_fin_iff]
    exact (magBelow_fin_iff _ _ _ _).1 h
  | inf s => exact absurd h (not_magBelow_inf _ _)
  | nan => exact absurd h (not_magBelow_nan _)

/-- Rounding a kept value written with a lower exponent gives the value back. -/
theorem round_of_kept (s : Bool) (m : Nat) (e : Int) (j : Nat) (hm : m ≠ 0)
    (h1 : m < 2 ^ 53) (h3 : e ≤ 971) (h4 : m < 2 ^ 52 → e = -1074) (h2 : -1074 ≤ e) :
    Dbl.round s (m * 2 ^ j) (e - (j : Int)) = Dbl.fin s m e := by
  have hne : m * 2 ^ j ≠ 0 := Nat.mul_ne_zero hm (Nat.ne_of_gt (Nat.two_pow_pos j))
  have hbl := bitLength_mul_two_pow hm j
  have hb53 := bitLength_le_of_lt h1
  have hbeq : 2 ^ 52 ≤ m → bitLength m = 53 := by
    intro h
    exact bitLength_eq (by simpa using h) h1
  have he1 : max (e - (j : Int) + ((bitLength m + j : Nat) : Int) - 53) (-1074) = e := by
    by_cases hn : m < 2 ^ 52
    · have := h4 hn
      push_cast
      omega
    · have := hbeq (by omega)
      push_cast
      omega
  unfold Dbl.round
  rw [if_neg hne]
  simp only [hbl, he1]
  by_cases hj : j = 0
  · subst hj
    simp only [CharP.cast_eq_zero, sub_zero, le_refl, if_true, sub_self, Int.toNat_zero,
      pow_zero, Nat.mul_one]
    rw [if_neg (by omega)]
  · rw [if_neg (by omega)]
    have hsh : (e - (e - (j : Int))).toNat = j := by omega
    rw [hsh]
    have hq : m * 2 ^ j / 2 ^ j = m := Nat.mul_div_cancel _ (Nat.two_pow_pos j)
    have hr : m * 2 ^ j % 2 ^ j = 0 := Nat.mul_mod_left _ _
    have hhalf : 0 < 2 ^ (j - 1) := Nat.two_pow_pos _
    rw [hq, hr]
    have hcond : ¬(0 > 2 ^ (j - 1) ∨ 0 = 2 ^ (j - 1) ∧ m % 2 = 1) := by omega
    simp only [hcond, if_false]
    rw [if_neg (by omega), if_neg (by omega), if_neg (by omega)]

theorem signed_nat_facts (s : Bool) (M : Nat) (h : 0 < M) :
    (if s = true then (-1 : Int) else 1) * (M : Int) ≠ 0 ∧
    ((if s = true then (-1 : Int) else 1) * (M : Int)).natAbs = M ∧
    decide ((if s = true then (-1 : Int) else 1) * (M : Int) < 0) = s := by
  cases s
  · simp only [Bool.false_eq_true, if_false, one_mul, Int.natAbs_ofNat, decide_eq_false_iff_not]
    exact ⟨by omega, trivial, by omega⟩
  · simp only [if_true, neg_mul, one_mul, Int.natAbs_neg, Int.natAbs_ofNat, decide_eq_true_eq]
    exact ⟨by omega, trivial, by omega⟩

/-- Adding `+0.0` to a kept value keeps its magnitude. -/
theorem add_zero_magBelow {x : Dbl} {K : Int} (hx : x.magBelow K) :
    (Dbl.add x (Dbl.fin false 0 (-1074))).magBelow K := by
  cases x with
  | fin s m e =>
    simp only [magBelow_fin_iff] at hx
    obtain ⟨h1, h2, h3, h4, h5⟩ := hx
    simp only [Dbl.add]
    have hmin : min e (-1074) = -1074 := by omega
    obtain ⟨j, hj⟩ : ∃ j : Nat, e - (-1074) = (j : Int) := ⟨(e - (-1074)).toNat, by omega⟩
    rw [hmin, hj, Int.toNat_ofNat]
    simp only [sub_self, Int.toNat_zero, pow_zero, Nat.mul_one, Bool.false_eq_true, if_false,
      Nat.cast_zero, mul_zero, add_zero, Bool.and_false]
    by_cases hm : m = 0
    · simp only [hm, Nat.zero_mul, Nat.cast_zero, mul_zero, if_true]
      simp only [magBelow_fin_iff, bitLength_zero]
      exact ⟨by norm_num, by omega, by omega, fun _ => trivial, by omega⟩
    · have hpos : 0 < m * 2 ^ j := Nat.mul_pos (by omega) (Nat.two_pow_pos j)
      obtain ⟨hne, habs, hsign⟩ := signed_nat_facts s (m * 2 ^ j) hpos
      rw [if_neg hne, habs, hsign, show (-1074 : Int) = e - (j : Int) by omega,
        round_of_kept s m e j hm h1 h3 h4 h2]
      simp only [magBelow_fin_iff]
      exact ⟨h1, h2, h3, h4, h5⟩
  | inf s => exact absurd hx (not_magBelow_inf _ _)
  | nan => exact absurd hx (not_magBelow_nan _)

/-- The macro `SV_FINITE` is true exactly of the finite values. -/
theorem SV_FINITE_iff (x : Dbl) : SV_FINITE ieee x = x.isFinite := by
  cases x with
  | fin s m e =>
    simp only [SV_FINITE, ieee, Dbl.sub, Dbl.neg, Dbl.add, Dbl.isFinite]
    have : (if s = true then (-1 : Int) else 1) * ((m * 2 ^ (e - min e e).toNat : Nat) : Int)
        + (if (!s) = true then (-1 : Int) else 1) * ((m * 2 ^ (e - min e e).toNat : Nat) : Int)
        = 0 := by
      cases s <;> simp
    rw [if_pos this]
    simp [Dbl.eq]
  | inf s =>
    cases s <;> simp [SV_FINITE, ieee, Dbl.sub, Dbl.neg, Dbl.add, Dbl.isFinite, Dbl.eq]
  | nan => simp [SV_FINITE, ieee, Dbl.sub, Dbl.neg, Dbl.add, Dbl.isFinite, Dbl.eq]

/-! ## IEEE 754 binary64: the constants of `sv_to_double` -/

set_option maxRecDepth 1000000 in
/-- From `1e-20` on, 304 values of `tail_scale` are finite and below `2^-66`,
and the next one is `+0.0`. -/
theorem tail_scale_table : tailScalesBelow 304 (Dbl.pow10 (-20)) = true := by
  decide!

set_option maxRecDepth 100000 in
/-- The product of `+0.0` and the literal `0.1` is `+0.0`. -/
theorem zero_mul_tenth :
    Dbl.mul (Dbl.fin false 0 (-1074)) (Dbl.pow10 (-1)) = Dbl.fin false 0 (-1074) := by
  decide!

set_option maxRecDepth 100000 in
/-- The entries of `k_pow10` are finite, not zero and at least 1, and `+0.0`
divided by any of them is `+0.0`. -/
theorem k_pow10_table : ∀ u ∈ List.range 20,
    ((k_pow10 ieee).getD u ieee.zero).magAtLeast 1 ∧
    Dbl.div (Dbl.fin false 0 (-1074)) ((k_pow10 ieee).getD u ieee.zero)
      = Dbl.fin false 0 (-1074) := by
  decide!

set_option maxRecDepth 100000 in
/-- The entries of `p10_inv` are finite and below `2^-3`. -/
theorem p10_inv_table : ∀ i ∈ List.range 9,
    ((p10_inv ieee).getD i ieee.zero).magBelow (-3) := by
  decide!

/-! ## `sv_to_double` in IEEE 754 binary64: the value is finite -/

/-- The conversion of a byte value is finite and below `2^9`. -/
theorem ofNat_byte_magBelow (b : Byte) : (Dbl.round false (b.val - 48) 0).magBelow 9 := by
  have hb : b.val - 48 < 2 ^ 8 := by
    have := b.isLt
    norm_num
    omega
  have := bitLength_le_of_lt hb
  exact round_magBelow false _ 0 9 (by omega) (by omega) (by omega)

theorem mul_zero_right_of_magBelow {x : Dbl} {K : Int} (hx : x.magBelow K) :
    ∃ s, Dbl.mul x (Dbl.fin false 0 (-1074)) = Dbl.fin s 0 (-1074) := by
  obtain ⟨s, m, e, rfl, _⟩ := hx
  exact ⟨(s != false), by simp [Dbl.mul, Dbl.round]⟩

theorem add_signed_zero_magBelow {x : Dbl} {K : Int} (hx : x.magBelow K) (s : Bool) :
    (Dbl.add x (Dbl.fin s 0 (-1074))).magBelow K := by
  have h0 := add_zero_magBelow hx
  have hlow := hx.lower
  obtain ⟨s1, m, e, rfl, hp⟩ := hx
  by_cases hm : m = 0
  · subst hm
    simp only [Dbl.add, Nat.zero_mul, Nat.cast_zero, mul_zero, add_zero, if_true,
      magBelow_fin_iff, bitLength_zero]
    exact ⟨by norm_num, by omega, by omega, fun _ => trivial, by omega⟩
  · have e1 : Dbl.add (Dbl.fin s1 m e) (Dbl.fin s 0 (-1074))
        = Dbl.add (Dbl.fin s1 m e) (Dbl.fin false 0 (-1074)) := by
      simp only [Dbl.add, Nat.zero_mul, Nat.cast_zero, mul_zero, add_zero]
      have hne : (if s1 = true then (-1 : Int) else 1)
          * ((m * 2 ^ (e - min e (-1074)).toNat : Nat) : Int) ≠ 0 :=
        (signed_nat_facts s1 _ (Nat.mul_pos (by omega) (Nat.two_pow_pos _))).1
      rw [if_neg hne, if_neg hne]
    rw [e1]
    exact h0

/-- One fractional digit keeps `TailInv`. -/
theorem TailInv.step {st : FracAcc Dbl} (h : TailInv st) (b : Byte) :
    TailInv (fracStep ieee st b) := by
  obtain ⟨n, hn, hts, hft⟩ := h
  unfold fracStep
  by_cases h19 : st.frac_digits < 19
  · rw [if_pos h19]
    exact ⟨n, hn, hts, hft⟩
  · rw [if_neg h19]
    show ∃ k, k ≤ 304 ∧
      tailScalesBelow k (Dbl.mul st.tail_scale (Dbl.pow10 (-1))) = true ∧
      (Dbl.add st.frac_tail (Dbl.mul (Dbl.round false (b.val - 48) 0) st.tail_scale)).magBelow
        (552 - 2 * (k : Int))
    cases n with
    | zero =>
      have hz : st.tail_scale = Dbl.fin false 0 (-1074) := by
        simpa [tailScalesBelow] using hts
      rw [hz]
      obtain ⟨s, hs⟩ := mul_zero_right_of_magBelow (ofNat_byte_magBelow b)
      rw [hs, zero_mul_tenth]
      exact ⟨0, by omega, by simp [tailScalesBelow], add_signed_zero_magBelow hft s⟩
    | succ k =>
      simp only [tailScalesBelow, Bool.and_eq_true, decide_eq_true_eq] at hts
      obtain ⟨hlt, hnext⟩ := hts
      have ht := @mul_magBelow _ _ 9 (-66) (-56) (ofNat_byte_magBelow b) hlt (by omega)
        (by omega) (by omega)
      refine ⟨k, by omega, hnext, ?_⟩
      refine add_magBelow hft ht ?_ (by omega)
      push_cast
      omega

theorem TailInv.fold {st : FracAcc Dbl} (h : TailInv st) (ds : List Byte) :
    TailInv (fracFold ieee st ds) := by
  induction ds generalizing st with
  | nil => exact h
  | cons b ds ih => exact ih (h.step b)

theorem TailInv.init : TailInv (fracInit ieee) :=
  ⟨304, Nat.le_refl _, tail_scale_table, (magBelow_fin_iff _ _ _ _).2
    ⟨by norm_num, by omega, by omega, fun _ => rfl, by simp [bitLength_zero]⟩⟩

/-- The fractional tail that `sv_to_double` accumulates is finite. -/
theorem frac_tail_magBelow (ds : List Byte) :
    (fracFold ieee (fracInit ieee) ds).frac_tail.magBelow 552 := by
  obtain ⟨n, _, _, h⟩ := TailInv.init.fold ds
  exact h.mono (by omega)

theorem intAcc_lt (ds : List Byte) : ∀ acc, acc < 2 ^ 64 → intAcc acc ds < 2 ^ 64 := by
  induction ds with
  | nil => intro acc h; exact h
  | cons b ds ih =>
    intro acc h
    apply ih
    simp only []
    split
    · unfold u64 UINT64_MAX
      exact Nat.mod_lt _ (by norm_num)
    · exact h

theorem fracFold_acc_lt {F : Type} (fo : FloatOps F) (ds : List Byte) :
    ∀ st : FracAcc F, st.frac_acc < 2 ^ 64 → (fracFold fo st ds).frac_acc < 2 ^ 64 := by
  induction ds with
  | nil => intro st h; exact h
  | cons b ds ih =>
    intro st h
    rw [fracFold_cons]
    apply ih
    unfold fracStep
    split
    · unfold u64 UINT64_MAX
      exact Nat.mod_lt _ (by norm_num)
    · exact h

/-- The value `int_part + frac_acc / 10^k + frac_tail` that `sv_to_double`
builds from a literal is finite, below `2^556`. -/
theorem double_value_magBelow (l : DoubleLiteral) :
    (double_value ieee (l.scan ieee)).magBelow 556 := by
  have hip : (Dbl.round false (intAcc 0 l.int_digits) 0).magBelow 65 :=
    ofNat_magBelow (intAcc_lt l.int_digits 0 (by norm_num))
  have hfa : (Dbl.round false
      (fracFold ieee (fracInit ieee) (l.frac_digits.getD [])).frac_acc 0).magBelow 65 :=
    ofNat_magBelow (fracFold_acc_lt ieee _ (fracInit ieee) (by simp [fracInit]))
  have hft := frac_tail_magBelow (l.frac_digits.getD [])
  unfold double_value
  simp only [DoubleLiteral.scan]
  split
  · generalize hu : (if (fracFold ieee (fracInit ieee) (l.frac_digits.getD [])).frac_digits ≤ 19
      then (fracFold ieee (fracInit ieee) (l.frac_digits.getD [])).frac_digits else 19) = u
    have hu20 : u ∈ List.range 20 := by
      rw [List.mem_range, ← hu]; split <;> omega
    obtain ⟨⟨s2, m2, e2, hk, hm2, hL⟩, _⟩ := k_pow10_table u hu20
    have hfrac := @div_magBelow _ s2 m2 e2 65 1 66 hfa hm2 hL (by omega) (by omega) (by omega)
    rw [← hk] at hfrac
    have hsum := @add_magBelow _ _ 66 552 554 hfrac hft (by omega) (by omega)
    exact @add_magBelow _ _ 65 554 556 hip hsum (by omega) (by omega)
  · exact hip.mono (by omega)

/-- The negative scaling keeps a value finite. -/
theorem double_scale_down_magBelow : ∀ (k : Nat) (x : Dbl) (e : Int), k ≤ 9 →
    x.magBelow 556 → (double_scale_down ieee k x e).magBelow 556 := by
  intro k
  induction k with
  | zero => intro x e _ h; exact h
  | succ i ih =>
    intro x e hk h
    unfold double_scale_down
    split
    · apply ih _ _ (by omega)
      have hp := p10_inv_table i (by rw [List.mem_range]; omega)
      exact @mul_magBelow _ _ 556 (-3) 556 h hp (by omega) (by omega) (by omega)
    · exact ih _ _ (by omega) h

/-- The positive scaling, when it does not fail, gives a finite value. -/
theorem double_scale_up_finite : ∀ (k : Nat) (x y : Dbl) (e : Int), x.isFinite = true →
    double_scale_up ieee k x e = some y → y.isFinite = true := by
  intro k
  induction k with
  | zero =>
    intro x y e hx h
    simp only [double_scale_up, Option.some.injEq] at h
    rw [← h]; exact hx
  | succ i ih =>
    intro x y e hx h
    unfold double_scale_up at h
    split at h
    · simp only [] at h
      split at h
      · cases h
      · rename_i hfin
        rw [SV_FINITE_iff] at hfin
        exact ih _ _ _ (by simpa using hfin) h
    · exact ih _ _ _ hx h

theorem neg_isFinite {x : Dbl} (h : x.isFinite = true) : (Dbl.neg x).isFinite = true := by
  cases x with
  | fin s m e => rfl
  | inf s => cases h
  | nan => cases h

/-- What `sv_to_double` stores from a scanned literal is finite. -/
theorem double_finish_finite (l : DoubleLiteral) (v0 v : Dbl)
    (h : double_finish ieee (l.scan ieee) (some v0) = (true, some v)) : v.isFinite = true := by
  have hval := (double_value_magBelow l).isFinite
  unfold double_finish at h
  simp only [Option.map_some'] at h
  have hsign : ∀ (y : Dbl), y.isFinite = true →
      (if (l.scan ieee).neg = true then ieee.neg y else y).isFinite = true := by
    intro y hy
    split
    · exact neg_isFinite hy
    · exact hy
  split at h
  · simp only [Prod.mk.injEq, Option.some.injEq, true_and] at h
    rw [← h]; exact hsign _ rfl
  · split at h
    · cases h
    · split at h
      · simp only [Prod.mk.injEq, Option.some.injEq, true_and] at h
        rw [← h]; exact hsign _ rfl
      · split at h
        · cases hs : double_scale_up ieee 9 (double_value ieee (l.scan ieee))
              (double_exp_total (l.scan ieee)) with
          | none => rw [hs] at h; cases h
          | some scaled =>
            rw [hs] at h
            simp only [Prod.mk.injEq, Option.some.injEq, true_and] at h
            rw [← h]
            exact hsign _ (double_scale_up_finite 9 _ _ _ hval hs)
        · split at h
          · simp only [Prod.mk.injEq, Option.some.injEq, true_and] at h
            rw [← h]
            exact hsign _ (double_scale_down_magBelow 9 _ _ (Nat.le_refl _)
              (double_value_magBelow l)).isFinite
          · simp only [Prod.mk.injEq, Option.some.injEq, true_and] at h
            rw [← h]; exact hsign _ hval

set_option exponentiation.threshold 5000 in
set_option maxRecDepth 100000 in
/-- The runs of `sv_to_double` on `1e308` and on `1.8e308`, and the exponent
that the scan of `1.8e308` hands to the exponent checks. -/
theorem sv_to_double_near_max :
    sv_to_double ieee (strMem "1e308") (strView "1e308") (some (Dbl.fin false 7 0))
      = (true, some (Dbl.fin false 5010420900022433 971)) ∧
    sv_to_double ieee (strMem "1.8e308") (strView "1.8e308") (some (Dbl.fin false 7 0))
      = (false, some (Dbl.fin false 7 0)) ∧
    (double_scan ieee (strMem "1.8e308") (strView "1.8e308")).map double_exp_total
      = some 308 := by
  decide!

/-- C27: in IEEE 754 binary64, for every memory, every view and every output
location: when `sv_to_double` returns `true`, the value stored is finite,
neither an infinity nor a NaN.  `SV_FINITE` is true exactly of the finite
values, so a non-finite product in the positive scaling makes the parse fail:
`1e308` succeeds with a positive finite value and `1.8e308`, whose exponent 308
passes the exponent checks, returns `false`. -/
theorem sv_to_double_result_finite (mem : Memory) (sv : StringView) (v0 v : Dbl)
    (h : sv_to_double ieee mem sv (some v0) = (true, some v)) :
    v.isFinite = true ∧
    (∀ x, SV_FINITE ieee x = x.isFinite) ∧
    sv_to_double ieee (strMem "1e308") (strView "1e308") (some (Dbl.fin false 7 0))
      = (true, some (Dbl.fin false 5010420900022433 971)) ∧
    sv_to_double ieee (strMem "1.8e308") (strView "1.8e308") (some (Dbl.fin false 7 0))
      = (false, some (Dbl.fin false 7 0)) ∧
    (double_scan ieee (strMem "1.8e308") (strView "1.8e308")).map double_exp_total
      = some 308 := by
  refine ⟨?_, SV_FINITE_iff, sv_to_double_near_max⟩
  unfold sv_to_double at h
  by_cases h0 : sv.length = 0
  · rw [if_pos (Or.inr h0)] at h
    cases h
  · rw [if_neg (by simp [h0]), double_scan_eq ieee mem sv h0] at h
    cases hp : parseLiteral (sv.bytes mem) with
    | none => rw [hp] at h; cases h
    | some l =>
      rw [hp] at h
      exact double_finish_finite l v0 v h

/-- Witness for C27 at the input `1e308`. -/
theorem sv_to_double_result_finite_witness :
    sv_to_double ieee (strMem "1e308") (strView "1e308") (some (Dbl.fin false 7 0))
      = (true, some (Dbl.fin false 5010420900022433 971)) ∧
    (Dbl.fin false 5010420900022433 971).isFinite = true :=
  ⟨sv_to_double_near_max.1,
    (sv_to_double_result_finite (strMem "1e308") (strView "1e308") (Dbl.fin false 7 0)
      (Dbl.fin false 5010420900022433 971) sv_to_double_near_max.1).1⟩

/-! ## `sv_to_double` in IEEE 754 binary64: zero mantissas -/

/-- The digit value of the byte `'0'`. -/
theorem byte_zero_digit : ((48 : Byte).val - 48 : Nat) = 0 := by decide

/-- Integer digits that are all `'0'` leave `int_part` at 0. -/
theorem intAcc_zeros (ds : List Byte) (h : ∀ b ∈ ds, b = 48) : intAcc 0 ds = 0 := by
  induction ds with
  | nil => rfl
  | cons b ds ih =>
    have hb : b = 48 := h b (List.mem_cons_self b ds)
    have : intAcc 0 (b :: ds) = intAcc 0 ds := by
      subst hb
      simp [intAcc, u64, byte_zero_digit]
    rw [this]
    exact ih (fun x hx => h x (List.mem_cons_of_mem b hx))

/-- The value that `tail_scale` holds is finite. -/
theorem TailInv.scale_finite {st : FracAcc Dbl} (h : TailInv st) :
    ∃ s m e, st.tail_scale = Dbl.fin s m e := by
  obtain ⟨n, _, hts, _⟩ := h
  cases n with
  | zero => exact ⟨false, 0, -1074, by simpa [tailScalesBelow] using hts⟩
  | succ k =>
    simp only [tailScalesBelow, Bool.and_eq_true, decide_eq_true_eq] at hts
    obtain ⟨⟨s, m, e, he, _⟩, _⟩ := hts
    exact ⟨s, m, e, he⟩

/-- Fractional digits `'0'` leave `frac_acc` at 0 and `frac_tail` at `+0.0`. -/
theorem fracFold_zeros (ds : List Byte) (h : ∀ b ∈ ds, b = 48) :
    ∀ st : FracAcc Dbl, TailInv st → st.frac_acc = 0 →
      st.frac_tail = Dbl.fin false 0 (-1074) →
      (fracFold ieee st ds).frac_acc = 0 ∧
      (fracFold ieee st ds).frac_tail = Dbl.fin false 0 (-1074) := by
  induction ds with
  | nil => intro st _ h1 h2; exact ⟨h1, h2⟩
  | cons b ds ih =>
    intro st hinv h1 h2
    have hb : b = 48 := h b (List.mem_cons_self b ds)
    rw [fracFold_cons]
    apply ih (fun x hx => h x (List.mem_cons_of_mem b hx)) _ (hinv.step b)
    · unfold fracStep
      split
      · subst hb
        simp [h1, u64, byte_zero_digit]
      · exact h1
    · unfold fracStep
      split
      · exact h2
      · obtain ⟨s, m, e, hts⟩ := hinv.scale_finite
        subst hb
        show Dbl.add st.frac_tail (Dbl.mul (Dbl.round false ((48 : Byte).val - 48) 0)
          st.tail_scale) = Dbl.fin false 0 (-1074)
        rw [h2, hts, byte_zero_digit]
        simp [Dbl.round, Dbl.mul, Dbl.add]

/-- The value that `sv_to_double` builds from a literal whose integer and
fractional digits are all `'0'` is `+0.0`. -/
theorem double_value_zeros (l : DoubleLiteral) (hi : ∀ b ∈ l.int_digits, b = 48)
    (hf : ∀ b ∈ l.frac_digits.getD [], b = 48) :
    double_value ieee (l.scan ieee) = Dbl.fin false 0 (-1074) := by
  obtain ⟨h1, h2⟩ := fracFold_zeros _ hf (fracInit ieee) TailInv.init rfl rfl
  have hz : Dbl.round false 0 0 = Dbl.fin false 0 (-1074) := by simp [Dbl.round]
  unfold double_value
  simp only [DoubleLiteral.scan, h1, h2, intAcc_zeros _ hi]
  show (if _ then Dbl.add (Dbl.round false 0 0) (Dbl.add (Dbl.div (Dbl.round false 0 0) _) _)
    else Dbl.round false 0 0) = _
  rw [hz]
  split
  · generalize hu : (if (fracFold ieee (fracInit ieee) (l.frac_digits.getD [])).frac_digits ≤ 19
      then (fracFold ieee (fracInit ieee) (l.frac_digits.getD [])).frac_digits else 19) = u
    have hu20 : u ∈ List.range 20 := by
      rw [List.mem_range, ← hu]; split <;> omega
    rw [(k_pow10_table u hu20).2]
    decide
  · rfl

/-- What `sv_to_double` stores for a literal whose integer and fractional
digits are all `'0'`. -/
theorem double_finish_zeros (l : DoubleLiteral) (v0 : Dbl)
    (hi : ∀ b ∈ l.int_digits, b = 48) (hf : ∀ b ∈ l.frac_digits.getD [], b = 48) :
    double_finish ieee (l.scan ieee) (some v0)
      = (true, some (Dbl.fin (decide (l.sign = some true)) 0 (-1074))) := by
  have hv := double_value_zeros l hi hf
  unfold double_finish
  simp only [hv]
  have he : ieee.eq (Dbl.fin false 0 (-1074)) ieee.zero = true := by decide
  rw [if_pos he]
  cases hs : decide (l.sign = some true) <;> simp [DoubleLiteral.scan, hs] <;> decide

/-- C23: in IEEE 754 binary64, for every memory and every view whose bytes are
a literal of the grammar whose integer digits and fractional digits are all
`'0'`, whatever its exponent: `sv_to_double` returns `true` and stores the zero
whose sign bit is set exactly when the input begins with `'-'`.  The closed
part runs `-0`, `-0.0`, `0e999` and `+.0e-999`. -/
theorem sv_to_double_zero_mantissa (mem : Memory) (sv : StringView) (v0 : Dbl)
    (l : DoubleLiteral) (hwf : l.wf) (hb : sv.bytes mem = l.bytes)
    (hi : ∀ b ∈ l.int_digits, b = 48) (hf : ∀ b ∈ l.frac_digits.getD [], b = 48) :
    sv_to_double ieee mem sv (some v0)
      = (true, some (Dbl.fin (hasMinus (sv.bytes mem)) 0 (-1074))) ∧
    sv_to_double ieee (strMem "-0") (strView "-0") (some (Dbl.fin false 7 0))
      = (true, some (Dbl.fin true 0 (-1074))) ∧
    sv_to_double ieee (strMem "-0.0") (strView "-0.0") (some (Dbl.fin false 7 0))
      = (true, some (Dbl.fin true 0 (-1074))) ∧
    sv_to_double ieee (strMem "0e999") (strView "0e999") (some (Dbl.fin false 7 0))
      = (true, some (Dbl.fin false 0 (-1074))) ∧
    sv_to_double ieee (strMem "+.0e-999") (strView "+.0e-999") (some (Dbl.fin false 7 0))
      = (true, some (Dbl.fin false 0 (-1074))) := by
  refine ⟨?_, by decide, by decide, by decide, by decide⟩
  rw [sv_to_double_of_literal ieee mem sv v0 l hwf hb, hb, DoubleLiteral.hasMinus_bytes hwf]
  exact double_finish_zeros l v0 hi hf

set_option maxRecDepth 100000 in
/-- Witness for C23 at the input `-00.000e+400`. -/
theorem sv_to_double_zero_mantissa_witness :
    ((DoubleLiteral.mk (some true) (cstr "00") (some (cstr "000"))
        (some (false, some false, cstr "400"))).wf ∧
      (strView "-00.000e+400").bytes (strMem "-00.000e+400")
        = (DoubleLiteral.mk (some true) (cstr "00") (some (cstr "000"))
            (some (false, some false, cstr "400"))).bytes ∧
      (∀ b ∈ cstr "00", b = 48) ∧ (∀ b ∈ (some (cstr "000")).getD [], b = 48)) ∧
    sv_to_double ieee (strMem "-00.000e+400") (strView "-00.000e+400")
        (some (Dbl.fin false 7 0))
      = (true, some (Dbl.fin
          (hasMinus ((strView "-00.000e+400").bytes (strMem "-00.000e+400"))) 0 (-1074))) :=
  have hwf : (DoubleLiteral.mk (some true) (cstr "00") (some (cstr "000"))
      (some (false, some false, cstr "400"))).wf :=
    (@parseLiteral_sound ((strView "-00.000e+400").bytes (strMem "-00.000e+400")) _
      (by decide)).1
  ⟨⟨hwf, by decide, by decide, by decide⟩,
    (sv_to_double_zero_mantissa (strMem "-00.000e+400") (strView "-00.000e+400")
      (Dbl.fin false 7 0) _ hwf (by decide) (by decide) (by decide)).1⟩

end Sv
